import Mathlib

/-! Editable TCP stream (modules/tcp/tcp-stream.c).

A shallow embedding of the TCP stream reassembly and rewriting module.

Memory model.  The C module works on heap records linked by raw pointers.  The
embedding keeps the two kinds of heap records (`tcp_stream_chunk`,
`tcp_stream_chunk_modif`) in two growing tables owned by the stream; a pointer
is `Option Nat` (`none` is `NULL`, `some a` is the record with index `a`);
`malloc` appends a record, and `free` of an edit record sets its `freed` flag.
Dereferencing `NULL`, a freed record or an index outside the table is a
`Fault`, as is running out of loop fuel.  `malloc` never fails in the model.

Machine integers.  `size_t` is `Nat` modulo `2 ^ 64`, `uint32` is `Nat` modulo
`2 ^ 32`, `int` is `Int` reduced to the signed 32-bit range.

Assertions.  Every function takes `dbg : Bool`; with `dbg = true` each `assert`
of the source is checked and a failing one is `Fault.assertion`; with
`dbg = false` (a build with `NDEBUG`) the assertions are skipped.
-/

namespace Haka

/-! ## Faults and machine arithmetic -/

inductive Fault where
  | assertion
  | null_deref
  | use_after_free
  | wild_pointer
  | out_of_bounds
  | uninitialized
  | out_of_fuel
  deriving DecidableEq

abbrev M := Except Fault

/-- The value of `(size_t)-1`. -/
def SIZE_MAX : Nat := 2 ^ 64 - 1

/-- Addition of two `size_t`. -/
def size_add (a b : Nat) : Nat := (a + b) % 2 ^ 64

/-- Subtraction of two `size_t`. -/
def size_sub (a b : Nat) : Nat := (a % 2 ^ 64 + (2 ^ 64 - b % 2 ^ 64)) % 2 ^ 64

/-- Conversion of an `int` to `size_t`. -/
def size_of_int (i : Int) : Nat := (i % 2 ^ 64).toNat

/-- Conversion of an integer value to `int` (two's complement, 32 bits). -/
def int_wrap (i : Int) : Int := (i + 2 ^ 31) % 2 ^ 32 - 2 ^ 31

/-- Conversion of an integer value to `uint32`. -/
def u32_of_int (i : Int) : Nat := (i % 2 ^ 32).toNat

/-- The `assert` of the source: checked when `dbg` holds. -/
def c_assert (dbg : Bool) (cond : Prop) [Decidable cond] : M Unit :=
  if dbg then (if cond then pure () else throw Fault.assertion) else pure ()

/-! ## Segment handle

Modelled from the spec: `struct tcp` and its accessors are declared in
`haka/tcp.h`, which is not part of the sources at hand.  The handle gives the
sequence number and the acknowledgement number (both `uint32`), the SYN flag
and a resizable payload.  -/

/-- Modelled from the spec: the segment handle of section 6 (`struct tcp`). -/
structure Tcp where
  seq : Nat
  ack_seq : Nat
  syn : Bool
  payload : List Nat
  deriving DecidableEq

/-! ## Stream structures -/

inductive tcp_modif_type where
  | TCP_MODIF_INSERT
  | TCP_MODIF_ERASE
  deriving DecidableEq

open tcp_modif_type

structure tcp_stream_chunk_modif where
  type : tcp_modif_type
  position : Nat
  length : Nat
  prev : Option Nat
  next : Option Nat
  data : List Nat
  freed : Bool
  deriving DecidableEq

structure tcp_stream_chunk where
  tcp : Option Tcp
  start_seq : Nat
  end_seq : Nat
  offset_seq : Int
  modifs : Option Nat
  next : Option Nat
  deriving DecidableEq

structure tcp_stream_position where
  chunk_seq : Nat
  chunk_seq_modif : Nat
  current_seq_modif : Nat
  chunk : Option Nat
  chunk_offset : Nat
  modif : Option Nat
  modif_offset : Nat
  deriving DecidableEq

structure tcp_stream where
  seq_initialized : Bool
  start_seq : Nat
  first : Option Nat
  first_offset_seq : Int
  last : Option Nat
  sent : Option Nat
  last_sent : Option Nat
  sent_offset_seq : Int
  current_position : tcp_stream_position
  mark_position : tcp_stream_position
  pending_modif : Option Nat
  chunks : List tcp_stream_chunk
  modifs : List tcp_stream_chunk_modif
  deriving DecidableEq

/-- The error messages of the module (`error(L"...")`). -/
inductive Err where
  | memory_error
  | invalid_stream
  | invalid_sequence_number (new initial : Nat)
  | retransmit_packet
  | stream_was_not_marked
  deriving DecidableEq

/-! ## Heap access -/

/-- Read the chunk record at address `a`. -/
def get_chunk (s : tcp_stream) (a : Nat) : M tcp_stream_chunk :=
  match s.chunks[a]? with
  | some c => pure c
  | none => throw Fault.wild_pointer

/-- Read the chunk record designated by a pointer. -/
def deref_chunk (s : tcp_stream) (p : Option Nat) : M tcp_stream_chunk :=
  match p with
  | some a => get_chunk s a
  | none => throw Fault.null_deref

/-- Read the edit record at address `a`. -/
def get_modif (s : tcp_stream) (a : Nat) : M tcp_stream_chunk_modif :=
  match s.modifs[a]? with
  | some m => if m.freed then throw Fault.use_after_free else pure m
  | none => throw Fault.wild_pointer

/-- Read the edit record designated by a pointer. -/
def deref_modif (s : tcp_stream) (p : Option Nat) : M tcp_stream_chunk_modif :=
  match p with
  | some a => get_modif s a
  | none => throw Fault.null_deref

/-- Overwrite the chunk record at address `a`. -/
def set_chunk (s : tcp_stream) (a : Nat) (c : tcp_stream_chunk) : tcp_stream :=
  { s with chunks := s.chunks.set a c }

/-- Overwrite the edit record at address `a`. -/
def set_modif (s : tcp_stream) (a : Nat) (m : tcp_stream_chunk_modif) : tcp_stream :=
  { s with modifs := s.modifs.set a m }

/-- The bytes `src[off .. off + len)` read by a `memcpy`. -/
def copy_bytes (src : List Nat) (off len : Nat) : M (List Nat) :=
  if off + len ≤ src.length then pure ((src.drop off).take len)
  else throw Fault.out_of_bounds

/-! ## Stream position functions -/

def tcp_stream_position_isvalid (pos : tcp_stream_position) : Bool :=
  decide (pos.current_seq_modif ≠ SIZE_MAX)

def tcp_stream_position_invalidate (pos : tcp_stream_position) : tcp_stream_position :=
  { pos with current_seq_modif := SIZE_MAX, chunk := none, modif := none }

/-- The results of `tcp_stream_position_modif`: the returned record and the
three out-parameters (`modif_offset` is `none` when the function leaves it
unwritten). -/
structure modif_lookup where
  cur : Option Nat
  modif_offset : Option Nat
  prev : Option Nat
  next : Option Nat
  deriving DecidableEq

/-- The function `tcp_stream_position_modif`; `want_next` tells whether the
caller passes a non-null `next`. -/
def tcp_stream_position_modif (s : tcp_stream) (pos : tcp_stream_position)
    (want_next : Bool) : M modif_lookup :=
  match pos.modif with
  | some mp => do
    let m ← get_modif s mp
    if m.position = pos.chunk_offset then
      if (m.type = TCP_MODIF_INSERT ∧ pos.modif_offset ≥ m.length) ∨
          (m.type = TCP_MODIF_ERASE ∧ pos.modif_offset ≠ 0) then
        pure ⟨none, none, some mp, m.next⟩
      else
        pure ⟨some mp, some pos.modif_offset, m.prev, m.next⟩
    else
      pure ⟨none, none, some mp, m.next⟩
  | none =>
    match pos.chunk with
    | some cp =>
      if want_next then do
        let c ← get_chunk s cp
        pure ⟨none, none, none, c.modifs⟩
      else pure ⟨none, none, none, none⟩
    | none => pure ⟨none, none, none, none⟩

def tcp_stream_position_update_modif (dbg : Bool) (s : tcp_stream)
    (pos : tcp_stream_position) : M tcp_stream_position := do
  let next_modif ←
    match pos.modif with
    | some mp => do
      let m ← get_modif s mp
      if pos.chunk_offset = m.position then
        if m.type = TCP_MODIF_INSERT ∧ pos.modif_offset ≥ m.length then pure m.next
        else if m.type = TCP_MODIF_ERASE ∧ pos.modif_offset ≠ 0 then pure m.next
        else pure none
      else pure m.next
    | none =>
      match pos.chunk with
      | some cp => do
        let c ← get_chunk s cp
        pure c.modifs
      | none => pure none
  match next_modif with
  | none => pure pos
  | some np => do
    let n ← get_modif s np
    c_assert dbg (n.position ≥ pos.chunk_offset)
    if n.position = pos.chunk_offset then
      pure { pos with modif := some np, modif_offset := 0 }
    else pure pos

def tcp_stream_position_chunk_at_end (dbg : Bool) (s : tcp_stream)
    (pos : tcp_stream_position) : M Bool := do
  let c ← deref_chunk s pos.chunk
  if size_add c.start_seq pos.chunk_offset ≠ c.end_seq then pure false
  else
    let modif := match pos.modif with
      | some mp => some mp
      | none => c.modifs
    match modif with
    | none => pure true
    | some mp => do
      let m ← get_modif s mp
      match m.next with
      | some np => do
        if dbg then do
          let n ← get_modif s np
          c_assert dbg (n.position ≥ pos.chunk_offset)
        pure false
      | none => do
        c_assert dbg (m.position ≤ pos.chunk_offset)
        pure (decide (m.position ≠ pos.chunk_offset ∨ pos.modif_offset ≥ m.length))

def tcp_stream_position_next_chunk (dbg : Bool) (s : tcp_stream)
    (pos : tcp_stream_position) : M (tcp_stream_position × Bool) := do
  c_assert dbg (pos.chunk ≠ none)
  let c ← deref_chunk s pos.chunk
  let contiguous ←
    match c.next with
    | none => pure true
    | some np => do
      let n ← get_chunk s np
      pure (decide (n.start_seq = c.end_seq))
  if contiguous then do
    let pos1 := { pos with chunk := c.next,
                           chunk_seq := size_add pos.chunk_seq pos.chunk_offset }
    if dbg then do
      match pos1.chunk with
      | some np => do
        let n ← get_chunk s np
        c_assert dbg (n.start_seq = pos1.chunk_seq)
      | none => pure ()
    c_assert dbg (s.pending_modif = none)
    pure ({ pos1 with chunk_offset := 0, modif := none, modif_offset := SIZE_MAX }, true)
  else pure (pos, false)

def tcp_stream_position_chunk_is_before (s : tcp_stream) (pos : tcp_stream_position)
    (chunk : Nat) : M Bool := do
  if pos.chunk ≠ some chunk then do
    let c ← get_chunk s chunk
    pure (decide (size_add pos.chunk_seq pos.chunk_offset ≥ c.end_seq))
  else pure false

/-- The `while (true)` loop of `tcp_stream_position_advance`. -/
def tcp_stream_position_advance_loop (dbg : Bool) (s : tcp_stream) :
    Nat → tcp_stream_position → M (tcp_stream_position × Bool)
  | 0, _ => throw Fault.out_of_fuel
  | fuel + 1, pos0 => do
    let pos1 ← tcp_stream_position_update_modif dbg s pos0
    -- `none`: the function returns false; `some pos`: the loop body goes on
    let r : Option tcp_stream_position × tcp_stream_position ←
      match pos1.chunk with
      | some cp => do
        if (← tcp_stream_position_chunk_at_end dbg s pos1) then do
          let c ← get_chunk s cp
          match c.next with
          | none => pure (none, pos1)
          | some _ => do
            let (pos2, ok) ← tcp_stream_position_next_chunk dbg s pos1
            if ok then pure (some pos2, pos2) else pure (none, pos2)
        else do
          if dbg then do
            let c ← get_chunk s cp
            c_assert dbg (size_add c.start_seq pos1.chunk_offset ≤ c.end_seq)
          pure (some pos1, pos1)
      | none =>
        match pos1.modif with
        | some mp => do
          c_assert dbg (pos1.modif = s.pending_modif)
          let m ← get_modif s mp
          c_assert dbg (m.next = none)
          if pos1.modif_offset ≥ m.length then pure (none, pos1)
          else pure (some pos1, pos1)
        | none => pure (none, pos1)
    match r with
    | (none, pos2) => pure (pos2, false)
    | (some pos2, _) => do
      let lk ← tcp_stream_position_modif s pos2 false
      match lk.cur with
      | some cm => do
        let m ← get_modif s cm
        if m.type = TCP_MODIF_ERASE then do
          c_assert dbg (pos2.chunk ≠ none)
          let off := size_add pos2.chunk_offset m.length
          if dbg then do
            let c ← deref_chunk s pos2.chunk
            c_assert dbg (size_add c.start_seq off ≤ c.end_seq)
          tcp_stream_position_advance_loop dbg s fuel
            { pos2 with chunk_offset := off, modif := some cm, modif_offset := 1 }
        else pure (pos2, true)
      | none => pure (pos2, true)

def tcp_stream_position_advance (dbg : Bool) (fuel : Nat) (s : tcp_stream)
    (pos : tcp_stream_position) : M (tcp_stream_position × Bool) :=
  match pos.chunk with
  | some _ => tcp_stream_position_advance_loop dbg s fuel pos
  | none => do
    let at_first ←
      match s.first with
      | none => pure false
      | some fp => do
        let f ← get_chunk s fp
        pure (decide (f.start_seq = pos.chunk_seq))
    if at_first = false then
      match pos.modif with
      | some _ => tcp_stream_position_advance_loop dbg s fuel pos
      | none =>
        match s.pending_modif with
        | some pm =>
          tcp_stream_position_advance_loop dbg s fuel
            { pos with modif := some pm, modif_offset := 0 }
        | none => pure (pos, false)
    else do
      let f ← deref_chunk s s.first
      let pos1 := { pos with chunk := s.first, chunk_offset := 0,
                             chunk_seq_modif :=
                               size_add f.start_seq (size_of_int s.first_offset_seq) }
      c_assert dbg (pos1.chunk_seq = f.start_seq)
      match pos1.modif with
      | some mp => do
        c_assert dbg (some mp = f.modifs)
        c_assert dbg (pos1.current_seq_modif = size_add pos1.chunk_seq_modif pos1.modif_offset)
        tcp_stream_position_advance_loop dbg s fuel pos1
      | none => do
        let pos2 := { pos1 with modif := none, modif_offset := SIZE_MAX }
        c_assert dbg (pos2.current_seq_modif = pos2.chunk_seq_modif)
        tcp_stream_position_advance_loop dbg s fuel pos2

/-- The function `tcp_stream_position_read_step`; the result `none` stands for
the end-of-data value `(size_t)-1`, `some (len, bytes)` for a step that
produced `len` bytes. -/
def tcp_stream_position_read_step (dbg : Bool) (fuel : Nat) (s : tcp_stream)
    (pos0 : tcp_stream_position) (length : Nat) :
    M (tcp_stream_position × Option (Nat × List Nat)) := do
  let (pos, ok) ← tcp_stream_position_advance dbg fuel s pos0
  if ok = false then pure (pos, none)
  else do
    let lk ← tcp_stream_position_modif s pos true
    match lk.cur with
    | some cm => do
      let m ← get_modif s cm
      let modif_offset ←
        match lk.modif_offset with
        | some mo => pure mo
        | none => throw Fault.uninitialized
      c_assert dbg (m.type = TCP_MODIF_INSERT)
      c_assert dbg (modif_offset < m.length)
      let maxlength := min length (size_sub m.length modif_offset)
      let bytes ← copy_bytes m.data modif_offset maxlength
      pure ({ pos with modif := some cm,
                       modif_offset := size_add modif_offset maxlength,
                       current_seq_modif := size_add pos.current_seq_modif maxlength },
            some (maxlength, bytes))
    | none =>
      match pos.chunk with
      | some cp => do
        let c ← get_chunk s cp
        let maxlength ←
          match lk.next with
          | some np => do
            let n ← get_modif s np
            pure (min (size_sub n.position pos.chunk_offset) length)
          | none =>
            pure (min (size_sub (size_sub c.end_seq c.start_seq) pos.chunk_offset) length)
        let payload ←
          match c.tcp with
          | some t => pure t.payload
          | none => throw Fault.null_deref
        let bytes ← copy_bytes payload pos.chunk_offset maxlength
        pure ({ pos with chunk_offset := size_add pos.chunk_offset maxlength,
                         current_seq_modif := size_add pos.current_seq_modif maxlength },
              some (maxlength, bytes))
      | none => pure (pos, none)

/-- The `while (left_len > 0)` loop of `tcp_stream_position_read`; the result
carries the final `left_len` and the bytes stored so far. -/
def tcp_stream_position_read_loop (dbg : Bool) (fuel : Nat) (s : tcp_stream) :
    Nat → tcp_stream_position → Nat → List Nat → M (tcp_stream_position × Nat × List Nat)
  | n, pos, left_len, buf =>
    if left_len = 0 then pure (pos, left_len, buf)
    else
      match n with
      | 0 => throw Fault.out_of_fuel
      | n + 1 => do
        let (pos1, r) ← tcp_stream_position_read_step dbg fuel s pos left_len
        match r with
        | none => pure (pos1, left_len, buf)
        | some (len, bytes) =>
          tcp_stream_position_read_loop dbg fuel s n pos1 (size_sub left_len len) (buf ++ bytes)

/-- The function `tcp_stream_position_read`: the new position, the returned
count `length - left_len` and the bytes written to `data`. -/
def tcp_stream_position_read (dbg : Bool) (fuel : Nat) (s : tcp_stream)
    (pos : tcp_stream_position) (length : Nat) :
    M (tcp_stream_position × Nat × List Nat) := do
  let (pos1, left_len, buf) ← tcp_stream_position_read_loop dbg fuel s fuel pos length []
  pure (pos1, size_sub length left_len, buf)

/-- The inner `while (pos->modif->next)` loop of
`tcp_stream_position_skip_available`: the final `modif` and `modif_offset`. -/
def tcp_stream_position_skip_modifs (s : tcp_stream) :
    Nat → Nat → Nat → M (Nat × Nat)
  | 0, _, _ => throw Fault.out_of_fuel
  | n + 1, mp, mo => do
    let m ← get_modif s mp
    match m.next with
    | none => pure (mp, mo)
    | some np => do
      let nx ← get_modif s np
      match nx.type with
      | TCP_MODIF_INSERT => tcp_stream_position_skip_modifs s n np nx.length
      | TCP_MODIF_ERASE => tcp_stream_position_skip_modifs s n np 1

/-- The outer `while (true)` loop of `tcp_stream_position_skip_available`. -/
def tcp_stream_position_skip_available_loop (dbg : Bool) (fuel : Nat) (s : tcp_stream) :
    Nat → tcp_stream_position → Nat → M (tcp_stream_position × Nat)
  | 0, _, _ => throw Fault.out_of_fuel
  | n + 1, pos0, total_length => do
    let (pos, ok) ← tcp_stream_position_advance dbg fuel s pos0
    if ok = false then pure (pos, total_length)
    else
      match pos.chunk with
      | some cp => do
        let c ← get_chunk s cp
        let chunk_length := size_add (size_sub c.end_seq c.start_seq) (size_of_int c.offset_seq)
        let length := size_sub chunk_length (size_sub pos.current_seq_modif pos.chunk_seq_modif)
        let pos1 := { pos with chunk_offset := size_sub c.end_seq c.start_seq }
        let pos2 :=
          match pos1.modif with
          | none => { pos1 with modif := c.modifs }
          | some _ => pos1
        let pos3 ←
          match pos2.modif with
          | some mp => do
            let (mp1, mo1) ← tcp_stream_position_skip_modifs s fuel mp pos2.modif_offset
            pure { pos2 with modif := some mp1, modif_offset := mo1 }
          | none => pure { pos2 with modif_offset := SIZE_MAX }
        tcp_stream_position_skip_available_loop dbg fuel s n
          { pos3 with current_seq_modif := size_add pos3.current_seq_modif length }
          (size_add total_length length)
      | none =>
        match pos.modif with
        | some mp => do
          let m ← get_modif s mp
          c_assert dbg (m.type = TCP_MODIF_INSERT)
          let length := size_sub m.length pos.modif_offset
          tcp_stream_position_skip_available_loop dbg fuel s n
            { pos with modif_offset := m.length,
                       current_seq_modif := size_add pos.current_seq_modif length }
            (size_add total_length length)
        | none => pure (pos, total_length)

def tcp_stream_position_skip_available (dbg : Bool) (fuel : Nat) (s : tcp_stream)
    (pos : tcp_stream_position) : M (tcp_stream_position × Nat) :=
  tcp_stream_position_skip_available_loop dbg fuel s fuel pos 0

def tcp_stream_position_try_advance_chunk (dbg : Bool) (s : tcp_stream)
    (pos : tcp_stream_position) (chunk : Option Nat) : M tcp_stream_position :=
  if pos.chunk ≠ none ∧ pos.chunk = chunk then do
    if (← tcp_stream_position_chunk_at_end dbg s pos) then do
      let (pos1, _) ← tcp_stream_position_next_chunk dbg s pos
      pure pos1
    else pure pos
  else pure pos

def tcp_stream_position_isbefore (pos1 pos2 : tcp_stream_position) : Bool :=
  decide (pos1.current_seq_modif ≤ pos2.current_seq_modif)

/-! ## Stream functions -/

/-- The all-zero position left by `memset`. -/
def zero_position : tcp_stream_position :=
  { chunk_seq := 0, chunk_seq_modif := 0, current_seq_modif := 0, chunk := none,
    chunk_offset := 0, modif := none, modif_offset := 0 }

def tcp_stream_create : tcp_stream :=
  { seq_initialized := false, start_seq := 0, first := none, first_offset_seq := 0,
    last := none, sent := none, last_sent := none, sent_offset_seq := 0,
    current_position := zero_position,
    mark_position := tcp_stream_position_invalidate zero_position,
    pending_modif := none, chunks := [], modifs := [] }

/-- The `do ... while` search of `tcp_stream_push`.  After its first step the
cursor `iter` always designates the `next` field of a chunk; `a` is that
chunk.  The result is the chunk whose `next` field `iter` designates when the
loop ends. -/
def tcp_stream_push_search (s : tcp_stream) (start_seq : Nat) : Nat → Nat → M Nat
  | 0, _ => throw Fault.out_of_fuel
  | n + 1, a => do
    let c ← get_chunk s a
    match c.next with
    | none => pure a
    | some b => do
      let nx ← get_chunk s b
      if nx.start_seq < start_seq then tcp_stream_push_search s start_seq n b
      else pure a

/-- The function `tcp_stream_push`; the result `none` is `true`, `some e` is
`false` with the error `e` reported.  The chunk record is allocated where the
source links it (a chunk freed on an error path was never visible). -/
def tcp_stream_push (dbg : Bool) (fuel : Nat) (s : tcp_stream) (tcp : Tcp) :
    M (tcp_stream × Option Err) :=
  if tcp.syn then
    if s.seq_initialized = false then
      pure ({ s with start_seq := (tcp.seq + 1) % 2 ^ 32, seq_initialized := true }, none)
    else pure (s, none)
  else if s.seq_initialized = false then pure (s, some Err.invalid_stream)
  else if tcp.seq < s.start_seq then
    pure (s, some (Err.invalid_sequence_number tcp.seq s.start_seq))
  else
    let start_seq := size_sub tcp.seq s.start_seq
    let end_seq := size_add start_seq tcp.payload.length
    let cur := size_add s.current_position.chunk_seq s.current_position.chunk_offset
    if start_seq < cur ∨ end_seq < cur then pure (s, some Err.retransmit_packet)
    else
      let chunk : tcp_stream_chunk :=
        { tcp := some tcp, start_seq := start_seq, end_seq := end_seq, offset_seq := 0,
          modifs := none, next := none }
      let addr := s.chunks.length
      match s.last with
      | none =>
        pure ({ s with chunks := s.chunks ++ [chunk], first := some addr, last := some addr },
              none)
      | some lp => do
        let l ← get_chunk s lp
        let origin ←
          (if l.start_seq < start_seq then pure lp
           else
             match s.first with
             | some fp => pure fp
             | none => throw Fault.null_deref : M Nat)
        let a ← tcp_stream_push_search s start_seq fuel origin
        let ac ← get_chunk s a
        let next ←
          (match ac.next with
           | some b => do
             let nx ← get_chunk s b
             if end_seq ≤ nx.start_seq then pure (some nx.next) else pure none
           | none => pure (some none) : M (Option (Option Nat)))
        match next with
        | none => pure (s, some Err.retransmit_packet)
        | some nxt => do
          let s1 := { s with chunks := s.chunks ++ [{ chunk with next := nxt }] }
          let s2 := set_chunk s1 a { ac with next := some addr }
          match s2.pending_modif with
          | some pm => do
            let c ← get_chunk s2 addr
            c_assert dbg (c.modifs = none)
            let m ← get_modif s2 pm
            c_assert dbg (m.next = none ∧ m.prev = none)
            c_assert dbg (m.position = 0)
            let off := int_wrap (size_add (size_of_int c.offset_seq) m.length)
            let s3 := set_chunk s2 addr { c with modifs := some pm, offset_seq := off }
            pure ({ s3 with pending_modif := none, last := some addr }, none)
          | none => pure ({ s2 with last := some addr }, none)

/-- The function `tcp_stream_chunk_release` (its loop, then `chunk->modifs = NULL`
is done by the caller of this loop). -/
def tcp_stream_chunk_release_loop : Nat → tcp_stream → Option Nat → M tcp_stream
  | _, s, none => pure s
  | 0, _, some _ => throw Fault.out_of_fuel
  | n + 1, s, some mp => do
    let m ← get_modif s mp
    tcp_stream_chunk_release_loop n (set_modif s mp { m with freed := true }) m.next

def tcp_stream_chunk_release (fuel : Nat) (s : tcp_stream) (chunk : Nat) : M tcp_stream := do
  let c ← get_chunk s chunk
  let s1 ← tcp_stream_chunk_release_loop fuel s c.modifs
  let c1 ← get_chunk s1 chunk
  pure (set_chunk s1 chunk { c1 with modifs := none })

/-- Apply `f` to the chunk record designated by `p` (a field assignment
`p->field = ...`). -/
def update_chunk (s : tcp_stream) (p : Option Nat)
    (f : tcp_stream_chunk → tcp_stream_chunk) : M tcp_stream :=
  match p with
  | none => throw Fault.null_deref
  | some a => do
    let c ← get_chunk s a
    pure (set_chunk s a (f c))

/-- Apply `f` to the edit record designated by `p` (a field assignment
`p->field = ...`). -/
def update_modif (s : tcp_stream) (p : Option Nat)
    (f : tcp_stream_chunk_modif → tcp_stream_chunk_modif) : M tcp_stream :=
  match p with
  | none => throw Fault.null_deref
  | some a => do
    let m ← get_modif s a
    pure (set_modif s a (f m))

/-- The body of the block `if (chunk && tcp_stream_position_chunk_is_before(pos, chunk))`
of `tcp_stream_pop`, which emits the chunk `cp`: the stream afterwards and the
returned segment. -/
def tcp_stream_pop_emit (dbg : Bool) (fuel : Nat) (s2 : tcp_stream) (cp : Nat) :
    M (tcp_stream × Option Tcp) := do
  let c ← get_chunk s2 cp
  let tcp ←
    (match c.tcp with
      | some t => pure t
      | none => throw Fault.null_deref : M Tcp)
  let tcp1 ←
    (match c.modifs with
      | some _ => do
        let new_size := size_add (size_sub c.end_seq c.start_seq) (size_of_int c.offset_seq)
        let seq_modif := size_add c.start_seq (size_of_int s2.first_offset_seq)
        let tmp : tcp_stream_position :=
          { chunk := some cp, chunk_offset := 0, modif := none, modif_offset := 0,
            chunk_seq := c.start_seq, chunk_seq_modif := seq_modif,
            current_seq_modif := seq_modif }
        let (_, size, buffer) ← tcp_stream_position_read dbg fuel s2 tmp new_size
        c_assert dbg (size = new_size)
        -- `memcpy(payload, buffer, new_size)` reads `new_size` bytes of `buffer`
        if size = new_size then pure { tcp with payload := buffer }
        else throw Fault.uninitialized
      | none => pure tcp : M Tcp)
  let tcp2 := { tcp1 with seq := u32_of_int (tcp1.seq + s2.first_offset_seq) }
  let s3 := { s2 with first_offset_seq := int_wrap (s2.first_offset_seq + c.offset_seq),
                      first := c.next }
  (if s3.last = some cp then c_assert dbg (c.next = none) else pure () : M Unit)
  let s4 := { s3 with last := if s3.last = some cp then none else s3.last }
  let s5 ← update_chunk s4 (some cp) (fun x => { x with next := none })
  let s6 ←
    (match s5.last_sent with
      | some lp => do
        let l ← get_chunk s5 lp
        c_assert dbg (l.end_seq = c.start_seq)
        let s5b ← update_chunk s5 (some lp) (fun x => { x with next := some cp })
        pure { s5b with last_sent := some cp }
      | none => pure { s5 with last_sent := some cp, sent := some cp } : M tcp_stream)
  let s7 ← update_chunk s6 (some cp) (fun x => { x with tcp := none })
  let s8 ← tcp_stream_chunk_release fuel s7 cp
  pure (s8, some tcp2)

/-- The function `tcp_stream_pop`: the stream afterwards and the returned
segment (`none` is `NULL`). -/
def tcp_stream_pop (dbg : Bool) (fuel : Nat) (s : tcp_stream) :
    M (tcp_stream × Option Tcp) := do
  let chunk := s.first
  c_assert dbg (tcp_stream_position_isvalid s.mark_position = false ∨
    tcp_stream_position_isbefore s.mark_position s.current_position = true)
  let (cur1, _) ← tcp_stream_position_advance dbg fuel s s.current_position
  let s1 := { s with current_position := cur1 }
  let (s2, pos) ←
    (if tcp_stream_position_isvalid s1.mark_position then do
      let cur2 ← tcp_stream_position_try_advance_chunk dbg s1 cur1 chunk
      let s1b := { s1 with current_position := cur2 }
      let (mk1, _) ← tcp_stream_position_advance dbg fuel s1b s1b.mark_position
      let mk2 ← tcp_stream_position_try_advance_chunk dbg s1b mk1 chunk
      pure ({ s1b with mark_position := mk2 }, mk2)
    else do
      let (cur2, _) ← tcp_stream_position_skip_available dbg fuel s1 cur1
      let cur3 ← tcp_stream_position_try_advance_chunk dbg s1 cur2 chunk
      pure ({ s1 with current_position := cur3 }, cur3) :
        M (tcp_stream × tcp_stream_position))
  match chunk with
  | none => pure (s2, none)
  | some cp => do
    if (← tcp_stream_position_chunk_is_before s2 pos cp) then
      tcp_stream_pop_emit dbg fuel s2 cp
    else pure (s2, none)

/-- The `while (iter)` loop of `tcp_stream_ack`: the final `new_seq`. -/
def tcp_stream_ack_loop (dbg : Bool) (s : tcp_stream) (ack : Nat) :
    Nat → Option Nat → Nat → Nat → M Nat
  | _, none, _, new_seq => pure new_seq
  | 0, some _, _, _ => throw Fault.out_of_fuel
  | n + 1, some ip, seq, new_seq => do
    let c ← get_chunk s ip
    if size_add c.end_seq (size_of_int c.offset_seq) > ack then pure new_seq
    else do
      let seq1 := (seq + size_add (size_sub c.end_seq c.start_seq) (size_of_int c.offset_seq))
                    % 2 ^ 32
      let new_seq1 := c.end_seq % 2 ^ 32
      if ack ≤ seq1 then pure new_seq1
      else do
        if dbg then do
          match c.next with
          | some np => do
            let nx ← get_chunk s np
            c_assert dbg (nx.start_seq = c.end_seq)
          | none => pure ()
        tcp_stream_ack_loop dbg s ack n c.next seq1 new_seq1

/-- The function `tcp_stream_ack`: the reverse segment afterwards. -/
def tcp_stream_ack (dbg : Bool) (fuel : Nat) (s : tcp_stream) (tcp : Tcp) : M Tcp :=
  match s.sent with
  | none => pure tcp
  | some sp => do
    let ack := size_sub tcp.ack_seq s.start_seq % 2 ^ 32
    let f ← get_chunk s sp
    let seq := size_add (size_of_int s.sent_offset_seq) f.start_seq % 2 ^ 32
    let new_seq := f.start_seq % 2 ^ 32
    let r ← tcp_stream_ack_loop dbg s ack fuel (some sp) seq new_seq
    pure { tcp with ack_seq := size_add r s.start_seq % 2 ^ 32 }

/-- The function `tcp_stream_read`: the stream afterwards, the returned count
and the bytes written to `data`. -/
def tcp_stream_read (dbg : Bool) (fuel : Nat) (s : tcp_stream) (length : Nat) :
    M (tcp_stream × Nat × List Nat) := do
  let (pos, n, data) ← tcp_stream_position_read dbg fuel s s.current_position length
  pure ({ s with current_position := pos }, n, data)

def tcp_stream_available (dbg : Bool) (fuel : Nat) (s : tcp_stream) : M Nat := do
  let position := s.current_position
  let (_, n) ← tcp_stream_position_skip_available dbg fuel s position
  pure n

/-- The function `tcp_stream_create_insert_modif`: the stream afterwards and
the address of the new record. -/
def tcp_stream_create_insert_modif (s : tcp_stream) (prev next : Option Nat)
    (data : List Nat) : M (tcp_stream × Nat) := do
  let length := data.length
  let pos := s.current_position
  let addr := s.modifs.length
  let new_modif : tcp_stream_chunk_modif :=
    { type := TCP_MODIF_INSERT, position := pos.chunk_offset, length := length,
      prev := none, next := none, data := data, freed := false }
  let s1 := { s with modifs := s.modifs ++ [new_modif] }
  let s2 ←
    match prev with
    | some pp => do
      let p ← get_modif s1 pp
      let s1a ← update_modif s1 (some addr) (fun m => { m with prev := some pp, next := p.next })
      let s1b ←
        match p.next with
        | some np => update_modif s1a (some np) (fun m => { m with prev := some addr })
        | none => pure s1a
      update_modif s1b (some pp) (fun m => { m with next := some addr })
    | none => do
      let s1a ← update_modif s1 (some addr) (fun m => { m with next := next, prev := none })
      match pos.chunk with
      | some cp => update_chunk s1a (some cp) (fun c => { c with modifs := some addr })
      | none => pure s1a
  let s3 ←
    match pos.chunk with
    | some cp =>
      update_chunk s2 (some cp)
        (fun c => { c with offset_seq := int_wrap (size_add (size_of_int c.offset_seq) length) })
    | none => pure s2
  pure ({ s3 with current_position :=
            { s3.current_position with
                modif := some addr, modif_offset := length,
                current_seq_modif := size_add s3.current_position.current_seq_modif length } },
        addr)

/-- The function `tcp_stream_update_insert_modif`; `modif_offset` is `none`
when the caller passes a variable it never assigned. -/
def tcp_stream_update_insert_modif (dbg : Bool) (s : tcp_stream) (cur_modif : Option Nat)
    (data : List Nat) (modif_offset : Option Nat) : M (tcp_stream × Nat) := do
  let length := data.length
  let cur ← deref_modif s cur_modif
  c_assert dbg (cur.type = TCP_MODIF_INSERT)
  let pos := s.current_position
  let mo ←
    match modif_offset with
    | some mo => pure mo
    | none => throw Fault.uninitialized
  let head ← copy_bytes cur.data 0 mo
  let tail ← copy_bytes cur.data mo (size_sub cur.length mo)
  let addr := s.modifs.length
  let new_modif : tcp_stream_chunk_modif :=
    { type := TCP_MODIF_INSERT, position := cur.position,
      length := size_add cur.length length,
      prev := cur.prev, next := cur.next, data := head ++ data ++ tail, freed := false }
  let s1 := { s with modifs := s.modifs ++ [new_modif] }
  let s2 ←
    match cur.next with
    | some np => update_modif s1 (some np) (fun m => { m with prev := some addr })
    | none => pure s1
  let s3 ←
    match cur.prev with
    | some pp => update_modif s2 (some pp) (fun m => { m with next := some addr })
    | none => pure s2
  let s4 ←
    match pos.chunk with
    | some cp =>
      update_chunk s3 (some cp)
        (fun c => { c with offset_seq := int_wrap (size_add (size_of_int c.offset_seq) length) })
    | none => pure s3
  let s5 ← update_modif s4 cur_modif (fun m => { m with freed := true })
  pure ({ s5 with current_position :=
            { s5.current_position with
                modif := some addr, modif_offset := size_add mo length,
                current_seq_modif := size_add s5.current_position.current_seq_modif length } },
        length)

/-- The function `tcp_stream_insert`: the stream afterwards and the returned
count. -/
def tcp_stream_insert (dbg : Bool) (fuel : Nat) (s : tcp_stream) (data : List Nat) :
    M (tcp_stream × Nat) := do
  let (pos, _) ← tcp_stream_position_advance dbg fuel s s.current_position
  let s1 := { s with current_position := pos }
  match pos.chunk with
  | none =>
    match s1.pending_modif with
    | some pm => tcp_stream_update_insert_modif dbg s1 (some pm) data none
    | none => do
      let (s2, addr) ← tcp_stream_create_insert_modif s1 none none data
      pure ({ s2 with pending_modif := some addr }, data.length)
  | some _ => do
    let lk ← tcp_stream_position_modif s1 pos true
    match lk.cur with
    | some cm => tcp_stream_update_insert_modif dbg s1 (some cm) data lk.modif_offset
    | none => do
      let (s2, _) ← tcp_stream_create_insert_modif s1 lk.prev lk.next data
      pure (s2, data.length)

/-- The block `/* Remove modif */` of `tcp_stream_erase`: the insert record
`cur` (at address `cm`) is unlinked. -/
def tcp_stream_erase_remove_modif (dbg : Bool) (s1 : tcp_stream) (pos : tcp_stream_position)
    (lk : modif_lookup) (cm : Nat) (cur : tcp_stream_chunk_modif) : M tcp_stream := do
  let sa ←
    match cur.next with
    | some np => update_modif s1 (some np) (fun m => { m with prev := cur.prev })
    | none => pure s1
  let sb ←
    match cur.prev with
    | some pp => update_modif sa (some pp) (fun m => { m with next := cur.next })
    | none => pure sa
  let sc ←
    match lk.prev with
    | none => do
      let c ← deref_chunk sb pos.chunk
      c_assert dbg (c.modifs = some cm)
      update_chunk sb pos.chunk (fun c => { c with modifs := cur.next })
    | some _ => pure sb
  if sc.current_position.modif = some cm then
    pure { sc with current_position :=
             { sc.current_position with modif := lk.prev, modif_offset := SIZE_MAX } }
  else pure sc

/-- The block `/* Modify an existing modif */` of `tcp_stream_erase`: the insert
record `cur` (at address `cm`) is replaced by a shorter one. -/
def tcp_stream_erase_modify_modif (dbg : Bool) (s1 : tcp_stream) (pos : tcp_stream_position)
    (lk : modif_lookup) (cm : Nat) (cur : tcp_stream_chunk_modif)
    (modif_offset erase_length : Nat) : M tcp_stream := do
  let head ← copy_bytes cur.data 0 modif_offset
  let tail ← copy_bytes cur.data (size_add modif_offset erase_length)
    (size_sub (size_sub cur.length modif_offset) erase_length)
  let addr := s1.modifs.length
  let new_modif : tcp_stream_chunk_modif :=
    { type := TCP_MODIF_INSERT, position := cur.position,
      length := size_sub cur.length erase_length,
      prev := cur.prev, next := cur.next, data := head ++ tail, freed := false }
  let sa := { s1 with modifs := s1.modifs ++ [new_modif] }
  let sb ←
    match cur.next with
    | some np => update_modif sa (some np) (fun m => { m with prev := some addr })
    | none => pure sa
  let sc ←
    match cur.prev with
    | some pp => update_modif sb (some pp) (fun m => { m with next := some addr })
    | none => pure sb
  let sd ←
    match lk.prev with
    | none => do
      let c ← deref_chunk sc pos.chunk
      c_assert dbg (c.modifs = some cm)
      update_chunk sc pos.chunk (fun c => { c with modifs := some addr })
    | some _ => pure sc
  if sd.current_position.modif = some cm then
    pure { sd with current_position :=
             { sd.current_position with modif := some addr } }
  else pure sd

/-- The block `if (cur_modif) { ... }` of `tcp_stream_erase`: the cursor is on
inserted bytes, which are erased from their record; the stream afterwards and
`erase_length`. -/
def tcp_stream_erase_inserted (dbg : Bool) (s1 : tcp_stream) (pos : tcp_stream_position)
    (lk : modif_lookup) (cm : Nat) (length : Nat) : M (tcp_stream × Nat) := do
  let cur ← get_modif s1 cm
  c_assert dbg (cur.type = TCP_MODIF_INSERT)
  let modif_offset ←
    match lk.modif_offset with
    | some mo => pure mo
    | none => throw Fault.uninitialized
  let max_erase := size_sub cur.length pos.modif_offset
  let erase_length := min max_erase length
  let s3 ←
    if cur.length = erase_length then tcp_stream_erase_remove_modif dbg s1 pos lk cm cur
    else tcp_stream_erase_modify_modif dbg s1 pos lk cm cur modif_offset erase_length
  let s4 ← update_chunk s3 pos.chunk
    (fun c => { c with offset_seq :=
                  int_wrap (size_sub (size_of_int c.offset_seq) erase_length) })
  let s5 ← update_modif s4 (some cm) (fun m => { m with freed := true })
  pure (s5, erase_length)

/-- The block `else { ... }` of `tcp_stream_erase`: the cursor is on payload
bytes, an erase record is created; the stream afterwards and `erase_length`. -/
def tcp_stream_erase_payload (s1 : tcp_stream) (pos : tcp_stream_position)
    (lk : modif_lookup) (length : Nat) : M (tcp_stream × Nat) := do
  let max_erase ←
    match lk.next with
    | some np => do
      let nx ← get_modif s1 np
      pure (size_sub nx.position pos.chunk_offset)
    | none => do
      let c ← deref_chunk s1 pos.chunk
      pure (size_sub (size_sub c.end_seq c.start_seq) pos.chunk_offset)
  let erase_length := min max_erase length
  let addr := s1.modifs.length
  let new_modif : tcp_stream_chunk_modif :=
    { type := TCP_MODIF_ERASE, position := pos.chunk_offset, length := erase_length,
      prev := none, next := none, data := [], freed := false }
  let sa := { s1 with modifs := s1.modifs ++ [new_modif] }
  let sb ←
    match lk.prev with
    | some pp => do
      let p ← get_modif sa pp
      let sa1 ← update_modif sa (some addr)
        (fun m => { m with prev := some pp, next := p.next })
      let sa2 ←
        match p.next with
        | some np => update_modif sa1 (some np) (fun m => { m with prev := some addr })
        | none => pure sa1
      update_modif sa2 (some pp) (fun m => { m with next := some addr })
    | none => do
      let sa1 ← update_modif sa (some addr)
        (fun m => { m with next := lk.next, prev := none })
      update_chunk sa1 pos.chunk (fun c => { c with modifs := some addr })
  let sc ← update_chunk sb pos.chunk
    (fun c => { c with offset_seq :=
                  int_wrap (size_sub (size_of_int c.offset_seq) erase_length) })
  pure ({ sc with current_position :=
            { sc.current_position with
                modif := some addr, modif_offset := 1,
                chunk_offset := size_add sc.current_position.chunk_offset erase_length } },
        erase_length)

/-- The function `tcp_stream_erase`, with fuel for its tail call. -/
def tcp_stream_erase (dbg : Bool) (fuel : Nat) :
    Nat → tcp_stream → Nat → M (tcp_stream × Nat)
  | 0, _, _ => throw Fault.out_of_fuel
  | n + 1, s, length => do
    let (pos, ok) ← tcp_stream_position_advance dbg fuel s s.current_position
    let s1 := { s with current_position := pos }
    if ok = false then pure (s1, 0)
    else do
      let lk ← tcp_stream_position_modif s1 pos true
      let (s2, erase_length) ←
        (match lk.cur with
         | some cm => tcp_stream_erase_inserted dbg s1 pos lk cm length
         | none => tcp_stream_erase_payload s1 pos lk length : M (tcp_stream × Nat))
      if erase_length > 0 ∧ erase_length < length then do
        let (s6, r) ← tcp_stream_erase dbg fuel n s2 (size_sub length erase_length)
        pure (s6, size_add erase_length r)
      else pure (s2, erase_length)

/-- The function `tcp_stream_replace`. -/
def tcp_stream_replace (dbg : Bool) (fuel : Nat) (s : tcp_stream) (data : List Nat) :
    M (tcp_stream × Nat) := do
  let (s1, ret) ← tcp_stream_insert dbg fuel s data
  let (s2, _) ← tcp_stream_erase dbg fuel fuel s1 data.length
  pure (s2, ret)

def tcp_stream_mark (s : tcp_stream) : tcp_stream × Bool :=
  ({ s with mark_position := s.current_position }, true)

/-- The function `tcp_stream_unmark`; `none` is `true`, `some e` is `false`
with the error `e` reported. -/
def tcp_stream_unmark (s : tcp_stream) : tcp_stream × Option Err :=
  if tcp_stream_position_isvalid s.mark_position then
    ({ s with mark_position := tcp_stream_position_invalidate s.mark_position }, none)
  else (s, some Err.stream_was_not_marked)

/-- The function `tcp_stream_rewind`; `none` is `true`, `some e` is `false`
with the error `e` reported. -/
def tcp_stream_rewind (s : tcp_stream) : tcp_stream × Option Err :=
  if tcp_stream_position_isvalid s.mark_position then
    ({ s with current_position := s.mark_position,
              mark_position := tcp_stream_position_invalidate s.mark_position }, none)
  else (s, some Err.stream_was_not_marked)

/-! ## Traces of public operations -/

deriving instance DecidableEq for Except

inductive Op where
  | push (tcp : Tcp)
  | pop
  | ack (tcp : Tcp)
  | read (length : Nat)
  | available
  | insert (data : List Nat)
  | replace (data : List Nat)
  | erase (length : Nat)
  | mark
  | unmark
  | rewind
  deriving DecidableEq

/-- One public operation, keeping only the stream it leaves. -/
def step (dbg : Bool) (fuel : Nat) (s : tcp_stream) : Op → M tcp_stream
  | Op.push tcp => do
    let (s1, _) ← tcp_stream_push dbg fuel s tcp
    pure s1
  | Op.pop => do
    let (s1, _) ← tcp_stream_pop dbg fuel s
    pure s1
  | Op.ack tcp => do
    let _ ← tcp_stream_ack dbg fuel s tcp
    pure s
  | Op.read length => do
    let (s1, _, _) ← tcp_stream_read dbg fuel s length
    pure s1
  | Op.available => do
    let _ ← tcp_stream_available dbg fuel s
    pure s
  | Op.insert data => do
    let (s1, _) ← tcp_stream_insert dbg fuel s data
    pure s1
  | Op.replace data => do
    let (s1, _) ← tcp_stream_replace dbg fuel s data
    pure s1
  | Op.erase length => do
    let (s1, _) ← tcp_stream_erase dbg fuel fuel s length
    pure s1
  | Op.mark => pure (tcp_stream_mark s).1
  | Op.unmark => pure (tcp_stream_unmark s).1
  | Op.rewind => pure (tcp_stream_rewind s).1

/-- A sequence of public operations from a given stream. -/
def run (dbg : Bool) (fuel : Nat) : tcp_stream → List Op → M tcp_stream
  | s, [] => pure s
  | s, op :: ops => do
    let s1 ← step dbg fuel s op
    run dbg fuel s1 ops

/-- A SYN segment. -/
def syn_segment (seq : Nat) : Tcp := { seq := seq, ack_seq := 0, syn := true, payload := [] }

/-- A data segment. -/
def data_segment (seq : Nat) (payload : List Nat) : Tcp :=
  { seq := seq, ack_seq := 0, syn := false, payload := payload }

/-! ## Views of the linked structures -/

/-- The addresses of the chunks of a list, following `next` from `p`. -/
def chunk_list (s : tcp_stream) : Nat → Option Nat → M (List Nat)
  | _, none => pure []
  | 0, some _ => throw Fault.out_of_fuel
  | n + 1, some a => do
    let c ← get_chunk s a
    let rest ← chunk_list s n c.next
    pure (a :: rest)

/-- The ranges `(start_seq, end_seq)` of the pending chunks, in list order. -/
def pending_ranges (fuel : Nat) (s : tcp_stream) : M (List (Nat × Nat)) := do
  let l ← chunk_list s fuel s.first
  l.mapM (fun a => do
    let c ← get_chunk s a
    pure (c.start_seq, c.end_seq))

/-- The order required of the pending list: for every adjacent pair `(a, b)`,
`a.start_seq < b.start_seq` and `a.end_seq ≤ b.start_seq`. -/
def PendingOrdered : List (Nat × Nat) → Prop
  | [] => True
  | [_] => True
  | a :: b :: rest => (a.1 < b.1 ∧ a.2 ≤ b.1) ∧ PendingOrdered (b :: rest)

instance PendingOrdered.decide : (l : List (Nat × Nat)) → Decidable (PendingOrdered l)
  | [] => isTrue trivial
  | [_] => isTrue trivial
  | a :: b :: rest =>
    match PendingOrdered.decide (b :: rest) with
    | isTrue h =>
      if h1 : a.1 < b.1 ∧ a.2 ≤ b.1 then isTrue ⟨h1, h⟩
      else isFalse (fun h2 => h1 h2.1)
    | isFalse h => isFalse (fun h2 => h h2.2)

/-- The edit records of a list, following `next` from `p`. -/
def modif_list (s : tcp_stream) : Nat → Option Nat → M (List tcp_stream_chunk_modif)
  | _, none => pure []
  | 0, some _ => throw Fault.out_of_fuel
  | n + 1, some a => do
    let m ← get_modif s a
    let rest ← modif_list s n m.next
    pure (m :: rest)

/-- The length delta of a list of edit records: the lengths of the inserts
minus the lengths of the erases. -/
def edits_delta : List tcp_stream_chunk_modif → Int
  | [] => 0
  | m :: ms =>
    match m.type with
    | TCP_MODIF_INSERT => (m.length : Int) + edits_delta ms
    | TCP_MODIF_ERASE => - (m.length : Int) + edits_delta ms

/-- The bytes inserted at position `i` by a list of edit records. -/
def inserted_at (edits : List tcp_stream_chunk_modif) (i : Nat) : List Nat :=
  (edits.filter (fun m => m.type = TCP_MODIF_INSERT ∧ m.position = i)).flatMap (fun m => m.data)

/-- Whether the payload byte at position `i` is in the range of an erase. -/
def erased_at (edits : List tcp_stream_chunk_modif) (i : Nat) : Bool :=
  edits.any (fun m => m.type = TCP_MODIF_ERASE ∧ m.position ≤ i ∧ i < m.position + m.length)

/-- The reference rendering of a chunk: the original payload with the bytes of
every insert record placed at its position and the byte range of every erase
record removed. -/
def render_reference (payload : List Nat) (edits : List tcp_stream_chunk_modif) : List Nat :=
  (List.range (payload.length + 1)).flatMap (fun i =>
    inserted_at edits i ++
      (if erased_at edits i then [] else (payload.get? i).toList))

/-! ## Observations of a trace -/

/-- The first pending chunk after a trace from `tcp_stream_create`. -/
def first_chunk_after (dbg : Bool) (fuel : Nat) (ops : List Op) : M tcp_stream_chunk := do
  let s ← run dbg fuel tcp_stream_create ops
  deref_chunk s s.first

/-- The edit records of the first pending chunk after a trace. -/
def first_chunk_edits (dbg : Bool) (fuel : Nat) (ops : List Op) :
    M (List tcp_stream_chunk_modif) := do
  let s ← run dbg fuel tcp_stream_create ops
  let c ← deref_chunk s s.first
  modif_list s fuel c.modifs

/-- The ranges of the pending chunks after a trace. -/
def pending_after (dbg : Bool) (fuel : Nat) (ops : List Op) : M (List (Nat × Nat)) := do
  let s ← run dbg fuel tcp_stream_create ops
  pending_ranges fuel s

/-- The result of pushing `tcp` after a trace, and the ranges of the pending
chunks after that push. -/
def push_after (dbg : Bool) (fuel : Nat) (ops : List Op) (tcp : Tcp) :
    M (Option Err × List (Nat × Nat)) := do
  let s ← run dbg fuel tcp_stream_create ops
  let (s1, r) ← tcp_stream_push dbg fuel s tcp
  let l ← pending_ranges fuel s1
  pure (r, l)

/-- The segments returned by `n` successive calls of `tcp_stream_pop`. -/
def pop_many (dbg : Bool) (fuel : Nat) : Nat → tcp_stream → M (tcp_stream × List (Option Tcp))
  | 0, s => pure (s, [])
  | n + 1, s => do
    let (s1, t) ← tcp_stream_pop dbg fuel s
    let (s2, ts) ← pop_many dbg fuel n s1
    pure (s2, t :: ts)

/-- The segments popped after a trace. -/
def popped_after (dbg : Bool) (fuel : Nat) (ops : List Op) (n : Nat) : M (List (Option Tcp)) := do
  let s ← run dbg fuel tcp_stream_create ops
  let (_, ts) ← pop_many dbg fuel n s
  pure ts

/-- The value of `tcp_stream_available` after a trace. -/
def available_after (dbg : Bool) (fuel : Nat) (ops : List Op) : M Nat := do
  let s ← run dbg fuel tcp_stream_create ops
  tcp_stream_available dbg fuel s

/-- The count and the bytes returned by `tcp_stream_read` after a trace. -/
def read_after (dbg : Bool) (fuel : Nat) (ops : List Op) (length : Nat) :
    M (Nat × List Nat) := do
  let s ← run dbg fuel tcp_stream_create ops
  let (_, n, data) ← tcp_stream_read dbg fuel s length
  pure (n, data)

/-! ## Traces used below

Payloads are given as ASCII codes: `"HELLO"` is `[72, 69, 76, 76, 79]`,
`"WORLD"` is `[87, 79, 82, 76, 68]`, `"ABCDEF"` is `[65, 66, 67, 68, 69, 70]`,
`"GHI"` is `[71, 72, 73]`. -/

/-- SYN at 1000, then `"WORLD"` at 1006 before `"HELLO"` at 1001. -/
def reordered_trace : List Op :=
  [Op.push (syn_segment 1000),
   Op.push (data_segment 1006 [87, 79, 82, 76, 68]),
   Op.push (data_segment 1001 [72, 69, 76, 76, 79])]

/-- SYN at 1000, `"HELLO"` at 1001 and `"WORLD"` at 1011, leaving the hole
`[1006, 1011)`. -/
def hole_trace : List Op :=
  [Op.push (syn_segment 1000),
   Op.push (data_segment 1001 [72, 69, 76, 76, 79]),
   Op.push (data_segment 1011 [87, 79, 82, 76, 68])]

/-- SYN at 1000 and `"HELLO"` at 1001. -/
def hello_trace : List Op :=
  [Op.push (syn_segment 1000),
   Op.push (data_segment 1001 [72, 69, 76, 76, 79])]

/-- SYN at 1000, `"HELLO"` at 1001 and `"WORLD"` at 1006 (scenario S5). -/
def hello_world_trace : List Op :=
  [Op.push (syn_segment 1000),
   Op.push (data_segment 1001 [72, 69, 76, 76, 79]),
   Op.push (data_segment 1006 [87, 79, 82, 76, 68])]

/-- On `"ABCDEF"`: mark, insert `"X"` at offset 0, rewind, insert `"Y"` at the
same place (inside the first insert, at its offset 0). -/
def head_insert_trace : List Op :=
  [Op.push (syn_segment 1000),
   Op.push (data_segment 1001 [65, 66, 67, 68, 69, 70]),
   Op.mark, Op.insert [88], Op.rewind, Op.insert [89]]

/-- On `"ABCDEF"` followed by `"GHI"`: mark, insert `"X"` at offset 2 and `"Y"`
at offset 4, rewind, insert `"Q"` at offset 0 (in front of both records), read
two bytes and erase one (the `"X"`). -/
def lost_record_trace : List Op :=
  [Op.push (syn_segment 1000),
   Op.push (data_segment 1001 [65, 66, 67, 68, 69, 70]),
   Op.push (data_segment 1007 [71, 72, 73]),
   Op.mark, Op.read 2, Op.insert [88], Op.read 2, Op.insert [89], Op.rewind,
   Op.insert [81], Op.read 2, Op.erase 1]

/-- On `"ABCDEF"` followed by `"GHI"`: mark, read 3, insert `"ZZ"` at offset 3,
rewind, insert `"Q"` at offset 0 (in front of the record), read 3 and erase 2
(the `"ZZ"`). -/
def lost_head_trace : List Op :=
  [Op.push (syn_segment 1000),
   Op.push (data_segment 1001 [65, 66, 67, 68, 69, 70]),
   Op.push (data_segment 1007 [71, 72, 73]),
   Op.mark, Op.read 3, Op.insert [90, 90], Op.rewind,
   Op.insert [81], Op.read 3, Op.erase 2]

/-! ## Heap predicates used by the general theorems -/

/-- The payload of the segment attached to a chunk. -/
def chunk_payload (c : tcp_stream_chunk) : List Nat :=
  match c.tcp with
  | some t => t.payload
  | none => []

/-- A pending chunk as `tcp_stream_push` leaves it when no edit was applied to
it: a segment is attached, the edit list is empty and the range has the length
of the payload. -/
structure PlainChunk (c : tcp_stream_chunk) : Prop where
  attached : c.tcp ≠ none
  unedited : c.modifs = none
  range : c.start_seq + (chunk_payload c).length = c.end_seq
  bound : c.end_seq < 2 ^ 64

/-- `ChunkList s p l`: following `next` from the pointer `p` visits exactly the
chunks of `l` (address and record) and ends on `NULL`. -/
inductive ChunkList (s : tcp_stream) : Option Nat → List (Nat × tcp_stream_chunk) → Prop
  | nil : ChunkList s none []
  | cons {a : Nat} {c : tcp_stream_chunk} {l : List (Nat × tcp_stream_chunk)} :
      s.chunks[a]? = some c → ChunkList s c.next l → ChunkList s (some a) ((a, c) :: l)

/-- The end of a contiguous run: the chunk has no successor, or its successor
does not start where it ends. -/
def RunEnd (s : tcp_stream) (c : tcp_stream_chunk) : Prop :=
  c.next = none ∨
    ∃ b nb, c.next = some b ∧ s.chunks[b]? = some nb ∧ nb.start_seq ≠ c.end_seq

/-- `Run s l`: the chunks of `l` are linked by `next`, each starts where the
previous one ends, and the last one ends the run. -/
inductive Run (s : tcp_stream) : List (Nat × tcp_stream_chunk) → Prop
  | single {a : Nat} {c : tcp_stream_chunk} :
      s.chunks[a]? = some c → RunEnd s c → Run s [(a, c)]
  | cons {a b : Nat} {c d : tcp_stream_chunk} {l : List (Nat × tcp_stream_chunk)} :
      s.chunks[a]? = some c → c.next = some b → d.start_seq = c.end_seq →
      Run s ((b, d) :: l) → Run s ((a, c) :: (b, d) :: l)

/-- The maximal prefix of a chunk list in which each chunk starts where the
previous one ends. -/
def contiguous_run : List (Nat × tcp_stream_chunk) → List (Nat × tcp_stream_chunk)
  | [] => []
  | [x] => [x]
  | x :: y :: l => if y.2.start_seq = x.2.end_seq then x :: contiguous_run (y :: l) else [x]

/-- The concatenation of the payloads of a list of chunks. -/
def payloads (l : List (Nat × tcp_stream_chunk)) : List Nat :=
  l.flatMap (fun x => chunk_payload x.2)

/-- The position left by `tcp_stream_position_next_chunk` when it steps to the
chunk `b` (or off the list when `b` is `none`). -/
def step_into (pos : tcp_stream_position) (b : Option Nat) : tcp_stream_position :=
  { pos with chunk := b, chunk_seq := size_add pos.chunk_seq pos.chunk_offset,
             chunk_offset := 0, modif := none, modif_offset := SIZE_MAX }

/-- The position left by a read step that copied `m` payload bytes. -/
def after_payload (pos : tcp_stream_position) (m : Nat) : tcp_stream_position :=
  { pos with chunk_offset := pos.chunk_offset + m,
             current_seq_modif := size_add pos.current_seq_modif m }

/-- `ReadsFrom dbg s pos a c o`: the position `pos` reads next the byte at
offset `o` of the chunk `c` at address `a`, the first pending chunk: either it
is not bound to a chunk yet and the chunk starts at its `chunk_seq`, or it is
bound to the chunk at offset `o`.  With assertions the sequence fields that the
assertions compare are as the assertions expect. -/
inductive ReadsFrom (dbg : Bool) (s : tcp_stream) (pos : tcp_stream_position)
    (a : Nat) (c : tcp_stream_chunk) : Nat → Prop
  | unbound : pos.chunk = none → pos.modif = none → c.start_seq = pos.chunk_seq →
      (dbg = true →
        pos.current_seq_modif = size_add c.start_seq (size_of_int s.first_offset_seq)) →
      ReadsFrom dbg s pos a c 0
  | bound : pos.chunk = some a → pos.modif = none →
      pos.chunk_offset ≤ (chunk_payload c).length →
      (dbg = true → pos.chunk_seq = c.start_seq) →
      ReadsFrom dbg s pos a c pos.chunk_offset

/-- The stream left by `hello_world_trace`: `"HELLO"` and `"WORLD"` pending and
contiguous, nothing read yet. -/
def hello_world_stream : tcp_stream :=
  { seq_initialized := true, start_seq := 1001, first := some 0, first_offset_seq := 0,
    last := some 1, sent := none, last_sent := none, sent_offset_seq := 0,
    current_position := zero_position,
    mark_position := tcp_stream_position_invalidate zero_position,
    pending_modif := none,
    chunks :=
      [{ tcp := some (data_segment 1001 [72, 69, 76, 76, 79]), start_seq := 0, end_seq := 5,
         offset_seq := 0, modifs := none, next := some 1 },
       { tcp := some (data_segment 1006 [87, 79, 82, 76, 68]), start_seq := 5, end_seq := 10,
         offset_seq := 0, modifs := none, next := none }],
    modifs := [] }

/-! ## The round trip without edits (states of the proof of C1) -/

/-- The results of pushing a list of segments in order. -/
def push_many (dbg : Bool) (fuel : Nat) :
    tcp_stream → List Tcp → M (tcp_stream × List (Option Err))
  | s, [] => pure (s, [])
  | s, t :: ts => do
    let (s1, r) ← tcp_stream_push dbg fuel s t
    let (s2, rs) ← push_many dbg fuel s1 ts
    pure (s2, r :: rs)

/-- Data segments carrying the payloads `ps`, the first at sequence number
`seq`, each next one where the previous one ends. -/
def contiguous_segments (seq : Nat) : List (List Nat) → List Tcp
  | [] => []
  | p :: ps => data_segment seq p :: contiguous_segments (seq + p.length) ps

/-- The number of bytes in the first `i` payloads. -/
def payload_offset (ps : List (List Nat)) (i : Nat) : Nat :=
  ((ps.take i).map List.length).sum

/-- The chunk record at address `i` once the payloads `ps` were pushed after a
SYN with sequence number `q` and `k` chunks were popped. -/
def round_trip_chunk (q : Nat) (ps : List (List Nat)) (k i : Nat) : tcp_stream_chunk :=
  { tcp := if i < k then none
           else some (data_segment (q + 1 + payload_offset ps i) (ps.getD i [])),
    start_seq := payload_offset ps i,
    end_seq := payload_offset ps (i + 1),
    offset_seq := 0,
    modifs := none,
    next := if i < k then (if i + 1 < k then some (i + 1) else none)
            else (if i + 1 < ps.length then some (i + 1) else none) }

/-- The stream once the payloads `ps` were pushed after a SYN with sequence
number `q` and `k` chunks were popped, with the read cursor `cur`. -/
def round_trip_stream (q : Nat) (ps : List (List Nat)) (k : Nat)
    (cur : tcp_stream_position) : tcp_stream :=
  { seq_initialized := true, start_seq := q + 1,
    first := if k < ps.length then some k else none,
    first_offset_seq := 0,
    last := if k < ps.length then some (ps.length - 1) else none,
    sent := if 0 < k then some 0 else none,
    last_sent := if 0 < k then some (k - 1) else none,
    sent_offset_seq := 0,
    current_position := cur,
    mark_position := tcp_stream_position_invalidate zero_position,
    pending_modif := none,
    chunks := (List.range ps.length).map (round_trip_chunk q ps k),
    modifs := [] }

/-- The read cursor at the end of the chunk at address `j`. -/
def round_trip_end (ps : List (List Nat)) (j x : Nat) : tcp_stream_position :=
  { chunk_seq := payload_offset ps j, chunk_seq_modif := 0, current_seq_modif := x,
    chunk := some j, chunk_offset := (ps.getD j []).length, modif := none,
    modif_offset := SIZE_MAX }

/-- The read cursor after `k` pops: untouched before the first pop, then at the
end of the last chunk, then past it once every chunk was popped. -/
def round_trip_cursor (ps : List (List Nat)) (k x : Nat) : tcp_stream_position :=
  if k = 0 then zero_position
  else if k < ps.length then round_trip_end ps (ps.length - 1) x
  else step_into (round_trip_end ps (ps.length - 1) x) none

/-- The chunk record that `tcp_stream_push` builds for a data segment. -/
def pushed_chunk (s : tcp_stream) (tcp : Tcp) : tcp_stream_chunk :=
  { tcp := some tcp,
    start_seq := size_sub tcp.seq s.start_seq,
    end_seq := size_add (size_sub tcp.seq s.start_seq) tcp.payload.length,
    offset_seq := 0, modifs := none, next := none }

/-- The position left by one round of `tcp_stream_position_skip_available` on
a chunk `d` without edit records. -/
def after_skip (pos : tcp_stream_position) (d : tcp_stream_chunk) : tcp_stream_position :=
  { pos with
      chunk_offset := size_sub d.end_seq d.start_seq,
      modif := none,
      modif_offset := SIZE_MAX,
      current_seq_modif :=
        size_add pos.current_seq_modif
          (size_sub (size_add (size_sub d.end_seq d.start_seq) (size_of_int d.offset_seq))
            (size_sub pos.current_seq_modif pos.chunk_seq_modif)) }

/-- The stream left by `tcp_stream_pop` when it emits the first pending chunk
`c` (at address `a`) and the read cursor ends at `cur`: the chunk leaves the
pending list and is appended to the sent list. -/
def after_pop (s : tcp_stream) (a : Nat) (c : tcp_stream_chunk)
    (cur : tcp_stream_position) : tcp_stream :=
  { s with
      current_position := cur,
      first_offset_seq := int_wrap (s.first_offset_seq + c.offset_seq),
      first := c.next,
      last := if s.last = some a then none else s.last,
      sent := match s.last_sent with
        | some _ => s.sent
        | none => some a,
      last_sent := some a,
      chunks :=
        match s.last_sent with
        | some lp =>
          match s.chunks[lp]? with
          | some l =>
            ((s.chunks.set a { c with next := none }).set lp { l with next := some a }).set a
              { c with next := none, tcp := none, modifs := none }
          | none => s.chunks
        | none =>
          s.chunks.set a { c with next := none, tcp := none, modifs := none } }

/-- Two streams with the same heap records and the same fields among those the
position functions read (`first`, `first_offset_seq`, `pending_modif`). -/
structure SameHeap (s1 s2 : tcp_stream) : Prop where
  chunks : s1.chunks = s2.chunks
  modifs : s1.modifs = s2.modifs
  first : s1.first = s2.first
  first_offset_seq : s1.first_offset_seq = s2.first_offset_seq
  pending_modif : s1.pending_modif = s2.pending_modif

/-- The read cursor bound to the first chunk of the round trip, before any
byte was skipped. -/
def round_trip_begin : tcp_stream_position :=
  { zero_position with chunk := some 0, modif_offset := SIZE_MAX }

/-! ## The second pop of scenario S3 (state of the witness of C4) -/

/-- Scenario S3 up to the second pop: `"ABCDEF"` at 1001, two bytes erased at
offset 0, a pop, then `"GHI"` at 1007. -/
def erased_head_trace : List Op :=
  [Op.push (syn_segment 1000),
   Op.push (data_segment 1001 [65, 66, 67, 68, 69, 70]),
   Op.erase 2, Op.pop,
   Op.push (data_segment 1007 [71, 72, 73])]

/-- The stream left by `erased_head_trace`: the chunk of `"ABCDEF"` is sent with
`offset_seq = -2`, the chunk of `"GHI"` is pending. -/
def erased_head_stream : tcp_stream :=
  { seq_initialized := true, start_seq := 1001, first := some 1, first_offset_seq := -2,
    last := some 1, sent := some 0, last_sent := some 0, sent_offset_seq := 0,
    current_position :=
      { chunk_seq := 6, chunk_seq_modif := 0, current_seq_modif := 4, chunk := none,
        chunk_offset := 0, modif := none, modif_offset := SIZE_MAX },
    mark_position := tcp_stream_position_invalidate zero_position,
    pending_modif := none,
    chunks :=
      [{ tcp := none, start_seq := 0, end_seq := 6, offset_seq := -2, modifs := none,
         next := none },
       { tcp := some (data_segment 1007 [71, 72, 73]), start_seq := 6, end_seq := 9,
         offset_seq := 0, modifs := none, next := none }],
    modifs :=
      [{ type := TCP_MODIF_ERASE, position := 0, length := 2, prev := none, next := none,
         data := [], freed := true }] }

/-- The count returned by `tcp_stream_erase` after a trace. -/
def erase_after (dbg : Bool) (fuel : Nat) (ops : List Op) (length : Nat) : M Nat := do
  let s ← run dbg fuel tcp_stream_create ops
  let (_, n) ← tcp_stream_erase dbg fuel fuel s length
  pure n

/-- The acknowledgement number that `tcp_stream_ack` writes, after a trace, on
a reverse segment that acknowledges `ack`. -/
def ack_after (dbg : Bool) (fuel : Nat) (ops : List Op) (ack : Nat) : M Nat := do
  let s ← run dbg fuel tcp_stream_create ops
  let t ← tcp_stream_ack dbg fuel s { seq := 0, ack_seq := ack, syn := false, payload := [] }
  pure t.ack_seq

/-- The read cursor's `current_seq_modif` after a trace. -/
def cursor_after (dbg : Bool) (fuel : Nat) (ops : List Op) : M Nat := do
  let s ← run dbg fuel tcp_stream_create ops
  pure s.current_position.current_seq_modif

/-- The sent chunks after a trace: range and `offset_seq` of each. -/
def sent_after (dbg : Bool) (fuel : Nat) (ops : List Op) : M (List (Nat × Nat × Int)) := do
  let s ← run dbg fuel tcp_stream_create ops
  let l ← chunk_list s fuel s.sent
  l.mapM (fun a => do
    let c ← get_chunk s a
    pure (c.start_seq, c.end_seq, c.offset_seq))

/-- The pending insert after a trace (`pending_modif`). -/
def pending_modif_after (dbg : Bool) (fuel : Nat) (ops : List Op) : M (Option Nat) := do
  let s ← run dbg fuel tcp_stream_create ops
  pure s.pending_modif

/-- Before any data: mark, insert `"X"` (a pending insert), rewind in front of
it. -/
def pending_insert_trace : List Op :=
  [Op.push (syn_segment 1000), Op.mark, Op.insert [88], Op.rewind]

/-- Before any data: insert `"X"` (a pending insert). -/
def early_insert_trace : List Op :=
  [Op.push (syn_segment 1000), Op.insert [88]]

/-- Scenario S5 to its end: `"HELLO"` and `"WORLD"` read and popped, nothing
edited. -/
def hello_world_sent_trace : List Op :=
  hello_world_trace ++ [Op.read 10, Op.pop, Op.pop]

/-- Scenario S3 to its end: both chunks popped. -/
def erased_head_sent_trace : List Op :=
  erased_head_trace ++ [Op.pop]

/-- On `"HELLO"` and `"WORLD"`: read 7 bytes, pop (which skips the rest of the
available data), then `"ABC"` arrives at 1011. -/
def skip_trace : List Op :=
  hello_world_trace ++ [Op.read 7, Op.pop, Op.push (data_segment 1011 [65, 66, 67])]

/-- SYN at 1000 and `"ABCDEF"` at 1001. -/
def abcdef_trace : List Op :=
  [Op.push (syn_segment 1000),
   Op.push (data_segment 1001 [65, 66, 67, 68, 69, 70])]

/-- The stream left by `hello_world_sent_trace`: both chunks in the sent list,
nothing pending. -/
def hello_world_sent_stream : tcp_stream :=
  { seq_initialized := true, start_seq := 1001, first := none, first_offset_seq := 0,
    last := none, sent := some 0, last_sent := some 1, sent_offset_seq := 0,
    current_position :=
      { chunk_seq := 10, chunk_seq_modif := 0, current_seq_modif := 10, chunk := none,
        chunk_offset := 0, modif := none, modif_offset := SIZE_MAX },
    mark_position := tcp_stream_position_invalidate zero_position,
    pending_modif := none,
    chunks :=
      [{ tcp := none, start_seq := 0, end_seq := 5, offset_seq := 0, modifs := none,
         next := some 1 },
       { tcp := none, start_seq := 5, end_seq := 10, offset_seq := 0, modifs := none,
         next := none }],
    modifs := [] }

/-! ## Cursors past an edit record (states of the theorems on insert and erase) -/

/-- The position `pos` is past the edit record `m`: the record is anchored at
another offset, or it is an insert whose bytes were all passed, or an erase
that was applied. -/
def RecordPassed (m : tcp_stream_chunk_modif) (pos : tcp_stream_position) : Prop :=
  m.position ≠ pos.chunk_offset ∨
    (m.type = TCP_MODIF_INSERT ∧ pos.modif_offset ≥ m.length) ∨
    (m.type = TCP_MODIF_ERASE ∧ pos.modif_offset ≠ 0)

/-- `PlainAhead s pos a c k`: the position `pos` is bound to the chunk `c` (at
address `a`), it is past the record it designates, if any, and the `k` bytes
that follow it are payload bytes of `c` that no edit record touches: the next
record, if any, is anchored at least `k` bytes further (at a `size_t` offset). -/
structure PlainAhead (s : tcp_stream) (pos : tcp_stream_position) (a : Nat)
    (c : tcp_stream_chunk) (next : Option Nat) (k : Nat) : Prop where
  bound : pos.chunk = some a
  chunk : s.chunks[a]? = some c
  room : c.start_seq + pos.chunk_offset + k ≤ c.end_seq
  size : c.end_seq < 2 ^ 64
  unedited : pos.modif = none → c.modifs = next
  passed : ∀ mp, pos.modif = some mp →
    ∃ m, s.modifs[mp]? = some m ∧ m.freed = false ∧ RecordPassed m pos ∧ m.next = next
  ahead : ∀ np, next = some np →
    ∃ q, s.modifs[np]? = some q ∧ q.freed = false ∧ pos.chunk_offset + k ≤ q.position ∧
      q.position < 2 ^ 64

/-- The stream left by `abcdef_trace` followed by a read of two bytes: the
cursor is bound to the chunk `"ABCDEF"`, at offset 2. -/
def abcdef_read_stream : tcp_stream :=
  { seq_initialized := true, start_seq := 1001, first := some 0, first_offset_seq := 0,
    last := some 0, sent := none, last_sent := none, sent_offset_seq := 0,
    current_position :=
      { chunk_seq := 0, chunk_seq_modif := 0, current_seq_modif := 2, chunk := some 0,
        chunk_offset := 2, modif := none, modif_offset := SIZE_MAX },
    mark_position := tcp_stream_position_invalidate zero_position,
    pending_modif := none,
    chunks :=
      [{ tcp := some (data_segment 1001 [65, 66, 67, 68, 69, 70]), start_seq := 0, end_seq := 6,
         offset_seq := 0, modifs := none, next := none }],
    modifs := [] }

/-- The read cursor after a trace. -/
def position_after (dbg : Bool) (fuel : Nat) (ops : List Op) : M tcp_stream_position := do
  let s ← run dbg fuel tcp_stream_create ops
  pure s.current_position

/-- The chunk the read cursor is bound to after a trace. -/
def cursor_chunk_after (dbg : Bool) (fuel : Nat) (ops : List Op) : M tcp_stream_chunk := do
  let s ← run dbg fuel tcp_stream_create ops
  deref_chunk s s.current_position.chunk

/-- The value returned by `tcp_stream_insert` after a trace. -/
def insert_after (dbg : Bool) (fuel : Nat) (ops : List Op) (data : List Nat) : M Nat := do
  let s ← run dbg fuel tcp_stream_create ops
  let (_, n) ← tcp_stream_insert dbg fuel s data
  pure n

/-- All the edit records allocated during a trace, by address (the freed ones
included). -/
def modifs_after (dbg : Bool) (fuel : Nat) (ops : List Op) :
    M (List tcp_stream_chunk_modif) := do
  let s ← run dbg fuel tcp_stream_create ops
  pure s.modifs

/-- For each pending chunk after a trace: its length `end_seq - start_seq` and
the positions of the edit records of its list, in list order. -/
def pending_edit_positions (dbg : Bool) (fuel : Nat) (ops : List Op) :
    M (List (Nat × List Nat)) := do
  let s ← run dbg fuel tcp_stream_create ops
  let l ← chunk_list s fuel s.first
  l.mapM (fun a => do
    let c ← get_chunk s a
    let ms ← modif_list s fuel c.modifs
    pure (c.end_seq - c.start_seq, ms.map (fun m => m.position)))

/-- On `"ABCDEF"`: insert `"P"` at offset 0, read two bytes, mark, insert `"X"`
at offset 2, rewind in front of it, insert `"Y"` into it. -/
def second_insert_trace : List Op :=
  abcdef_trace ++ [Op.insert [80], Op.read 2, Op.mark, Op.insert [88], Op.rewind, Op.insert [89]]

/-- On `"ABCDEF"`: mark, read 3, insert `"ZZ"` at offset 3, rewind, insert `"Q"`
at offset 0, in front of the record. -/
def front_insert_trace : List Op :=
  abcdef_trace ++ [Op.mark, Op.read 3, Op.insert [90, 90], Op.rewind, Op.insert [81]]

/-- On `"ABCDEF"`: mark, read 3, insert `"ZZ"` at offset 3, rewind, erase one
byte at offset 0, in front of the record. -/
def front_erase_trace : List Op :=
  abcdef_trace ++ [Op.mark, Op.read 3, Op.insert [90, 90], Op.rewind, Op.erase 1]

/-- SYN at 1000, insert `"XY"` before any data (a pending insert), `"AB"` at
1001, erase, `"H"` at 1008, insert `"X"`. -/
def adopted_insert_trace : List Op :=
  [Op.push (syn_segment 1000), Op.insert [88, 89], Op.push (data_segment 1001 [65, 66]),
   Op.erase 5, Op.push (data_segment 1008 [72]), Op.insert [88]]

/-- SYN at 1000, insert `"X"` before any data (a pending insert), `"ABCD"` at
1001, read 3, `"EFG"` at 1005, mark, read 2, insert `"XY"`, rewind, erase 2. -/
def adopted_unsorted_trace : List Op :=
  [Op.push (syn_segment 1000), Op.insert [88], Op.push (data_segment 1001 [65, 66, 67, 68]),
   Op.read 3, Op.push (data_segment 1005 [69, 70, 71]), Op.mark, Op.read 2,
   Op.insert [88, 89], Op.rewind, Op.erase 2]

/-- SYN at 1000, insert `"X"` before any data (a pending insert), `"ABCD"` at
1001, read 3, mark, erase 2, pop, read 2, an empty segment at 1005. -/
def stale_insert_trace : List Op :=
  [Op.push (syn_segment 1000), Op.insert [88], Op.push (data_segment 1001 [65, 66, 67, 68]),
   Op.read 3, Op.mark, Op.erase 2, Op.pop, Op.read 2, Op.push (data_segment 1005 [])]

/-- A call of `tcp_stream_pop` after a trace: the address of the first pending
chunk before the call, the segment returned, the chunk the read cursor is bound
to after the call, whether the mark is valid after the call, and the value of
`tcp_stream_position_chunk_is_before` on that first chunk for the read cursor
and for the mark after the call. -/
def pop_gating_after (dbg : Bool) (fuel : Nat) (ops : List Op) :
    M (Option Nat × Option Tcp × Option Nat × Bool × Bool × Bool) := do
  let s ← run dbg fuel tcp_stream_create ops
  let (s1, r) ← tcp_stream_pop dbg fuel s
  match s.first with
  | none => pure (none, r, s1.current_position.chunk,
      tcp_stream_position_isvalid s1.mark_position, false, false)
  | some cp => do
    let b1 ← tcp_stream_position_chunk_is_before s1 s1.current_position cp
    let b2 ← tcp_stream_position_chunk_is_before s1 s1.mark_position cp
    pure (some cp, r, s1.current_position.chunk,
      tcp_stream_position_isvalid s1.mark_position, b1, b2)

/-! ## The read cursor once bound (states of the amended insert/erase theorem) -/

/-- `CursorOn dbg s a c pos`: `pos` is the read cursor of `s` as bound to the
chunk `c` at address `a`.  Either the cursor is bound to `c` and `pos` is the
cursor itself; or the cursor is not bound to a chunk and designates no edit
record, `c` is the first pending chunk and starts at the cursor's `chunk_seq`,
and `pos` is what the first block of `tcp_stream_position_advance` makes of the
cursor (offset 0 of `c`).  With assertions that block needs
`current_seq_modif` to be the start of `c` in modified space. -/
inductive CursorOn (dbg : Bool) (s : tcp_stream) (a : Nat) (c : tcp_stream_chunk) :
    tcp_stream_position → Prop
  | bound : s.current_position.chunk = some a → CursorOn dbg s a c s.current_position
  | unbound : s.current_position.chunk = none → s.current_position.modif = none →
      s.first = some a → c.start_seq = s.current_position.chunk_seq →
      (dbg = true → s.current_position.current_seq_modif =
        size_add c.start_seq (size_of_int s.first_offset_seq)) →
      CursorOn dbg s a c
        { s.current_position with
            chunk := some a, chunk_offset := 0,
            chunk_seq_modif := size_add c.start_seq (size_of_int s.first_offset_seq),
            modif := none, modif_offset := SIZE_MAX }

/-- The stream left by `abcdef_trace`: `"ABCDEF"` pending, the read cursor not
bound yet. -/
def abcdef_stream : tcp_stream :=
  { seq_initialized := true, start_seq := 1001, first := some 0, first_offset_seq := 0,
    last := some 0, sent := none, last_sent := none, sent_offset_seq := 0,
    current_position := zero_position,
    mark_position := tcp_stream_position_invalidate zero_position,
    pending_modif := none,
    chunks :=
      [{ tcp := some (data_segment 1001 [65, 66, 67, 68, 69, 70]), start_seq := 0, end_seq := 6,
         offset_seq := 0, modifs := none, next := none }],
    modifs := [] }

/-- On `"HELLO"` and `"WORLD"`: read 7 bytes, pop both chunks, then `"ABC"` at
1011, the next sequence number.  No insert, erase or replace is made. -/
def rebound_trace : List Op :=
  hello_world_trace ++
    [Op.read 7, Op.pop, Op.pop, Op.push (data_segment 1011 [65, 66, 67])]

/-! # Theorems -/

/-! ## Evaluations of the code on concrete traces -/

/-- C2 (payload synthesis on pop), evaluated on a build without assertions:
after `lost_record_trace` the edit list of the first chunk holds the single
insert of `"Y"` at offset 4, whose reference rendering is `"ABCDYEF"`, while
`offset_seq` still counts the lost insert; `tcp_stream_pop` emits the 8 bytes
`"ABCDYEFG"`, the last one taken from the next segment.  With assertions the
same trace stops on a failed assertion in the erase. -/
theorem pop_after_lost_record_emits_wrong_payload :
    first_chunk_edits false 8 lost_record_trace =
      Except.ok [{ type := TCP_MODIF_INSERT, position := 4, length := 1, prev := none,
                   next := none, data := [89], freed := false }] ∧
    render_reference [65, 66, 67, 68, 69, 70]
      [{ type := TCP_MODIF_INSERT, position := 4, length := 1, prev := none,
         next := none, data := [89], freed := false }] = [65, 66, 67, 68, 89, 69, 70] ∧
    (first_chunk_after false 8 lost_record_trace).map (fun c => c.offset_seq) = Except.ok 2 ∧
    popped_after false 8 lost_record_trace 1 =
      Except.ok [some (data_segment 1001 [65, 66, 67, 68, 89, 69, 70, 71])] ∧
    run true 8 tcp_stream_create lost_record_trace = Except.error Fault.assertion := by
  decide!

/-- C3 (consistent outbound byte stream), evaluated on a build without
assertions: after `lost_head_trace` two consecutive pops emit the contiguous
chunks `"ABCDEF"` with sequence number 1001 (6 bytes, unchanged) and `"GHI"`
with sequence number 1008, which is not 1001 + 6.  With assertions the same
trace stops on a failed assertion in the erase. -/
theorem pops_after_lost_record_break_sequence :
    popped_after false 8 lost_head_trace 2 =
      Except.ok [some (data_segment 1001 [65, 66, 67, 68, 69, 70]),
                 some (data_segment 1008 [71, 72, 73])] ∧
    (1001 + [65, 66, 67, 68, 69, 70].length) % 2 ^ 32 ≠ 1008 ∧
    run true 8 tcp_stream_create lost_head_trace = Except.error Fault.assertion := by
  decide!

/-- C5 (pending-list order): after a SYN at 1000, pushing `"WORLD"` at 1006 and
then `"HELLO"` at 1001 leaves the pending list `[5, 10)`, `[0, 5)`, which is
not ordered. -/
theorem push_reordered_breaks_pending_order (dbg : Bool) :
    pending_after dbg 8 reordered_trace = Except.ok [(5, 10), (0, 5)] ∧
    ¬ PendingOrdered [(5, 10), (0, 5)] := by
  cases dbg <;> decide!

/-- C6 (push keeps the pending chunks): with `[0, 5)` and `[10, 15)` pending,
the push of `"12345"` at 1006 succeeds and leaves the pending list `[0, 5)`,
`[5, 10)`: the chunk `[10, 15)` is no longer in it. -/
theorem push_between_drops_successor (dbg : Bool) :
    pending_after dbg 8 hole_trace = Except.ok [(0, 5), (10, 15)] ∧
    push_after dbg 8 hole_trace (data_segment 1006 [49, 50, 51, 52, 53]) =
      Except.ok (none, [(0, 5), (5, 10)]) := by
  cases dbg <;> decide!

/-- C7 (push refuses overlaps): with `[0, 5)` pending, the push of a segment
spanning `[3, 8)` succeeds and is added after it; so is a second copy of the
pending segment itself. -/
theorem push_accepts_overlap_with_predecessor (dbg : Bool) :
    pending_after dbg 8 hello_trace = Except.ok [(0, 5)] ∧
    push_after dbg 8 hello_trace (data_segment 1004 [76, 79, 87, 79, 82]) =
      Except.ok (none, [(0, 5), (3, 8)]) ∧
    push_after dbg 8 hello_trace (data_segment 1001 [72, 69, 76, 76, 79]) =
      Except.ok (none, [(0, 5), (0, 5)]) := by
  cases dbg <;> decide!

/-- C8 (length-delta consistency): after `head_insert_trace` the pending chunk
has `offset_seq = 2` while its `modifs` still designates the first record (one
byte), which was freed; the two-byte record that replaced it is not linked from
the chunk, and walking the chunk's edit list is a use after free. -/
theorem insert_into_head_insert_breaks_delta (dbg : Bool) :
    (first_chunk_after dbg 8 head_insert_trace).map (fun c => (c.offset_seq, c.modifs))
      = Except.ok (2, some 0) ∧
    (run dbg 8 tcp_stream_create head_insert_trace).map
        (fun s => s.modifs.map (fun m => (m.length, m.freed)))
      = Except.ok [(1, true), (2, false)] ∧
    first_chunk_edits dbg 8 head_insert_trace = Except.error Fault.use_after_free := by
  cases dbg <;> decide!

/-- C9 (available): with the two contiguous unread segments `"HELLO"` and
`"WORLD"` pending, `tcp_stream_available` returns 5 while `tcp_stream_read`
of 10 bytes returns the 10 bytes `"HELLOWORLD"`. -/
theorem available_undercounts_across_chunks (dbg : Bool) :
    available_after dbg 8 hello_world_trace = Except.ok 5 ∧
    read_after dbg 8 hello_world_trace 10 =
      Except.ok (10, [72, 69, 76, 76, 79, 87, 79, 82, 76, 68]) := by
  cases dbg <;> decide!

/-! ## Machine arithmetic and the error monad -/

theorem size_add_eq {a b : Nat} (h : a + b < 2 ^ 64) : size_add a b = a + b := by
  unfold size_add
  exact Nat.mod_eq_of_lt h

theorem size_sub_eq {a b : Nat} (hb : b ≤ a) (ha : a < 2 ^ 64) : size_sub a b = a - b := by
  unfold size_sub
  have hb2 : b < 2 ^ 64 := lt_of_le_of_lt hb ha
  rw [Nat.mod_eq_of_lt ha, Nat.mod_eq_of_lt hb2]
  have : a + (2 ^ 64 - b) = (a - b) + 2 ^ 64 := by omega
  rw [this, Nat.add_mod_right]
  exact Nat.mod_eq_of_lt (by omega)

@[simp] theorem ok_bind {α β : Type} (a : α) (f : α → M β) :
    (Except.ok a >>= f) = f a := rfl

@[simp] theorem pure_eq_ok {α : Type} (a : α) : (pure a : M α) = Except.ok a := rfl

theorem get_chunk_eq {s : tcp_stream} {a : Nat} {c : tcp_stream_chunk}
    (h : s.chunks[a]? = some c) : get_chunk s a = Except.ok c := by
  simp [get_chunk, h]

theorem c_assert_true (dbg : Bool) {p : Prop} [Decidable p] (h : p) :
    c_assert dbg p = Except.ok () := by
  cases dbg <;> simp [c_assert, h]

@[simp] theorem c_assert_True (dbg : Bool) [h : Decidable True] :
    @c_assert dbg True h = Except.ok () := by
  cases dbg <;> simp [c_assert]

theorem c_assert_imp (dbg : Bool) {p : Prop} [Decidable p] (h : dbg = true → p) :
    c_assert dbg p = Except.ok () := by
  cases dbg
  · simp [c_assert]
  · simp [c_assert, h rfl]

theorem update_modif_plain (dbg : Bool) {s : tcp_stream} {pos : tcp_stream_position}
    {a : Nat} {c : tcp_stream_chunk}
    (hc : pos.chunk = some a) (hm : pos.modif = none) (h : s.chunks[a]? = some c)
    (hcm : c.modifs = none) :
    tcp_stream_position_update_modif dbg s pos = Except.ok pos := by
  simp [tcp_stream_position_update_modif, hc, hm, get_chunk_eq h, hcm]

theorem position_modif_plain {s : tcp_stream} {pos : tcp_stream_position}
    {a : Nat} {c : tcp_stream_chunk} (w : Bool)
    (hc : pos.chunk = some a) (hm : pos.modif = none) (h : s.chunks[a]? = some c)
    (hcm : c.modifs = none) :
    tcp_stream_position_modif s pos w = Except.ok ⟨none, none, none, none⟩ := by
  cases w <;> simp [tcp_stream_position_modif, hc, hm, get_chunk_eq h, hcm]

theorem chunk_at_end_plain (dbg : Bool) {s : tcp_stream} {pos : tcp_stream_position}
    {a : Nat} {c : tcp_stream_chunk}
    (hc : pos.chunk = some a) (hm : pos.modif = none) (h : s.chunks[a]? = some c)
    (hcm : c.modifs = none) :
    tcp_stream_position_chunk_at_end dbg s pos =
      Except.ok (decide (size_add c.start_seq pos.chunk_offset = c.end_seq)) := by
  by_cases he : size_add c.start_seq pos.chunk_offset = c.end_seq <;>
    simp [tcp_stream_position_chunk_at_end, deref_chunk, hc, hm, get_chunk_eq h, hcm, he]

theorem advance_loop_plain_mid (dbg : Bool) (fuel : Nat) {s : tcp_stream}
    {pos : tcp_stream_position} {a : Nat} {c : tcp_stream_chunk}
    (hc : pos.chunk = some a) (hm : pos.modif = none) (h : s.chunks[a]? = some c)
    (hcm : c.modifs = none)
    (hne : size_add c.start_seq pos.chunk_offset ≠ c.end_seq)
    (hle : dbg = true → size_add c.start_seq pos.chunk_offset ≤ c.end_seq) :
    tcp_stream_position_advance_loop dbg s (fuel + 1) pos = Except.ok (pos, true) := by
  cases dbg
  · simp [tcp_stream_position_advance_loop, update_modif_plain false hc hm h hcm,
      chunk_at_end_plain false hc hm h hcm, position_modif_plain false hc hm h hcm, hc, hne]
  · simp [tcp_stream_position_advance_loop, update_modif_plain true hc hm h hcm,
      chunk_at_end_plain true hc hm h hcm, position_modif_plain false hc hm h hcm, hc, hne,
      get_chunk_eq h, c_assert_true true (hle rfl)]

theorem advance_loop_plain_last (dbg : Bool) (fuel : Nat) {s : tcp_stream}
    {pos : tcp_stream_position} {a : Nat} {c : tcp_stream_chunk}
    (hc : pos.chunk = some a) (hm : pos.modif = none) (h : s.chunks[a]? = some c)
    (hcm : c.modifs = none)
    (he : size_add c.start_seq pos.chunk_offset = c.end_seq)
    (hn : c.next = none) :
    tcp_stream_position_advance_loop dbg s (fuel + 1) pos = Except.ok (pos, false) := by
  simp [tcp_stream_position_advance_loop, update_modif_plain dbg hc hm h hcm,
      chunk_at_end_plain dbg hc hm h hcm, hc, he, get_chunk_eq h, hn]

theorem next_chunk_gap (dbg : Bool) {s : tcp_stream}
    {pos : tcp_stream_position} {a b : Nat} {c nb : tcp_stream_chunk}
    (hc : pos.chunk = some a) (h : s.chunks[a]? = some c)
    (hn : c.next = some b) (hb : s.chunks[b]? = some nb) (hgap : nb.start_seq ≠ c.end_seq) :
    tcp_stream_position_next_chunk dbg s pos = Except.ok (pos, false) := by
  simp [tcp_stream_position_next_chunk, step_into, deref_chunk, hc, get_chunk_eq h, hn, get_chunk_eq hb,
    hgap, c_assert_true dbg (show pos.chunk ≠ none by simp [hc])]

theorem next_chunk_step (dbg : Bool) {s : tcp_stream}
    {pos : tcp_stream_position} {a b : Nat} {c nb : tcp_stream_chunk}
    (hc : pos.chunk = some a) (h : s.chunks[a]? = some c)
    (hn : c.next = some b) (hb : s.chunks[b]? = some nb) (hcont : nb.start_seq = c.end_seq)
    (hseq : dbg = true → nb.start_seq = size_add pos.chunk_seq pos.chunk_offset)
    (hp : dbg = true → s.pending_modif = none) :
    tcp_stream_position_next_chunk dbg s pos =
      Except.ok (step_into pos (some b), true) := by
  cases dbg
  · simp [tcp_stream_position_next_chunk, step_into, deref_chunk, hc, get_chunk_eq h, hn, get_chunk_eq hb,
      hcont, c_assert]
  · have h2 : c.end_seq = size_add pos.chunk_seq pos.chunk_offset := hcont ▸ hseq rfl
    simp [tcp_stream_position_next_chunk, step_into, deref_chunk, hc, get_chunk_eq h, hn, get_chunk_eq hb,
      hcont, c_assert, h2, hp rfl]

theorem next_chunk_none (dbg : Bool) {s : tcp_stream}
    {pos : tcp_stream_position} {a : Nat} {c : tcp_stream_chunk}
    (hc : pos.chunk = some a) (h : s.chunks[a]? = some c)
    (hn : c.next = none)
    (hp : dbg = true → s.pending_modif = none) :
    tcp_stream_position_next_chunk dbg s pos =
      Except.ok (step_into pos none, true) := by
  cases dbg
  · simp [tcp_stream_position_next_chunk, step_into, deref_chunk, hc, get_chunk_eq h, hn, c_assert]
  · simp [tcp_stream_position_next_chunk, step_into, deref_chunk, hc, get_chunk_eq h, hn, c_assert, hp rfl]

theorem advance_loop_plain_gap (dbg : Bool) (fuel : Nat) {s : tcp_stream}
    {pos : tcp_stream_position} {a b : Nat} {c nb : tcp_stream_chunk}
    (hc : pos.chunk = some a) (hm : pos.modif = none) (h : s.chunks[a]? = some c)
    (hcm : c.modifs = none)
    (he : size_add c.start_seq pos.chunk_offset = c.end_seq)
    (hn : c.next = some b) (hb : s.chunks[b]? = some nb) (hgap : nb.start_seq ≠ c.end_seq) :
    tcp_stream_position_advance_loop dbg s (fuel + 1) pos = Except.ok (pos, false) := by
  simp [tcp_stream_position_advance_loop, update_modif_plain dbg hc hm h hcm,
      chunk_at_end_plain dbg hc hm h hcm, hc, he, get_chunk_eq h, hn,
      next_chunk_gap dbg hc h hn hb hgap]

theorem advance_loop_plain_step (dbg : Bool) (fuel : Nat) {s : tcp_stream}
    {pos : tcp_stream_position} {a b : Nat} {c nb : tcp_stream_chunk}
    (hc : pos.chunk = some a) (hm : pos.modif = none) (h : s.chunks[a]? = some c)
    (hcm : c.modifs = none)
    (he : size_add c.start_seq pos.chunk_offset = c.end_seq)
    (hn : c.next = some b) (hb : s.chunks[b]? = some nb) (hcont : nb.start_seq = c.end_seq)
    (hseq : dbg = true → nb.start_seq = size_add pos.chunk_seq pos.chunk_offset)
    (hp : dbg = true → s.pending_modif = none) :
    tcp_stream_position_advance_loop dbg s (fuel + 1) pos =
      Except.ok (step_into pos (some b), true) := by
  simp [tcp_stream_position_advance_loop, update_modif_plain dbg hc hm h hcm,
      chunk_at_end_plain dbg hc hm h hcm, hc, he, get_chunk_eq h, hn,
      next_chunk_step dbg hc h hn hb hcont hseq hp, tcp_stream_position_modif, step_into]

theorem advance_bound (dbg : Bool) (fuel : Nat) (s : tcp_stream)
    {pos : tcp_stream_position} {a : Nat} (hc : pos.chunk = some a) :
    tcp_stream_position_advance dbg fuel s pos =
      tcp_stream_position_advance_loop dbg s fuel pos := by
  simp [tcp_stream_position_advance, hc]

theorem advance_bind (dbg : Bool) (fuel : Nat) {s : tcp_stream}
    {pos : tcp_stream_position} {a : Nat} {c : tcp_stream_chunk}
    (hc : pos.chunk = none) (hm : pos.modif = none)
    (hf : s.first = some a) (h : s.chunks[a]? = some c)
    (hs : c.start_seq = pos.chunk_seq)
    (hcsm : dbg = true →
      pos.current_seq_modif = size_add c.start_seq (size_of_int s.first_offset_seq)) :
    tcp_stream_position_advance dbg fuel s pos =
      tcp_stream_position_advance_loop dbg s fuel
        { pos with chunk := some a, chunk_offset := 0,
                   chunk_seq_modif := size_add c.start_seq (size_of_int s.first_offset_seq),
                   modif := none, modif_offset := SIZE_MAX } := by
  cases dbg
  · simp [tcp_stream_position_advance, hc, hm, hf, get_chunk_eq h, hs, deref_chunk, c_assert]
  · simp [tcp_stream_position_advance, hc, hm, hf, get_chunk_eq h, hs, deref_chunk, c_assert,
      hcsm rfl]

theorem PlainChunk.len_le {c : tcp_stream_chunk} (h : PlainChunk c) :
    (chunk_payload c).length ≤ c.end_seq := by
  have := h.range
  omega

theorem PlainChunk.size_sub_range {c : tcp_stream_chunk} (h : PlainChunk c) :
    size_sub c.end_seq c.start_seq = (chunk_payload c).length := by
  have h1 := h.range
  have h2 := h.bound
  rw [size_sub_eq (by omega) h2]
  omega

theorem PlainChunk.at_end_iff {c : tcp_stream_chunk} (h : PlainChunk c) {o : Nat}
    (ho : o ≤ (chunk_payload c).length) :
    size_add c.start_seq o = c.end_seq ↔ o = (chunk_payload c).length := by
  have h1 := h.range
  have h2 := h.bound
  rw [size_add_eq (by omega)]
  omega

theorem PlainChunk.payload_eq {c : tcp_stream_chunk} (h : PlainChunk c) :
    ∃ t, c.tcp = some t ∧ t.payload = chunk_payload c := by
  have := h.attached
  cases hc : c.tcp with
  | none => exact absurd hc this
  | some t => exact ⟨t, rfl, by simp [chunk_payload, hc]⟩

theorem read_step_stalled {dbg : Bool} {fuel : Nat} {s : tcp_stream}
    {pos pos2 : tcp_stream_position} (length : Nat)
    (hadv : tcp_stream_position_advance dbg fuel s pos = Except.ok (pos2, false)) :
    tcp_stream_position_read_step dbg fuel s pos length = Except.ok (pos2, none) := by
  simp [tcp_stream_position_read_step, hadv]

theorem read_step_plain {dbg : Bool} {fuel : Nat} {s : tcp_stream}
    {pos pos2 : tcp_stream_position} {b : Nat} {d : tcp_stream_chunk} (length : Nat)
    (hadv : tcp_stream_position_advance dbg fuel s pos = Except.ok (pos2, true))
    (hc : pos2.chunk = some b) (hm : pos2.modif = none) (hb : s.chunks[b]? = some d)
    (hd : PlainChunk d) (ho : pos2.chunk_offset ≤ (chunk_payload d).length) :
    tcp_stream_position_read_step dbg fuel s pos length =
      Except.ok
        (after_payload pos2 (min ((chunk_payload d).length - pos2.chunk_offset) length),
         some (min ((chunk_payload d).length - pos2.chunk_offset) length,
               ((chunk_payload d).drop pos2.chunk_offset).take
                 (min ((chunk_payload d).length - pos2.chunk_offset) length))) := by
  obtain ⟨t, ht, htp⟩ := hd.payload_eq
  have hlen := hd.len_le
  have hbound := hd.bound
  have h1 : size_sub (chunk_payload d).length pos2.chunk_offset
      = (chunk_payload d).length - pos2.chunk_offset := size_sub_eq ho (by omega)
  have h2 : pos2.chunk_offset + min ((chunk_payload d).length - pos2.chunk_offset) length
      ≤ (chunk_payload d).length := by omega
  have h3 : size_add pos2.chunk_offset
      (min ((chunk_payload d).length - pos2.chunk_offset) length)
      = pos2.chunk_offset + min ((chunk_payload d).length - pos2.chunk_offset) length :=
    size_add_eq (by omega)
  simp [tcp_stream_position_read_step, after_payload, hadv, position_modif_plain true hc hm hb hd.unedited,
    hc, get_chunk_eq hb, hd.size_sub_range, ht, htp, h1, copy_bytes, h2, h3]

theorem read_loop_zero (dbg : Bool) (fuel : Nat) (s : tcp_stream) (n : Nat)
    (pos : tcp_stream_position) (buf : List Nat) :
    tcp_stream_position_read_loop dbg fuel s n pos 0 buf = Except.ok (pos, 0, buf) := by
  rw [tcp_stream_position_read_loop.eq_def]
  simp

theorem read_loop_succ (dbg : Bool) (fuel : Nat) (s : tcp_stream) (n : Nat)
    (pos : tcp_stream_position) (left : Nat) (buf : List Nat) (h : left ≠ 0) :
    tcp_stream_position_read_loop dbg fuel s (n + 1) pos left buf =
      (do
        let (pos1, r) ← tcp_stream_position_read_step dbg fuel s pos left
        match r with
        | none => pure (pos1, left, buf)
        | some (len, bytes) =>
          tcp_stream_position_read_loop dbg fuel s n pos1 (size_sub left len) (buf ++ bytes)) := by
  rw [tcp_stream_position_read_loop.eq_def]
  simp [h]

theorem payloads_cons (x : Nat × tcp_stream_chunk) (l : List (Nat × tcp_stream_chunk)) :
    payloads (x :: l) = chunk_payload x.2 ++ payloads l := by
  simp [payloads]

theorem payloads_nil : payloads [] = [] := rfl

/-- Reading from the end of the first chunk of a run: what is read is what
follows in the run. -/
theorem read_loop_run_at_end (dbg : Bool) (fuel : Nat) (s : tcp_stream)
    (hp : dbg = true → s.pending_modif = none) :
    ∀ (l : List (Nat × tcp_stream_chunk)) (a : Nat) (c : tcp_stream_chunk),
      Run s ((a, c) :: l) → (∀ x ∈ (a, c) :: l, PlainChunk x.2) →
      ∀ (n : Nat) (pos : tcp_stream_position) (left : Nat) (buf : List Nat),
        l.length + 1 ≤ n → left < 2 ^ 64 →
        pos.chunk = some a → pos.modif = none →
        pos.chunk_offset = (chunk_payload c).length →
        (dbg = true → pos.chunk_seq = c.start_seq) →
        ∃ pos1, tcp_stream_position_read_loop dbg (fuel + 1) s n pos left buf =
          Except.ok (pos1, left - ((payloads l).take left).length,
                     buf ++ (payloads l).take left) := by
  intro l
  induction l with
  | nil =>
    intro a c hrun hplain n pos left buf hn hleft hc hm ho hseq
    by_cases hl : left = 0
    · subst hl
      exact ⟨pos, by simp [read_loop_zero, payloads_nil]⟩
    · obtain ⟨n, rfl⟩ : ∃ k, n = k + 1 := ⟨n - 1, by omega⟩
      have hpc : PlainChunk c := hplain (a, c) (by simp)
      cases hrun with
      | single ha hend =>
        have he : size_add c.start_seq pos.chunk_offset = c.end_seq :=
          (hpc.at_end_iff (by omega)).2 ho
        have hadv : tcp_stream_position_advance dbg (fuel + 1) s pos = Except.ok (pos, false) := by
          rw [advance_bound dbg _ s hc]
          rcases hend with hnone | ⟨b, nb, hnb, hb, hgap⟩
          · exact advance_loop_plain_last dbg fuel hc hm ha hpc.unedited he hnone
          · exact advance_loop_plain_gap dbg fuel hc hm ha hpc.unedited he hnb hb hgap
        refine ⟨pos, ?_⟩
        rw [read_loop_succ _ _ _ _ _ _ _ hl, read_step_stalled left hadv]
        simp [payloads_nil]
  | cons x l ih =>
    obtain ⟨b, d⟩ := x
    intro a c hrun hplain n pos left buf hn hleft hc hm ho hseq
    by_cases hl : left = 0
    · subst hl
      exact ⟨pos, by simp [read_loop_zero]⟩
    · obtain ⟨n, rfl⟩ : ∃ k, n = k + 1 := ⟨n - 1, by omega⟩
      have hpc : PlainChunk c := hplain (a, c) (by simp)
      have hpd : PlainChunk d := hplain (b, d) (by simp)
      cases hrun with
      | cons ha hnext hcont hrest =>
        have hb : s.chunks[b]? = some d := by
          cases hrest with
          | single h1 _ => exact h1
          | cons h1 _ _ _ => exact h1
        have he : size_add c.start_seq pos.chunk_offset = c.end_seq :=
          (hpc.at_end_iff (by omega)).2 ho
        have hadv := advance_loop_plain_step dbg fuel hc hm ha hpc.unedited he hnext hb hcont
          (fun hd => by rw [hseq hd, he, hcont]) hp
        rw [← advance_bound dbg _ s hc] at hadv
        have hstep := read_step_plain left hadv (b := b) rfl rfl hb hpd (Nat.zero_le _)
        have hz : (step_into pos (some b)).chunk_offset = 0 := rfl
        simp only [hz, Nat.sub_zero, List.drop_zero] at hstep
        rw [read_loop_succ _ _ _ _ _ _ _ hl, hstep]
        simp only [ok_bind]
        by_cases hlt : left ≤ (chunk_payload d).length
        · have hmin : min (chunk_payload d).length left = left := by omega
          rw [hmin, size_sub_eq (le_refl _) hleft, Nat.sub_self, read_loop_zero]
          refine ⟨after_payload (step_into pos (some b)) left, ?_⟩
          simp [payloads_cons, List.take_append_of_le_length hlt, List.length_take, hmin]
          omega
        · have hmin : min (chunk_payload d).length left = (chunk_payload d).length := by omega
          rw [hmin, size_sub_eq (by omega) hleft]
          have hplain2 : ∀ x ∈ (b, d) :: l, PlainChunk x.2 := fun x hx =>
            hplain x (List.mem_cons_of_mem _ hx)
          have hseq2 : dbg = true →
              (after_payload (step_into pos (some b)) (chunk_payload d).length).chunk_seq
                = d.start_seq := by
            intro hd
            show size_add pos.chunk_seq pos.chunk_offset = d.start_seq
            rw [hseq hd, he, hcont]
          obtain ⟨pos1, h1⟩ := ih b d hrest hplain2 n
            (after_payload (step_into pos (some b)) (chunk_payload d).length)
            (left - (chunk_payload d).length)
            (buf ++ (chunk_payload d).take (chunk_payload d).length)
            (by simp at hn; omega) (by omega) rfl rfl (by simp [after_payload, step_into]) hseq2
          refine ⟨pos1, ?_⟩
          rw [h1]
          have ht : (payloads ((b, d) :: l)).take left
              = chunk_payload d ++ (payloads l).take (left - (chunk_payload d).length) := by
            rw [payloads_cons, List.take_append_eq_append_take]
            simp [List.take_of_length_le (show (chunk_payload d).length ≤ left by omega)]
          rw [ht]
          simp [List.length_append]
          omega

/-- Reading from any offset of the first chunk of a run. -/
theorem read_loop_run (dbg : Bool) (fuel : Nat) (s : tcp_stream)
    (hp : dbg = true → s.pending_modif = none)
    (l : List (Nat × tcp_stream_chunk)) (a : Nat) (c : tcp_stream_chunk)
    (hrun : Run s ((a, c) :: l)) (hplain : ∀ x ∈ (a, c) :: l, PlainChunk x.2)
    (n : Nat) (pos : tcp_stream_position) (left : Nat) (buf : List Nat)
    (hn : l.length + 2 ≤ n) (hleft : left < 2 ^ 64)
    (hc : pos.chunk = some a) (hm : pos.modif = none)
    (ho : pos.chunk_offset ≤ (chunk_payload c).length)
    (hseq : dbg = true → pos.chunk_seq = c.start_seq) :
    ∃ pos1, tcp_stream_position_read_loop dbg (fuel + 1) s n pos left buf =
      Except.ok (pos1,
        left - (((payloads ((a, c) :: l)).drop pos.chunk_offset).take left).length,
        buf ++ ((payloads ((a, c) :: l)).drop pos.chunk_offset).take left) := by
  have hpc : PlainChunk c := hplain (a, c) (by simp)
  have ha : s.chunks[a]? = some c := by
    cases hrun with
    | single h1 _ => exact h1
    | cons h1 _ _ _ => exact h1
  by_cases hl : left = 0
  · subst hl
    exact ⟨pos, by simp [read_loop_zero]⟩
  by_cases hend : pos.chunk_offset = (chunk_payload c).length
  · obtain ⟨pos1, h1⟩ := read_loop_run_at_end dbg fuel s hp l a c hrun hplain n pos left buf
      (by omega) hleft hc hm hend hseq
    refine ⟨pos1, ?_⟩
    rw [h1, payloads_cons, hend]
    simp
  · obtain ⟨n, rfl⟩ : ∃ k, n = k + 1 := ⟨n - 1, by omega⟩
    have hlt : pos.chunk_offset < (chunk_payload c).length := by omega
    have hne : size_add c.start_seq pos.chunk_offset ≠ c.end_seq := by
      intro h
      exact hend ((hpc.at_end_iff ho).1 h)
    have hle : dbg = true → size_add c.start_seq pos.chunk_offset ≤ c.end_seq := by
      intro _
      have h1 := hpc.range
      have h2 := hpc.bound
      rw [size_add_eq (by omega)]
      omega
    have hadv := advance_loop_plain_mid dbg fuel hc hm ha hpc.unedited hne hle
    rw [← advance_bound dbg _ s hc] at hadv
    have hstep := read_step_plain left hadv hc hm ha hpc ho
    rw [read_loop_succ _ _ _ _ _ _ _ hl, hstep]
    simp only [ok_bind]
    by_cases hfit : left ≤ (chunk_payload c).length - pos.chunk_offset
    · have hmin : min ((chunk_payload c).length - pos.chunk_offset) left = left := by omega
      rw [hmin, size_sub_eq (le_refl _) hleft, Nat.sub_self, read_loop_zero]
      refine ⟨after_payload pos left, ?_⟩
      have ht : ((payloads ((a, c) :: l)).drop pos.chunk_offset).take left
          = ((chunk_payload c).drop pos.chunk_offset).take left := by
        rw [payloads_cons, List.drop_append_of_le_length ho,
          List.take_append_of_le_length (by simpa using hfit)]
      rw [ht]
      simp [List.length_take]
      omega
    · have hmin : min ((chunk_payload c).length - pos.chunk_offset) left
          = (chunk_payload c).length - pos.chunk_offset := by omega
      rw [hmin, size_sub_eq (by omega) hleft]
      obtain ⟨pos1, h1⟩ := read_loop_run_at_end dbg fuel s hp l a c hrun hplain n
        (after_payload pos ((chunk_payload c).length - pos.chunk_offset))
        (left - ((chunk_payload c).length - pos.chunk_offset))
        (buf ++ ((chunk_payload c).drop pos.chunk_offset).take
          ((chunk_payload c).length - pos.chunk_offset))
        (by omega) (by omega) hc hm (by simp [after_payload]; omega) hseq
      refine ⟨pos1, ?_⟩
      rw [h1]
      have ht : ((payloads ((a, c) :: l)).drop pos.chunk_offset).take left
          = (chunk_payload c).drop pos.chunk_offset ++
              (payloads l).take (left - ((chunk_payload c).length - pos.chunk_offset)) := by
        rw [payloads_cons, List.drop_append_of_le_length ho, List.take_append_eq_append_take]
        simp [List.take_of_length_le
          (show ((chunk_payload c).drop pos.chunk_offset).length ≤ left by simp; omega)]
      rw [ht]
      simp [List.length_append]
      omega

theorem contiguous_run_head (x : Nat × tcp_stream_chunk) (l : List (Nat × tcp_stream_chunk)) :
    ∃ r, contiguous_run (x :: l) = x :: r := by
  cases l with
  | nil => exact ⟨[], rfl⟩
  | cons y l =>
    by_cases h : y.2.start_seq = x.2.end_seq
    · exact ⟨contiguous_run (y :: l), by simp [contiguous_run, h]⟩
    · exact ⟨[], by simp [contiguous_run, h]⟩

theorem contiguous_run_subset :
    ∀ (l : List (Nat × tcp_stream_chunk)) (x : Nat × tcp_stream_chunk),
      x ∈ contiguous_run l → x ∈ l
  | [], x, h => by simp [contiguous_run] at h
  | [y], x, h => by simpa [contiguous_run] using h
  | y :: z :: l, x, h => by
    by_cases hc : z.2.start_seq = y.2.end_seq
    · simp only [contiguous_run, hc, if_true, List.mem_cons] at h
      rcases h with h | h
      · simp [h]
      · have := contiguous_run_subset (z :: l) x (by simpa using h)
        exact List.mem_cons_of_mem _ this
    · simp only [contiguous_run, hc, if_false, List.mem_singleton] at h
      simp [h]

theorem contiguous_run_length_le :
    ∀ (l : List (Nat × tcp_stream_chunk)), (contiguous_run l).length ≤ l.length
  | [] => by simp [contiguous_run]
  | [y] => by simp [contiguous_run]
  | y :: z :: l => by
    by_cases hc : z.2.start_seq = y.2.end_seq
    · have := contiguous_run_length_le (z :: l)
      simp only [contiguous_run, hc, if_true, List.length_cons] at this ⊢
      omega
    · simp [contiguous_run, hc]

theorem run_of_chunk_list (s : tcp_stream) :
    ∀ (l : List (Nat × tcp_stream_chunk)) (a : Nat) (c : tcp_stream_chunk),
      ChunkList s (some a) ((a, c) :: l) → Run s (contiguous_run ((a, c) :: l)) := by
  intro l
  induction l with
  | nil =>
    intro a c h
    cases h with
    | cons ha hrest =>
      cases hc : c.next with
      | none => exact Run.single ha (Or.inl hc)
      | some b => rw [hc] at hrest; cases hrest
  | cons y l ih =>
    obtain ⟨b, d⟩ := y
    intro a c h
    cases h with
    | cons ha hrest =>
      cases hc : c.next with
      | none => rw [hc] at hrest; cases hrest
      | some b2 =>
        rw [hc] at hrest
        cases hrest with
        | cons hb hrest2 =>
          have hbd : ChunkList s (some b) ((b, d) :: l) := ChunkList.cons hb hrest2
          by_cases hcont : d.start_seq = c.end_seq
          · obtain ⟨r, hr⟩ := contiguous_run_head (b, d) l
            have h2 := ih b d hbd
            simp only [contiguous_run, hcont, if_true]
            rw [hr] at h2 ⊢
            exact Run.cons ha hc hcont h2
          · simp only [contiguous_run, hcont, if_false]
            exact Run.single ha (Or.inr ⟨b, d, hc, hb, hcont⟩)

theorem read_step_congr (dbg : Bool) (fuel : Nat) (s : tcp_stream)
    (pos pos2 : tcp_stream_position) (length : Nat)
    (h : tcp_stream_position_advance dbg fuel s pos = tcp_stream_position_advance dbg fuel s pos2) :
    tcp_stream_position_read_step dbg fuel s pos length =
      tcp_stream_position_read_step dbg fuel s pos2 length := by
  simp only [tcp_stream_position_read_step, h]

/-- Reassembled read where the binding assertions hold: on a stream with no
edit (every pending chunk is as push left it and no insert is pending) whose
read cursor is at offset `o` of the first pending chunk, `tcp_stream_read` of
`n` bytes returns `min n R` bytes, where `R` is the number of bytes after offset `o` in the
maximal run of contiguous chunks at the head of the pending list, and those
bytes are the next bytes of the concatenated payloads of that run: the read
stops at the first gap. -/
theorem read_returns_contiguous_payload (dbg : Bool) (fuel : Nat) (s : tcp_stream)
    (a : Nat) (c : tcp_stream_chunk) (l : List (Nat × tcp_stream_chunk)) (o n : Nat)
    (hlist : ChunkList s s.first ((a, c) :: l))
    (hplain : ∀ x ∈ (a, c) :: l, PlainChunk x.2)
    (hpending : s.pending_modif = none)
    (hcur : ReadsFrom dbg s s.current_position a c o)
    (hn : n < 2 ^ 64) (hfuel : l.length + 2 ≤ fuel) :
    ∃ pos1, tcp_stream_read dbg fuel s n =
      Except.ok ({ s with current_position := pos1 },
        min n ((payloads (contiguous_run ((a, c) :: l))).length - o),
        ((payloads (contiguous_run ((a, c) :: l))).drop o).take n) := by
  have hfirst : s.first = some a := by
    cases hf : s.first with
    | none => rw [hf] at hlist; cases hlist
    | some b => rw [hf] at hlist; cases hlist; rfl
  rw [hfirst] at hlist
  have hrun := run_of_chunk_list s l a c hlist
  obtain ⟨r, hr⟩ := contiguous_run_head (a, c) l
  have hsub : ∀ x ∈ (a, c) :: r, PlainChunk x.2 := fun x hx =>
    hplain x (contiguous_run_subset _ x (hr ▸ hx))
  have hlen : r.length ≤ l.length := by
    have := contiguous_run_length_le ((a, c) :: l)
    rw [hr] at this
    simpa using this
  rw [hr] at hrun ⊢
  obtain ⟨f, rfl⟩ : ∃ k, fuel = k + 1 := ⟨fuel - 1, by omega⟩
  have ha : s.chunks[a]? = some c := by
    cases hlist with
    | cons h1 _ => exact h1
  -- the loop, from a position bound to the first chunk
  have key : ∀ pos : tcp_stream_position, pos.chunk = some a → pos.modif = none →
      pos.chunk_offset ≤ (chunk_payload c).length → (dbg = true → pos.chunk_seq = c.start_seq) →
      ∃ pos1, tcp_stream_position_read dbg (f + 1) s pos n =
        Except.ok (pos1, min n ((payloads ((a, c) :: r)).length - pos.chunk_offset),
          ((payloads ((a, c) :: r)).drop pos.chunk_offset).take n) := by
    intro pos hc hm ho hseq
    obtain ⟨pos1, h1⟩ := read_loop_run dbg f s (fun _ => hpending) r a c hrun hsub (f + 1) pos n []
      (by omega) hn hc hm ho hseq
    refine ⟨pos1, ?_⟩
    simp only [tcp_stream_position_read, h1, ok_bind, List.nil_append, pure_eq_ok]
    rw [size_sub_eq (Nat.sub_le _ _) hn]
    simp only [List.length_take, List.length_drop]
    have hk : n - (n - min n ((payloads ((a, c) :: r)).length - pos.chunk_offset))
        = min n ((payloads ((a, c) :: r)).length - pos.chunk_offset) := by omega
    rw [hk]
  cases hcur with
  | bound hc hm ho hseq =>
    obtain ⟨pos1, h1⟩ := key s.current_position hc hm ho hseq
    exact ⟨pos1, by simp [tcp_stream_read, h1]⟩
  | unbound hc hm hstart hcsm =>
    by_cases hz : n = 0
    · subst hz
      exact ⟨s.current_position, by
        simp [tcp_stream_read, tcp_stream_position_read, read_loop_zero, size_sub]⟩
    · have hb := advance_bind dbg (f + 1) hc hm hfirst ha hstart hcsm
      obtain ⟨pos1, h1⟩ := key
        { s.current_position with
            chunk := some a, chunk_offset := 0,
            chunk_seq_modif := size_add c.start_seq (size_of_int s.first_offset_seq),
            modif := none, modif_offset := SIZE_MAX } rfl rfl (Nat.zero_le _)
        (fun _ => hstart.symm)
      refine ⟨pos1, ?_⟩
      rw [← advance_bound dbg (f + 1) s (a := a) rfl] at hb
      have hstep := read_step_congr dbg (f + 1) s _ _ n hb
      simp only [tcp_stream_position_read] at h1
      rw [read_loop_succ _ _ _ _ _ _ _ hz, ← hstep, ← read_loop_succ _ _ _ _ _ _ _ hz] at h1
      simp only [tcp_stream_read, tcp_stream_position_read]
      revert h1
      cases tcp_stream_position_read_loop dbg (f + 1) s (f + 1) s.current_position n [] with
      | error e => intro h1; simp [bind, Except.bind] at h1
      | ok v =>
        intro h1
        simpa using h1

theorem hello_world_stream_reached (dbg : Bool) :
    run dbg 8 tcp_stream_create hello_world_trace = Except.ok hello_world_stream := by
  cases dbg <;> decide!

theorem read_returns_contiguous_payload_witness :
    ∃ pos1, tcp_stream_read true 8 hello_world_stream 10 =
      Except.ok ({ hello_world_stream with current_position := pos1 },
        min 10 ((payloads (contiguous_run
          [(0, { tcp := some (data_segment 1001 [72, 69, 76, 76, 79]), start_seq := 0,
                 end_seq := 5, offset_seq := 0, modifs := none, next := some 1 }),
           (1, { tcp := some (data_segment 1006 [87, 79, 82, 76, 68]), start_seq := 5,
                 end_seq := 10, offset_seq := 0, modifs := none, next := none })])).length - 0),
        ((payloads (contiguous_run
          [(0, { tcp := some (data_segment 1001 [72, 69, 76, 76, 79]), start_seq := 0,
                 end_seq := 5, offset_seq := 0, modifs := none, next := some 1 }),
           (1, { tcp := some (data_segment 1006 [87, 79, 82, 76, 68]), start_seq := 5,
                 end_seq := 10, offset_seq := 0, modifs := none, next := none })])).drop 0).take
          10) :=
  read_returns_contiguous_payload true 8 hello_world_stream 0 _ _ 0 10
    (ChunkList.cons rfl (ChunkList.cons rfl ChunkList.nil))
    (by
      intro x hx
      simp only [List.mem_cons, List.mem_singleton, List.not_mem_nil, or_false] at hx
      rcases hx with rfl | rfl
      · exact ⟨by simp, rfl, rfl, by norm_num⟩
      · exact ⟨by simp, rfl, rfl, by norm_num⟩)
    rfl
    (ReadsFrom.unbound rfl rfl rfl (fun _ => rfl))
    (by norm_num) (by decide)

/-! ## The position functions read only the heap and the list heads -/

theorem SameHeap.cursors (s : tcp_stream) (cur mk : tcp_stream_position) :
    SameHeap { s with current_position := cur, mark_position := mk } s :=
  ⟨rfl, rfl, rfl, rfl, rfl⟩

theorem SameHeap.cursor (s : tcp_stream) (cur : tcp_stream_position) :
    SameHeap { s with current_position := cur } s :=
  ⟨rfl, rfl, rfl, rfl, rfl⟩

theorem SameHeap.mark (s : tcp_stream) (mk : tcp_stream_position) :
    SameHeap { s with mark_position := mk } s :=
  ⟨rfl, rfl, rfl, rfl, rfl⟩

theorem get_chunk_congr {s1 s2 : tcp_stream} (h : SameHeap s1 s2) :
    get_chunk s1 = get_chunk s2 := by
  funext a
  simp [get_chunk, h.chunks]

theorem get_modif_congr {s1 s2 : tcp_stream} (h : SameHeap s1 s2) :
    get_modif s1 = get_modif s2 := by
  funext a
  simp [get_modif, h.modifs]

theorem deref_chunk_congr {s1 s2 : tcp_stream} (h : SameHeap s1 s2) :
    deref_chunk s1 = deref_chunk s2 := by
  funext p
  cases p <;> simp [deref_chunk, get_chunk_congr h]

theorem position_modif_congr {s1 s2 : tcp_stream} (h : SameHeap s1 s2) :
    tcp_stream_position_modif s1 = tcp_stream_position_modif s2 := by
  funext pos w
  simp only [tcp_stream_position_modif, get_chunk_congr h, get_modif_congr h]

theorem update_modif_congr (dbg : Bool) {s1 s2 : tcp_stream} (h : SameHeap s1 s2) :
    tcp_stream_position_update_modif dbg s1 = tcp_stream_position_update_modif dbg s2 := by
  funext pos
  simp only [tcp_stream_position_update_modif, get_chunk_congr h, get_modif_congr h]

theorem chunk_at_end_congr (dbg : Bool) {s1 s2 : tcp_stream} (h : SameHeap s1 s2) :
    tcp_stream_position_chunk_at_end dbg s1 = tcp_stream_position_chunk_at_end dbg s2 := by
  funext pos
  simp only [tcp_stream_position_chunk_at_end, deref_chunk_congr h, get_modif_congr h]

theorem next_chunk_congr (dbg : Bool) {s1 s2 : tcp_stream} (h : SameHeap s1 s2) :
    tcp_stream_position_next_chunk dbg s1 = tcp_stream_position_next_chunk dbg s2 := by
  funext pos
  simp only [tcp_stream_position_next_chunk, deref_chunk_congr h, get_chunk_congr h,
    h.pending_modif]

theorem chunk_is_before_congr {s1 s2 : tcp_stream} (h : SameHeap s1 s2) :
    tcp_stream_position_chunk_is_before s1 = tcp_stream_position_chunk_is_before s2 := by
  funext pos a
  simp only [tcp_stream_position_chunk_is_before, get_chunk_congr h]

theorem advance_loop_congr (dbg : Bool) {s1 s2 : tcp_stream} (h : SameHeap s1 s2) :
    ∀ (fuel : Nat) (pos : tcp_stream_position),
      tcp_stream_position_advance_loop dbg s1 fuel pos
        = tcp_stream_position_advance_loop dbg s2 fuel pos := by
  intro fuel
  induction fuel with
  | zero => intro pos; rfl
  | succ n ih =>
    intro pos
    simp only [tcp_stream_position_advance_loop, update_modif_congr dbg h,
      chunk_at_end_congr dbg h, next_chunk_congr dbg h, position_modif_congr h,
      deref_chunk_congr h, get_chunk_congr h, get_modif_congr h, h.pending_modif, ih]

theorem advance_congr (dbg : Bool) (fuel : Nat) {s1 s2 : tcp_stream} (h : SameHeap s1 s2) :
    tcp_stream_position_advance dbg fuel s1 = tcp_stream_position_advance dbg fuel s2 := by
  funext pos
  simp only [tcp_stream_position_advance, advance_loop_congr dbg h, deref_chunk_congr h,
    get_chunk_congr h, h.first, h.pending_modif, h.first_offset_seq]

theorem read_step_heap_congr (dbg : Bool) (fuel : Nat) {s1 s2 : tcp_stream}
    (h : SameHeap s1 s2) :
    tcp_stream_position_read_step dbg fuel s1 = tcp_stream_position_read_step dbg fuel s2 := by
  funext pos length
  simp only [tcp_stream_position_read_step, advance_congr dbg fuel h, position_modif_congr h,
    get_chunk_congr h, get_modif_congr h]

theorem read_loop_heap_congr (dbg : Bool) (fuel : Nat) {s1 s2 : tcp_stream}
    (h : SameHeap s1 s2) :
    ∀ (n : Nat) (pos : tcp_stream_position) (left : Nat) (buf : List Nat),
      tcp_stream_position_read_loop dbg fuel s1 n pos left buf
        = tcp_stream_position_read_loop dbg fuel s2 n pos left buf := by
  intro n
  induction n with
  | zero =>
    intro pos left buf
    rw [tcp_stream_position_read_loop.eq_def, tcp_stream_position_read_loop.eq_def]
  | succ n ih =>
    intro pos left buf
    rw [tcp_stream_position_read_loop.eq_def,
      tcp_stream_position_read_loop.eq_def dbg fuel s2]
    simp only [read_step_heap_congr dbg fuel h, ih]

theorem skip_modifs_congr {s1 s2 : tcp_stream} (h : SameHeap s1 s2) :
    ∀ (n mp mo : Nat), tcp_stream_position_skip_modifs s1 n mp mo
      = tcp_stream_position_skip_modifs s2 n mp mo := by
  intro n
  induction n with
  | zero => intro mp mo; rfl
  | succ n ih =>
    intro mp mo
    simp only [tcp_stream_position_skip_modifs, get_modif_congr h, ih]

theorem skip_loop_congr (dbg : Bool) (fuel : Nat) {s1 s2 : tcp_stream}
    (h : SameHeap s1 s2) :
    ∀ (n : Nat) (pos : tcp_stream_position) (total : Nat),
      tcp_stream_position_skip_available_loop dbg fuel s1 n pos total
        = tcp_stream_position_skip_available_loop dbg fuel s2 n pos total := by
  intro n
  induction n with
  | zero => intro pos total; rfl
  | succ n ih =>
    intro pos total
    simp only [tcp_stream_position_skip_available_loop, advance_congr dbg fuel h,
      get_chunk_congr h, get_modif_congr h, skip_modifs_congr h, ih]

theorem skip_available_congr (dbg : Bool) (fuel : Nat) {s1 s2 : tcp_stream}
    (h : SameHeap s1 s2) :
    tcp_stream_position_skip_available dbg fuel s1
      = tcp_stream_position_skip_available dbg fuel s2 := by
  funext pos
  simp only [tcp_stream_position_skip_available, skip_loop_congr dbg fuel h]

theorem try_advance_chunk_congr (dbg : Bool) {s1 s2 : tcp_stream} (h : SameHeap s1 s2) :
    tcp_stream_position_try_advance_chunk dbg s1
      = tcp_stream_position_try_advance_chunk dbg s2 := by
  funext pos chunk
  simp only [tcp_stream_position_try_advance_chunk, chunk_at_end_congr dbg h,
    next_chunk_congr dbg h]

/-! ## The round trip without edits -/

theorem payload_offset_zero (ps : List (List Nat)) : payload_offset ps 0 = 0 := by
  simp [payload_offset]

theorem payload_offset_succ (ps : List (List Nat)) (i : Nat) (h : i < ps.length) :
    payload_offset ps (i + 1) = payload_offset ps i + (ps.getD i []).length := by
  have h2 : i < (ps.map List.length).length := by simpa using h
  simp only [payload_offset, List.map_take, List.getD, List.getElem?_eq_getElem h,
    Option.getD_some]
  rw [List.take_succ, List.getElem?_eq_getElem h2, List.sum_append]
  simp [List.getElem?_eq_getElem h]

theorem payload_offset_length (ps : List (List Nat)) :
    payload_offset ps ps.length = (ps.map List.length).sum := by
  simp [payload_offset]

theorem payload_offset_mono (ps : List (List Nat)) (i j : Nat) (h : i ≤ j) :
    payload_offset ps i ≤ payload_offset ps j := by
  induction j with
  | zero =>
    have : i = 0 := by omega
    subst this
    exact le_refl _
  | succ j ih =>
    by_cases hij : i = j + 1
    · subst hij
      exact le_refl _
    · have h1 := ih (by omega)
      by_cases hj : j < ps.length
      · rw [payload_offset_succ ps j hj]
        omega
      · have : payload_offset ps (j + 1) = payload_offset ps j := by
          simp [payload_offset, List.take_of_length_le (show ps.length ≤ j + 1 by omega),
            List.take_of_length_le (show ps.length ≤ j by omega)]
        omega

theorem payload_offset_le (ps : List (List Nat)) (i : Nat) :
    payload_offset ps i ≤ (ps.map List.length).sum := by
  by_cases h : i ≤ ps.length
  · rw [← payload_offset_length]
    exact payload_offset_mono ps i _ h
  · simp [payload_offset, List.take_of_length_le (show ps.length ≤ i by omega)]

theorem payload_offset_append (ps : List (List Nat)) (p : List Nat) (i : Nat)
    (h : i ≤ ps.length) : payload_offset (ps ++ [p]) i = payload_offset ps i := by
  simp [payload_offset, List.take_append_of_le_length h]

theorem getD_append_left (ps : List (List Nat)) (p : List Nat) (i : Nat)
    (h : i < ps.length) : (ps ++ [p]).getD i [] = ps.getD i [] := by
  simp [List.getD, List.getElem?_append_left h]

theorem round_trip_chunk_get (q : Nat) (ps : List (List Nat)) (k : Nat)
    (cur : tcp_stream_position) (i : Nat) (h : i < ps.length) :
    (round_trip_stream q ps k cur).chunks[i]? = some (round_trip_chunk q ps k i) := by
  simp [round_trip_stream, List.getElem?_map, List.getElem?_range h]

theorem round_trip_chunk_plain (q : Nat) (ps : List (List Nat)) (k i : Nat)
    (hk : k ≤ i) (hi : i < ps.length) (hb : (ps.map List.length).sum < 2 ^ 64) :
    PlainChunk (round_trip_chunk q ps k i) := by
  have hnk : ¬ i < k := by omega
  refine ⟨?_, rfl, ?_, ?_⟩
  · simp [round_trip_chunk, hnk]
  · simp [round_trip_chunk, chunk_payload, hnk, data_segment, payload_offset_succ ps i hi]
  · have := payload_offset_le ps (i + 1)
    simp only [round_trip_chunk]
    omega

theorem round_trip_chunk_payload (q : Nat) (ps : List (List Nat)) (k i : Nat)
    (hk : k ≤ i) : chunk_payload (round_trip_chunk q ps k i) = ps.getD i [] := by
  have hnk : ¬ i < k := by omega
  simp [round_trip_chunk, chunk_payload, hnk, data_segment]

theorem map_range_getElem? {α : Type} (f : Nat → α) (n i : Nat) :
    ((List.range n).map f)[i]? = if i < n then some (f i) else none := by
  by_cases h : i < n
  · simp [h, List.getElem?_range h]
  · simp [h, List.getElem?_eq_none (show ((List.range n).map f).length ≤ i by simp; omega)]

theorem size_add_zero_zero : size_add 0 0 = 0 := by decide

theorem size_of_int_zero : size_of_int 0 = 0 := by decide

/-- A data segment pushed on a stream with no last chunk becomes the only
pending chunk. -/
theorem push_first (dbg : Bool) (fuel : Nat) (s : tcp_stream) (tcp : Tcp)
    (hsyn : tcp.syn = false) (hinit : s.seq_initialized = true)
    (hge : ¬ tcp.seq < s.start_seq)
    (hcur : ¬ (size_sub tcp.seq s.start_seq
                  < size_add s.current_position.chunk_seq s.current_position.chunk_offset ∨
               size_add (size_sub tcp.seq s.start_seq) tcp.payload.length
                  < size_add s.current_position.chunk_seq s.current_position.chunk_offset))
    (hlast : s.last = none) :
    tcp_stream_push dbg fuel s tcp =
      Except.ok ({ s with chunks := s.chunks ++ [pushed_chunk s tcp],
                          first := some s.chunks.length, last := some s.chunks.length }, none) := by
  simp [tcp_stream_push, hsyn, hinit, hge, hcur, hlast, pushed_chunk]

/-- A data segment that starts after the last inserted chunk, itself the tail
of the pending list, is linked after it. -/
theorem push_after_last (dbg : Bool) (fuel : Nat) (s : tcp_stream) (tcp : Tcp)
    (lp : Nat) (l : tcp_stream_chunk)
    (hsyn : tcp.syn = false) (hinit : s.seq_initialized = true)
    (hge : ¬ tcp.seq < s.start_seq)
    (hcur : ¬ (size_sub tcp.seq s.start_seq
                  < size_add s.current_position.chunk_seq s.current_position.chunk_offset ∨
               size_add (size_sub tcp.seq s.start_seq) tcp.payload.length
                  < size_add s.current_position.chunk_seq s.current_position.chunk_offset))
    (hlast : s.last = some lp) (hl : s.chunks[lp]? = some l)
    (hlt : l.start_seq < size_sub tcp.seq s.start_seq) (hnext : l.next = none)
    (hpend : s.pending_modif = none) :
    tcp_stream_push dbg (fuel + 1) s tcp =
      Except.ok ({ s with chunks := (s.chunks ++ [pushed_chunk s tcp]).set lp
                                      { l with next := some s.chunks.length },
                          last := some s.chunks.length }, none) := by
  simp [tcp_stream_push, hsyn, hinit, hge, hcur, hlast, get_chunk_eq hl, hlt,
    tcp_stream_push_search, hnext, set_chunk, hpend, pushed_chunk]

theorem round_trip_chunks_push (q : Nat) (ps : List (List Nat)) (p : List Nat)
    (hne : 0 < ps.length) :
    ((List.range ps.length).map (round_trip_chunk q ps 0) ++
        [({ tcp := some (data_segment (q + 1 + payload_offset ps ps.length) p),
            start_seq := payload_offset ps ps.length,
            end_seq := payload_offset ps ps.length + p.length,
            offset_seq := 0, modifs := none, next := none } : tcp_stream_chunk)]).set
        (ps.length - 1)
        { round_trip_chunk q ps 0 (ps.length - 1) with next := some ps.length }
      = (List.range (ps ++ [p]).length).map (round_trip_chunk q (ps ++ [p]) 0) := by
  apply List.ext_getElem?
  intro i
  rw [List.getElem?_set, List.getElem?_append, map_range_getElem?, map_range_getElem?]
  simp only [List.length_append, List.length_map, List.length_range, List.length_singleton]
  by_cases h1 : ps.length - 1 = i
  · subst h1
    have h2 : ps.length - 1 < ps.length := by omega
    have h3 : ps.length - 1 < ps.length + 1 := by omega
    have h4 : ps.length - 1 + 1 = ps.length := by omega
    simp only [if_pos h2, if_pos h3, if_true]
    simp [round_trip_chunk, payload_offset_append ps p _ (le_of_lt h2), h4,
      payload_offset_append ps p _ (le_refl _), List.getElem?_append_left h2]
  · simp only [if_neg h1]
    by_cases h2 : i < ps.length
    · have h3 : i < ps.length + 1 := by omega
      have h4 : i + 1 < ps.length := by omega
      have h5 : i + 1 < ps.length + 1 := by omega
      simp only [if_pos h2, if_pos h3]
      simp [round_trip_chunk, payload_offset_append ps p _ (le_of_lt h2), h4, h5,
        payload_offset_append ps p _ (le_of_lt h4), List.getElem?_append_left h2]
    · simp only [if_neg h2]
      by_cases h3 : i = ps.length
      · subst h3
        simp [round_trip_chunk, payload_offset_append ps p _ (le_refl _),
          payload_offset_succ (ps ++ [p]) ps.length (by simp), List.getD]
      · have h4 : ¬ i < ps.length + 1 := by omega
        simp only [if_neg h4]
        obtain ⟨j, hj⟩ : ∃ j, i - ps.length = j + 1 := ⟨i - ps.length - 1, by omega⟩
        simp [hj]

theorem push_round_trip (dbg : Bool) (fuel : Nat) (q : Nat) (ps : List (List Nat))
    (p : List Nat) (hdata : ∀ x ∈ ps, x ≠ [])
    (hseq : q + 1 + ((ps ++ [p]).map List.length).sum < 2 ^ 64) (hfuel : 1 ≤ fuel) :
    tcp_stream_push dbg fuel (round_trip_stream q ps 0 zero_position)
        (data_segment (q + 1 + payload_offset ps ps.length) p)
      = Except.ok (round_trip_stream q (ps ++ [p]) 0 zero_position, none) := by
  have htot : payload_offset ps ps.length + p.length = ((ps ++ [p]).map List.length).sum := by
    rw [payload_offset_length]
    simp
  have h2 : size_sub (q + 1 + payload_offset ps ps.length) (q + 1)
      = payload_offset ps ps.length := by
    rw [size_sub_eq (by omega) (by omega)]
    omega
  have h3 : size_add (payload_offset ps ps.length) p.length
      = payload_offset ps ps.length + p.length := size_add_eq (by omega)
  have hge : ¬ (data_segment (q + 1 + payload_offset ps ps.length) p).seq
      < (round_trip_stream q ps 0 zero_position).start_seq := by
    simp [data_segment, round_trip_stream]
  have hcur : ¬ (size_sub (data_segment (q + 1 + payload_offset ps ps.length) p).seq
        (round_trip_stream q ps 0 zero_position).start_seq
          < size_add (round_trip_stream q ps 0 zero_position).current_position.chunk_seq
              (round_trip_stream q ps 0 zero_position).current_position.chunk_offset ∨
        size_add (size_sub (data_segment (q + 1 + payload_offset ps ps.length) p).seq
          (round_trip_stream q ps 0 zero_position).start_seq)
          (data_segment (q + 1 + payload_offset ps ps.length) p).payload.length
          < size_add (round_trip_stream q ps 0 zero_position).current_position.chunk_seq
              (round_trip_stream q ps 0 zero_position).current_position.chunk_offset) := by
    simp [round_trip_stream, zero_position, size_add_zero_zero]
  have hpc : pushed_chunk (round_trip_stream q ps 0 zero_position)
      (data_segment (q + 1 + payload_offset ps ps.length) p)
      = { tcp := some (data_segment (q + 1 + payload_offset ps ps.length) p),
          start_seq := payload_offset ps ps.length,
          end_seq := payload_offset ps ps.length + p.length,
          offset_seq := 0, modifs := none, next := none } := by
    have e1 : (round_trip_stream q ps 0 zero_position).start_seq = q + 1 := rfl
    have e2 : (data_segment (q + 1 + payload_offset ps ps.length) p).seq
        = q + 1 + payload_offset ps ps.length := rfl
    have e3 : (data_segment (q + 1 + payload_offset ps ps.length) p).payload = p := rfl
    simp only [pushed_chunk, e1, e2, e3, h2, h3]
  obtain ⟨f, rfl⟩ : ∃ k, fuel = k + 1 := ⟨fuel - 1, by omega⟩
  by_cases hn : ps.length = 0
  · have hnil : ps = [] := List.length_eq_zero.1 hn
    subst hnil
    rw [push_first dbg _ _ _ rfl rfl hge hcur (by simp [round_trip_stream]), hpc]
    have hr : List.range 1 = [0] := rfl
    simp [round_trip_stream, round_trip_chunk, payload_offset, List.getD, hr]
  · have hpos : 0 < ps.length := by omega
    have hlast : ps.length - 1 < ps.length := by omega
    have hget := round_trip_chunk_get q ps 0 zero_position (ps.length - 1) hlast
    have hnext : (round_trip_chunk q ps 0 (ps.length - 1)).next = none := by
      have : ¬ (ps.length - 1 + 1 < ps.length) := by omega
      simp [round_trip_chunk, this]
    have hlt : (round_trip_chunk q ps 0 (ps.length - 1)).start_seq
        < size_sub (data_segment (q + 1 + payload_offset ps ps.length) p).seq
            (round_trip_stream q ps 0 zero_position).start_seq := by
      have hmem : ps.getD (ps.length - 1) [] ∈ ps := by
        simp [List.getD, List.getElem?_eq_getElem hlast]
      have hne := hdata _ hmem
      have hlen : 0 < (ps.getD (ps.length - 1) []).length := List.length_pos.2 hne
      have := payload_offset_succ ps (ps.length - 1) hlast
      have h4 : ps.length - 1 + 1 = ps.length := by omega
      rw [h4] at this
      have e1 : (round_trip_stream q ps 0 zero_position).start_seq = q + 1 := rfl
      have e2 : (data_segment (q + 1 + payload_offset ps ps.length) p).seq
          = q + 1 + payload_offset ps ps.length := rfl
      rw [e1, e2, h2]
      simp only [round_trip_chunk]
      omega
    rw [push_after_last dbg f _ _ (ps.length - 1) _ rfl rfl hge hcur
      (by simp [round_trip_stream, hpos]) hget hlt hnext rfl, hpc]
    have hchunks := round_trip_chunks_push q ps p hpos
    have hlen : (round_trip_stream q ps 0 zero_position).chunks.length = ps.length := by
      simp [round_trip_stream]
    rw [hlen]
    have hc : (round_trip_stream q ps 0 zero_position).chunks
        = (List.range ps.length).map (round_trip_chunk q ps 0) := rfl
    rw [hc, hchunks]
    simp [round_trip_stream, hpos]

theorem push_syn_round_trip (dbg : Bool) (fuel : Nat) (q : Nat) (hq : q + 1 < 2 ^ 32) :
    tcp_stream_push dbg fuel tcp_stream_create (syn_segment q)
      = Except.ok (round_trip_stream q [] 0 zero_position, none) := by
  have h : (q + 1) % 2 ^ 32 = q + 1 := Nat.mod_eq_of_lt hq
  norm_num at h
  simp [tcp_stream_push, syn_segment, tcp_stream_create, round_trip_stream, h]

theorem mem_dropLast_of_mem_left {α : Type} (l1 : List α) (y : α) (l2 : List α) (x : α)
    (h : x ∈ l1) : x ∈ (l1 ++ y :: l2).dropLast := by
  rw [List.dropLast_append_of_ne_nil _ (by simp)]
  exact List.mem_append_left _ h

theorem push_many_round_trip (dbg : Bool) (fuel : Nat) (q : Nat) (hfuel : 1 ≤ fuel) :
    ∀ (ps1 ps0 : List (List Nat)), (∀ p ∈ (ps0 ++ ps1).dropLast, p ≠ []) →
      q + 1 + ((ps0 ++ ps1).map List.length).sum < 2 ^ 64 →
      push_many dbg fuel (round_trip_stream q ps0 0 zero_position)
          (contiguous_segments (q + 1 + payload_offset ps0 ps0.length) ps1)
        = Except.ok (round_trip_stream q (ps0 ++ ps1) 0 zero_position,
            List.replicate ps1.length none) := by
  intro ps1
  induction ps1 with
  | nil =>
    intro ps0 _ _
    simp [contiguous_segments, push_many]
  | cons p ps1 ih =>
    intro ps0 hdata hseq
    have hdata0 : ∀ x ∈ ps0, x ≠ [] := fun x hx =>
      hdata x (mem_dropLast_of_mem_left ps0 p ps1 x hx)
    have hseq0 : q + 1 + ((ps0 ++ [p]).map List.length).sum < 2 ^ 64 := by
      simp at hseq ⊢
      omega
    have hpush := push_round_trip dbg fuel q ps0 p hdata0 hseq0 hfuel
    have happ : ps0 ++ p :: ps1 = (ps0 ++ [p]) ++ ps1 := by simp
    have hoff : q + 1 + payload_offset ps0 ps0.length + p.length
        = q + 1 + payload_offset (ps0 ++ [p]) (ps0 ++ [p]).length := by
      rw [payload_offset_length, payload_offset_length]
      simp
      omega
    have h2 := ih (ps0 ++ [p]) (by rw [← happ]; exact hdata) (by rw [← happ]; exact hseq)
    simp only [contiguous_segments, push_many, hpush, ok_bind, hoff, h2, pure_eq_ok, happ,
      List.length_cons, List.replicate_succ]

theorem skip_loop_stalled {dbg : Bool} {fuel : Nat} {s : tcp_stream}
    {pos pos2 : tcp_stream_position} (n total : Nat)
    (hadv : tcp_stream_position_advance dbg fuel s pos = Except.ok (pos2, false)) :
    tcp_stream_position_skip_available_loop dbg fuel s (n + 1) pos total
      = Except.ok (pos2, total) := by
  simp [tcp_stream_position_skip_available_loop, hadv]

theorem skip_loop_plain {dbg : Bool} {fuel : Nat} {s : tcp_stream}
    {pos pos2 : tcp_stream_position} {b : Nat} {d : tcp_stream_chunk} (n total : Nat)
    (hadv : tcp_stream_position_advance dbg fuel s pos = Except.ok (pos2, true))
    (hc : pos2.chunk = some b) (hm : pos2.modif = none) (hb : s.chunks[b]? = some d)
    (hd : d.modifs = none) :
    tcp_stream_position_skip_available_loop dbg fuel s (n + 1) pos total
      = tcp_stream_position_skip_available_loop dbg fuel s n (after_skip pos2 d)
          (size_add total
            (size_sub (size_add (size_sub d.end_seq d.start_seq) (size_of_int d.offset_seq))
              (size_sub pos2.current_seq_modif pos2.chunk_seq_modif))) := by
  simp [tcp_stream_position_skip_available_loop, hadv, hc, hm, get_chunk_eq hb, hd, after_skip]

theorem chunk_release_unedited (fuel : Nat) (s : tcp_stream) (a : Nat) (c : tcp_stream_chunk)
    (hc : s.chunks[a]? = some c) (hm : c.modifs = none) :
    tcp_stream_chunk_release fuel s a
      = Except.ok { s with chunks := s.chunks.set a { c with modifs := none } } := by
  cases fuel <;>
    simp [tcp_stream_chunk_release, get_chunk_eq hc, hm, tcp_stream_chunk_release_loop, set_chunk]

theorem update_chunk_eq (s : tcp_stream) (a : Nat) (c : tcp_stream_chunk)
    (f : tcp_stream_chunk → tcp_stream_chunk) (hc : s.chunks[a]? = some c) :
    update_chunk s (some a) f = Except.ok { s with chunks := s.chunks.set a (f c) } := by
  simp [update_chunk, get_chunk_eq hc, set_chunk]

theorem getElem?_set_self_of_some {α : Type} (l : List α) (i : Nat) (x y : α)
    (h : l[i]? = some x) : (l.set i y)[i]? = some y := by
  have hi : i < l.length := by
    by_contra hn
    rw [List.getElem?_eq_none (by omega)] at h
    cases h
  rw [List.getElem?_set]
  simp [hi]

theorem advance_cursor (dbg : Bool) (fuel : Nat) (s : tcp_stream) (c : tcp_stream_position) :
    tcp_stream_position_advance dbg fuel { s with current_position := c }
      = tcp_stream_position_advance dbg fuel s :=
  advance_congr dbg fuel (SameHeap.cursor s c)

theorem skip_available_cursor (dbg : Bool) (fuel : Nat) (s : tcp_stream)
    (c : tcp_stream_position) :
    tcp_stream_position_skip_available dbg fuel { s with current_position := c }
      = tcp_stream_position_skip_available dbg fuel s :=
  skip_available_congr dbg fuel (SameHeap.cursor s c)

theorem try_advance_chunk_cursor (dbg : Bool) (s : tcp_stream) (c : tcp_stream_position) :
    tcp_stream_position_try_advance_chunk dbg { s with current_position := c }
      = tcp_stream_position_try_advance_chunk dbg s :=
  try_advance_chunk_congr dbg (SameHeap.cursor s c)

theorem chunk_is_before_cursor (s : tcp_stream) (c : tcp_stream_position) :
    tcp_stream_position_chunk_is_before { s with current_position := c }
      = tcp_stream_position_chunk_is_before s :=
  chunk_is_before_congr (SameHeap.cursor s c)

/-- The pop of a first pending chunk without edit records, on a stream with no
mark, once the read cursor is past the chunk. -/
theorem pop_unedited (dbg : Bool) (fuel : Nat) (s : tcp_stream) (a : Nat)
    (c : tcp_stream_chunk) (t : Tcp) (cur1 cur2 cur3 : tcp_stream_position)
    (b1 : Bool) (tot : Nat)
    (hmark : tcp_stream_position_isvalid s.mark_position = false)
    (hfirst : s.first = some a)
    (hadv : tcp_stream_position_advance dbg fuel s s.current_position = Except.ok (cur1, b1))
    (hskip : tcp_stream_position_skip_available dbg fuel s cur1 = Except.ok (cur2, tot))
    (htry : tcp_stream_position_try_advance_chunk dbg s cur2 (some a) = Except.ok cur3)
    (hbefore : tcp_stream_position_chunk_is_before s cur3 a = Except.ok true)
    (hc : s.chunks[a]? = some c) (ht : c.tcp = some t) (hm : c.modifs = none)
    (hlast : dbg = true → s.last = some a → c.next = none)
    (hsent : ∀ lp, s.last_sent = some lp →
      ∃ l, s.chunks[lp]? = some l ∧ lp ≠ a ∧ (dbg = true → l.end_seq = c.start_seq)) :
    tcp_stream_pop dbg fuel s =
      Except.ok (after_pop s a c cur3,
        some { t with seq := u32_of_int (t.seq + s.first_offset_seq) }) := by
  have hmark2 : (tcp_stream_position_isvalid s.mark_position = false ∨
      tcp_stream_position_isbefore s.mark_position s.current_position = true) := Or.inl hmark
  have hassert := c_assert_true dbg hmark2
  have ha : a < s.chunks.length := by
    by_contra hn
    rw [List.getElem?_eq_none (by omega)] at hc
    cases hc
  have hskip1 : ∀ s1, SameHeap s1 s →
      tcp_stream_position_skip_available dbg fuel s1 cur1 = Except.ok (cur2, tot) :=
    fun s1 h => by rw [skip_available_congr dbg fuel h]; exact hskip
  have htry1 : ∀ s1, SameHeap s1 s →
      tcp_stream_position_try_advance_chunk dbg s1 cur2 (some a) = Except.ok cur3 :=
    fun s1 h => by rw [try_advance_chunk_congr dbg h]; exact htry
  have hbefore1 : ∀ s1, SameHeap s1 s →
      tcp_stream_position_chunk_is_before s1 cur3 a = Except.ok true :=
    fun s1 h => by rw [chunk_is_before_congr h]; exact hbefore
  simp only [tcp_stream_pop, tcp_stream_pop_emit, hassert, ok_bind, hadv]
  simp only [hmark, Bool.false_eq_true, if_false, hfirst]
  rw [hskip1]
  swap
  · exact ⟨rfl, rfl, hfirst.symm, rfl, rfl⟩
  simp only [ok_bind]
  rw [htry1]
  swap
  · exact ⟨rfl, rfl, hfirst.symm, rfl, rfl⟩
  simp only [ok_bind, pure_eq_ok]
  rw [hbefore1]
  swap
  · exact ⟨rfl, rfl, hfirst.symm, rfl, rfl⟩
  simp only [ok_bind, if_true]
  have hca : s.chunks[a] = c := by
    rw [List.getElem?_eq_getElem ha] at hc
    exact Option.some.inj hc
  cases hls : s.last_sent with
  | none =>
    by_cases hl : s.last = some a
    · have hcn : dbg = true → c.next = none := fun h => hlast h hl
      simp [get_chunk_eq hc, ht, hm, hl, c_assert_imp dbg hcn, hls, update_chunk, set_chunk,
        tcp_stream_chunk_release, tcp_stream_chunk_release_loop, get_chunk, after_pop,
        List.getElem?_set, ha, hca]
    · simp [get_chunk_eq hc, ht, hm, hl, hls, update_chunk, set_chunk,
        tcp_stream_chunk_release, tcp_stream_chunk_release_loop, get_chunk, after_pop,
        List.getElem?_set, ha, hca]
  | some lp =>
    obtain ⟨l, hlp, hne, hend⟩ := hsent lp hls
    have hlpl : lp < s.chunks.length := by
      by_contra hn
      rw [List.getElem?_eq_none (by omega)] at hlp
      cases hlp
    have hne2 : ¬ a = lp := fun h => hne h.symm
    have hlpa : s.chunks[lp] = l := by
      rw [List.getElem?_eq_getElem hlpl] at hlp
      exact Option.some.inj hlp
    by_cases hl : s.last = some a
    · have hcn : dbg = true → c.next = none := fun h => hlast h hl
      simp [get_chunk_eq hc, ht, hm, hl, c_assert_imp dbg hcn, hls, update_chunk, set_chunk,
        tcp_stream_chunk_release, tcp_stream_chunk_release_loop, get_chunk, after_pop,
        List.getElem?_set, ha, hca, hlpa, hlp, hlpl, hne, hne2, c_assert_imp dbg hend]
    · simp [get_chunk_eq hc, ht, hm, hl, hls, update_chunk, set_chunk,
        tcp_stream_chunk_release, tcp_stream_chunk_release_loop, get_chunk, after_pop,
        List.getElem?_set, ha, hca, hlpa, hlp, hlpl, hne, hne2, c_assert_imp dbg hend]

theorem round_trip_chunk_next (q : Nat) (ps : List (List Nat)) (k i : Nat) (hk : k ≤ i) :
    (round_trip_chunk q ps k i).next = if i + 1 < ps.length then some (i + 1) else none := by
  have : ¬ i < k := by omega
  simp [round_trip_chunk, this]

theorem payload_offset_add (ps : List (List Nat)) (i : Nat) (hi : i < ps.length)
    (hb : (ps.map List.length).sum < 2 ^ 64) :
    size_add (payload_offset ps i) (ps.getD i []).length = payload_offset ps (i + 1) := by
  have h1 := payload_offset_succ ps i hi
  have h2 := payload_offset_le ps (i + 1)
  rw [size_add_eq (by omega)]
  omega

theorem payload_offset_sub (ps : List (List Nat)) (i : Nat) (hi : i < ps.length)
    (hb : (ps.map List.length).sum < 2 ^ 64) :
    size_sub (payload_offset ps (i + 1)) (payload_offset ps i) = (ps.getD i []).length := by
  have h1 := payload_offset_succ ps i hi
  have h2 := payload_offset_le ps (i + 1)
  rw [size_sub_eq (by omega) (by omega)]
  omega

/-- At the end of the last chunk the cursor cannot advance. -/
theorem advance_round_trip_last (dbg : Bool) (fuel : Nat) (q : Nat) (ps : List (List Nat))
    (k : Nat) (cur : tcp_stream_position) (x : Nat)
    (hb : (ps.map List.length).sum < 2 ^ 64) (hk : k < ps.length) :
    tcp_stream_position_advance dbg (fuel + 1) (round_trip_stream q ps k cur)
        (round_trip_end ps (ps.length - 1) x)
      = Except.ok (round_trip_end ps (ps.length - 1) x, false) := by
  have hjn : ps.length - 1 < ps.length := by omega
  have hget := round_trip_chunk_get q ps k cur (ps.length - 1) hjn
  rw [advance_bound dbg (fuel + 1) _ (a := ps.length - 1) rfl]
  refine advance_loop_plain_last dbg fuel (a := ps.length - 1) rfl rfl hget rfl
    (payload_offset_add ps _ hjn hb) ?_
  rw [round_trip_chunk_next q ps k _ (by omega)]
  have : ¬ ps.length - 1 + 1 < ps.length := by omega
  simp [this]

/-- From the end of a chunk, the skip loop walks to the end of the last chunk. -/
theorem skip_loop_round_trip (dbg : Bool) (fuel : Nat) (q : Nat) (ps : List (List Nat))
    (k : Nat) (cur : tcp_stream_position)
    (hb : (ps.map List.length).sum < 2 ^ 64) (hfuel : 1 ≤ fuel) :
    ∀ (d j x m tot : Nat), k ≤ j → j + d + 1 = ps.length → d + 1 ≤ m →
      ∃ x1 tot1,
        tcp_stream_position_skip_available_loop dbg fuel (round_trip_stream q ps k cur) m
            (round_trip_end ps j x) tot
          = Except.ok (round_trip_end ps (ps.length - 1) x1, tot1) := by
  obtain ⟨f, rfl⟩ : ∃ f, fuel = f + 1 := ⟨fuel - 1, by omega⟩
  intro d
  induction d with
  | zero =>
    intro j x m tot hk hj hm
    obtain ⟨m1, rfl⟩ : ∃ m1, m = m1 + 1 := ⟨m - 1, by omega⟩
    have hjl : j = ps.length - 1 := by omega
    subst hjl
    refine ⟨x, tot, ?_⟩
    exact skip_loop_stalled m1 tot (advance_round_trip_last dbg f q ps k cur x hb (by omega))
  | succ d ih =>
    intro j x m tot hk hj hm
    obtain ⟨m1, rfl⟩ : ∃ m1, m = m1 + 1 := ⟨m - 1, by omega⟩
    have hjn : j < ps.length := by omega
    have hjn1 : j + 1 < ps.length := by omega
    have hget := round_trip_chunk_get q ps k cur j hjn
    have hget1 := round_trip_chunk_get q ps k cur (j + 1) hjn1
    have hnext : (round_trip_chunk q ps k j).next = some (j + 1) := by
      rw [round_trip_chunk_next q ps k j hk]
      simp [hjn1]
    have hadv : tcp_stream_position_advance dbg (f + 1) (round_trip_stream q ps k cur)
        (round_trip_end ps j x)
          = Except.ok (step_into (round_trip_end ps j x) (some (j + 1)), true) := by
      rw [advance_bound dbg (f + 1) _ (a := j) rfl]
      exact advance_loop_plain_step dbg f (a := j) (b := j + 1) rfl rfl hget rfl
        (payload_offset_add ps j hjn hb) hnext hget1 rfl
        (fun _ => (payload_offset_add ps j hjn hb).symm) (fun _ => rfl)
    rw [skip_loop_plain m1 tot hadv rfl rfl hget1 rfl]
    have hpos : after_skip (step_into (round_trip_end ps j x) (some (j + 1)))
          (round_trip_chunk q ps k (j + 1))
        = round_trip_end ps (j + 1)
            (after_skip (step_into (round_trip_end ps j x) (some (j + 1)))
              (round_trip_chunk q ps k (j + 1))).current_seq_modif := by
      simp only [after_skip, step_into, round_trip_end, round_trip_chunk,
        payload_offset_add ps j hjn hb, payload_offset_sub ps (j + 1) hjn1 hb]
    rw [hpos]
    exact ih (j + 1) _ m1 _ (by omega) (by omega) (by omega)

theorem round_trip_cursor_succ (ps : List (List Nat)) (k x : Nat) :
    round_trip_cursor ps (k + 1) x
      = if k + 1 < ps.length then round_trip_end ps (ps.length - 1) x
        else step_into (round_trip_end ps (ps.length - 1) x) none := by
  simp [round_trip_cursor]

/-- Once the cursor is at the end of the last chunk, the pop moves it off the
popped chunk when that chunk is the last one. -/
theorem try_advance_chunk_round_trip (dbg : Bool) (q : Nat) (ps : List (List Nat))
    (k : Nat) (cur : tcp_stream_position) (x : Nat)
    (hb : (ps.map List.length).sum < 2 ^ 64) (hk : k < ps.length) :
    tcp_stream_position_try_advance_chunk dbg (round_trip_stream q ps k cur)
        (round_trip_end ps (ps.length - 1) x) (some k)
      = Except.ok (round_trip_cursor ps (k + 1) x) := by
  have hjn : ps.length - 1 < ps.length := by omega
  have hget := round_trip_chunk_get q ps k cur (ps.length - 1) hjn
  rw [round_trip_cursor_succ]
  by_cases hl : k + 1 < ps.length
  · have hne : ¬ ps.length - 1 = k := by omega
    simp [tcp_stream_position_try_advance_chunk, round_trip_end, hne, hl]
  · have he : ps.length - 1 = k := by omega
    have hnext : (round_trip_chunk q ps k (ps.length - 1)).next = none := by
      rw [round_trip_chunk_next q ps k _ (by omega)]
      have : ¬ ps.length - 1 + 1 < ps.length := by omega
      simp [this]
    have hend := @chunk_at_end_plain dbg (round_trip_stream q ps k cur)
      (round_trip_end ps (ps.length - 1) x) (ps.length - 1) _ rfl rfl hget rfl
    have hstep := @next_chunk_none dbg (round_trip_stream q ps k cur)
      (round_trip_end ps (ps.length - 1) x) (ps.length - 1) _ rfl hget hnext
      (fun _ => rfl)
    have hat : size_add (round_trip_chunk q ps k (ps.length - 1)).start_seq
        (round_trip_end ps (ps.length - 1) x).chunk_offset
          = (round_trip_chunk q ps k (ps.length - 1)).end_seq :=
      payload_offset_add ps _ hjn hb
    rw [hat] at hend
    have hcond : (round_trip_end ps (ps.length - 1) x).chunk ≠ none ∧
        (round_trip_end ps (ps.length - 1) x).chunk = some k := by
      simp [round_trip_end, he]
    simp only [tcp_stream_position_try_advance_chunk, hcond, and_self, if_true, hend, ok_bind,
      decide_True, hstep, pure_eq_ok, if_neg hl]
    simp

/-- After the cursor moved, it is past the popped chunk. -/
theorem chunk_is_before_round_trip (q : Nat) (ps : List (List Nat))
    (k : Nat) (cur : tcp_stream_position) (x : Nat)
    (hb : (ps.map List.length).sum < 2 ^ 64) (hk : k < ps.length) :
    tcp_stream_position_chunk_is_before (round_trip_stream q ps k cur)
        (round_trip_cursor ps (k + 1) x) k = Except.ok true := by
  have hjn : ps.length - 1 < ps.length := by omega
  have hget := round_trip_chunk_get q ps k cur k hk
  have hadd := payload_offset_add ps _ hjn hb
  have hmono := payload_offset_mono ps (k + 1) (ps.length - 1 + 1) (by omega)
  simp only [List.getD_eq_getElem?_getD] at hadd
  rw [round_trip_cursor_succ]
  by_cases hl : k + 1 < ps.length
  · have hne : ¬ ps.length - 1 = k := by omega
    simp only [if_pos hl]
    simp [tcp_stream_position_chunk_is_before, round_trip_end, hne, get_chunk_eq hget,
      round_trip_chunk, hadd]
    exact hmono
  · simp only [if_neg hl]
    have h0 : size_add (payload_offset ps (ps.length - 1 + 1)) 0
        = payload_offset ps (ps.length - 1 + 1) := by
      have := payload_offset_le ps (ps.length - 1 + 1)
      rw [size_add_eq (by omega)]
      rfl
    simp [tcp_stream_position_chunk_is_before, round_trip_end, step_into, get_chunk_eq hget,
      round_trip_chunk, hadd, h0]
    exact hmono

theorem int_wrap_zero : int_wrap 0 = 0 := by decide

/-- Popping the first pending chunk of the round trip turns the state after
`k` pops into the state after `k + 1` pops. -/
theorem after_pop_round_trip (q : Nat) (ps : List (List Nat)) (k : Nat)
    (cur cur3 : tcp_stream_position) (hk : k < ps.length) :
    after_pop (round_trip_stream q ps k cur) k (round_trip_chunk q ps k k) cur3
      = round_trip_stream q ps (k + 1) cur3 := by
  have hnk : ¬ k < k := by omega
  have hchunks : (after_pop (round_trip_stream q ps k cur) k (round_trip_chunk q ps k k)
      cur3).chunks = (List.range ps.length).map (round_trip_chunk q ps (k + 1)) := by
    apply List.ext_getElem?
    intro i
    rw [map_range_getElem?]
    rcases Nat.eq_zero_or_pos k with h0 | hpos
    · subst h0
      simp only [after_pop, round_trip_stream, lt_self_iff_false, if_false]
      rw [List.getElem?_set, map_range_getElem?]
      by_cases hi : 0 = i
      · subst hi
        simp [round_trip_chunk, hk]
      · have hi2 : ¬ i < 0 + 1 := by omega
        have hi3 : ¬ i < 0 := by omega
        simp [hi, round_trip_chunk, hi2, hi3]
    · have hk1 : k - 1 < ps.length := by omega
      have hl : ((List.range ps.length).map (round_trip_chunk q ps k))[k - 1]?
          = some (round_trip_chunk q ps k (k - 1)) := by
        rw [map_range_getElem?]
        simp [hk1]
      simp only [after_pop, round_trip_stream, hpos, if_true, hl]
      rw [List.getElem?_set, List.getElem?_set, List.getElem?_set, map_range_getElem?]
      simp only [List.length_set, List.length_map, List.length_range]
      by_cases hi : k = i
      · subst hi
        simp [round_trip_chunk, hk]
      · by_cases hi1 : k - 1 = i
        · subst hi1
          have h1 : k - 1 < k := by omega
          have h2 : k - 1 < k + 1 := by omega
          have h3 : k - 1 + 1 = k := by omega
          simp [hi, round_trip_chunk, hk1, h1, h2, h3]
        · by_cases hin : i < ps.length
          · by_cases hik : i < k
            · have h1 : i < k + 1 := by omega
              have h2 : i + 1 < k := by omega
              have h3 : i + 1 < k + 1 := by omega
              simp [hi, hi1, hin, round_trip_chunk, hik, h1, h2, h3]
            · have h1 : ¬ i < k + 1 := by omega
              simp [hi, hi1, hin, round_trip_chunk, hik, h1]
          · simp [hi, hi1, hin]
  have hrest : after_pop (round_trip_stream q ps k cur) k (round_trip_chunk q ps k k) cur3
      = { round_trip_stream q ps (k + 1) cur3 with
          chunks := (after_pop (round_trip_stream q ps k cur) k (round_trip_chunk q ps k k)
            cur3).chunks } := by
    rcases Nat.eq_zero_or_pos k with h0 | hpos
    · subst h0
      by_cases h1 : 0 + 1 < ps.length
      · have h2 : ¬ ps.length - 1 = 0 := by omega
        simp [after_pop, round_trip_stream, round_trip_chunk, hk, h1, h2, int_wrap_zero]
      · have h2 : ps.length - 1 = 0 := by omega
        simp [after_pop, round_trip_stream, round_trip_chunk, hk, h1, h2, int_wrap_zero]
    · by_cases h1 : k + 1 < ps.length
      · have h2 : ¬ ps.length - 1 = k := by omega
        simp [after_pop, round_trip_stream, round_trip_chunk, hk, h1, h2, int_wrap_zero, hpos]
      · have h2 : ps.length - 1 = k := by omega
        simp [after_pop, round_trip_stream, round_trip_chunk, hk, h1, h2, int_wrap_zero, hpos]
  rw [hrest, hchunks]
  simp [round_trip_stream]

theorem head_ne_nil_of_increasing (ps : List (List Nat)) (h : 1 < ps.length)
    (hinc : ∀ p ∈ ps.dropLast, p ≠ []) : ps.getD 0 [] ≠ [] := by
  match ps, h, hinc with
  | p :: _ :: _, _, hinc => exact hinc p (by simp [List.dropLast])

theorem round_trip_begin_eq (q : Nat) (ps : List (List Nat)) (cur : tcp_stream_position) :
    ({ zero_position with
        chunk := some 0, chunk_offset := 0,
        chunk_seq_modif := size_add (round_trip_chunk q ps 0 0).start_seq
          (size_of_int (round_trip_stream q ps 0 cur).first_offset_seq),
        modif := none, modif_offset := SIZE_MAX } : tcp_stream_position)
      = round_trip_begin := by
  simp [round_trip_begin, zero_position, round_trip_chunk, round_trip_stream,
    payload_offset_zero, size_of_int_zero, size_add_zero_zero]

/-- The first pop binds the cursor to the first chunk and walks it to the end
of the last chunk. -/
theorem skip_from_begin (dbg : Bool) (fuel : Nat) (q : Nat) (ps : List (List Nat))
    (cur : tcp_stream_position) (hk : 0 < ps.length) (hinc : ∀ p ∈ ps.dropLast, p ≠ [])
    (hb : (ps.map List.length).sum < 2 ^ 64) (hfuel : ps.length + 2 ≤ fuel) :
    ∃ b1 x1 tot,
      tcp_stream_position_advance_loop dbg (round_trip_stream q ps 0 cur) fuel round_trip_begin
        = Except.ok (round_trip_begin, b1) ∧
      tcp_stream_position_skip_available dbg fuel (round_trip_stream q ps 0 cur)
          round_trip_begin
        = Except.ok (round_trip_end ps (ps.length - 1) x1, tot) := by
  obtain ⟨f, rfl⟩ : ∃ f, fuel = f + 1 := ⟨fuel - 1, by omega⟩
  have hget := round_trip_chunk_get q ps 0 cur 0 hk
  have h1 := payload_offset_succ ps 0 hk
  have h0 := payload_offset_zero ps
  have hle := payload_offset_le ps (0 + 1)
  have hstart : size_add (round_trip_chunk q ps 0 0).start_seq round_trip_begin.chunk_offset
      = 0 := by
    simp [round_trip_chunk, round_trip_begin, zero_position, h0, size_add_zero_zero]
  by_cases hp : ps.getD 0 [] = []
  · have hn : ps.length = 1 := by
      by_contra hne
      exact head_ne_nil_of_increasing ps (by omega) hinc hp
    have hend : (round_trip_chunk q ps 0 0).end_seq = 0 := by
      simp only [round_trip_chunk, h1, h0, hp, List.length_nil]
    have hnext : (round_trip_chunk q ps 0 0).next = none := by
      rw [round_trip_chunk_next q ps 0 0 (le_refl _)]
      simp [hn]
    have hp2 : ps[0]?.getD [] = [] := by
      simpa [List.getD_eq_getElem?_getD] using hp
    have hbegin : round_trip_begin = round_trip_end ps 0 0 := by
      simp [round_trip_begin, round_trip_end, zero_position, h0, hp2]
    refine ⟨false, ?_⟩
    have hwalk := skip_loop_round_trip dbg (f + 1) q ps 0 cur hb (by omega) 0 0 0 (f + 1) 0
      (le_refl _) (by omega) (by omega)
    obtain ⟨x1, tot, hw⟩ := hwalk
    refine ⟨x1, tot, ?_, ?_⟩
    · exact advance_loop_plain_last dbg f (a := 0) rfl rfl hget rfl (by rw [hstart, hend]) hnext
    · rw [hbegin]
      exact hw
  · have hlen : 0 < (ps.getD 0 []).length := List.length_pos.mpr hp
    have hend : (round_trip_chunk q ps 0 0).end_seq = (ps.getD 0 []).length := by
      simp only [round_trip_chunk, h1, h0, Nat.zero_add]
    have hadv : tcp_stream_position_advance_loop dbg (round_trip_stream q ps 0 cur) (f + 1)
        round_trip_begin = Except.ok (round_trip_begin, true) := by
      refine advance_loop_plain_mid dbg f (a := 0) rfl rfl hget rfl ?_ ?_
      · rw [hstart, hend]
        omega
      · intro _
        rw [hstart]
        exact Nat.zero_le _
    have hadv2 : tcp_stream_position_advance dbg (f + 1) (round_trip_stream q ps 0 cur)
        round_trip_begin = Except.ok (round_trip_begin, true) := by
      rw [advance_bound dbg (f + 1) _ (a := 0) rfl]
      exact hadv
    have hpos : after_skip round_trip_begin (round_trip_chunk q ps 0 0)
        = round_trip_end ps 0
            (after_skip round_trip_begin (round_trip_chunk q ps 0 0)).current_seq_modif := by
      have hs := payload_offset_sub ps 0 hk hb
      rw [h0] at hs
      simp only [after_skip, round_trip_begin, zero_position, round_trip_end, round_trip_chunk,
        hs, h0]
    obtain ⟨f1, rfl⟩ : ∃ f1, f = f1 + 1 := ⟨f - 1, by omega⟩
    have hwalk := skip_loop_round_trip dbg (f1 + 1 + 1) q ps 0 cur hb (by omega)
      (ps.length - 1) 0
      (after_skip round_trip_begin (round_trip_chunk q ps 0 0)).current_seq_modif (f1 + 1)
      (size_add 0
        (size_sub (size_add (size_sub (round_trip_chunk q ps 0 0).end_seq
            (round_trip_chunk q ps 0 0).start_seq)
            (size_of_int (round_trip_chunk q ps 0 0).offset_seq))
          (size_sub round_trip_begin.current_seq_modif round_trip_begin.chunk_seq_modif)))
      (le_refl _) (by omega) (by omega)
    obtain ⟨x1, tot, hw⟩ := hwalk
    refine ⟨true, x1, tot, hadv, ?_⟩
    simp only [tcp_stream_position_skip_available]
    rw [skip_loop_plain (f1 + 1) 0 hadv2 rfl rfl hget rfl, hpos]
    exact hw

theorem round_trip_cursor_zero (ps : List (List Nat)) (x : Nat) :
    round_trip_cursor ps 0 x = zero_position := by
  simp [round_trip_cursor]

theorem round_trip_cursor_pos (ps : List (List Nat)) (k x : Nat) (h0 : 0 < k)
    (hk : k < ps.length) : round_trip_cursor ps k x = round_trip_end ps (ps.length - 1) x := by
  have : ¬ k = 0 := by omega
  simp [round_trip_cursor, this, hk]

theorem round_trip_mark_invalid (q : Nat) (ps : List (List Nat)) (k : Nat)
    (cur : tcp_stream_position) :
    tcp_stream_position_isvalid (round_trip_stream q ps k cur).mark_position = false := by
  simp [round_trip_stream, tcp_stream_position_isvalid, tcp_stream_position_invalidate]

/-- One pop of the round trip: the state after `k` pops becomes the state
after `k + 1` pops and the chunk `k` is emitted as it was pushed. -/
theorem pop_round_trip (dbg : Bool) (fuel : Nat) (q : Nat) (ps : List (List Nat)) (k x : Nat)
    (hk : k < ps.length) (hinc : ∀ p ∈ ps.dropLast, p ≠ [])
    (hb : (ps.map List.length).sum < 2 ^ 64)
    (hseq : q + 1 + payload_offset ps k < 2 ^ 32) (hfuel : ps.length + 2 ≤ fuel) :
    ∃ x1, tcp_stream_pop dbg fuel (round_trip_stream q ps k (round_trip_cursor ps k x))
      = Except.ok (round_trip_stream q ps (k + 1) (round_trip_cursor ps (k + 1) x1),
          some (data_segment (q + 1 + payload_offset ps k) (ps.getD k []))) := by
  have hget := round_trip_chunk_get q ps k (round_trip_cursor ps k x) k hk
  have hnk : ¬ k < k := by omega
  have hwalk : ∃ cur1 b1 x1 tot,
      tcp_stream_position_advance dbg fuel (round_trip_stream q ps k (round_trip_cursor ps k x))
          (round_trip_stream q ps k (round_trip_cursor ps k x)).current_position
        = Except.ok (cur1, b1) ∧
      tcp_stream_position_skip_available dbg fuel
          (round_trip_stream q ps k (round_trip_cursor ps k x)) cur1
        = Except.ok (round_trip_end ps (ps.length - 1) x1, tot) := by
    rcases Nat.eq_zero_or_pos k with h0 | hpos
    · subst h0
      obtain ⟨b1, x1, tot, h1, h2⟩ :=
        skip_from_begin dbg fuel q ps (round_trip_cursor ps 0 x) hk hinc hb hfuel
      refine ⟨round_trip_begin, b1, x1, tot, ?_, h2⟩
      have hbind := @advance_bind dbg fuel (round_trip_stream q ps 0 (round_trip_cursor ps 0 x))
        zero_position 0 (round_trip_chunk q ps 0 0) rfl rfl
        (by simp [round_trip_stream, hk]) hget
        (by simp [round_trip_chunk, zero_position, payload_offset_zero])
        (by
          intro _
          simp [round_trip_chunk, round_trip_stream, zero_position, payload_offset_zero,
            size_of_int_zero, size_add_zero_zero])
      rw [round_trip_begin_eq] at hbind
      have hcur : (round_trip_stream q ps 0 (round_trip_cursor ps 0 x)).current_position
          = zero_position := round_trip_cursor_zero ps x
      rw [hcur, hbind]
      exact h1
    · obtain ⟨f, rfl⟩ : ∃ f, fuel = f + 1 := ⟨fuel - 1, by omega⟩
      have hcur : (round_trip_stream q ps k (round_trip_cursor ps k x)).current_position
          = round_trip_end ps (ps.length - 1) x := round_trip_cursor_pos ps k x hpos hk
      have hadv := advance_round_trip_last dbg f q ps k (round_trip_cursor ps k x) x hb hk
      refine ⟨round_trip_end ps (ps.length - 1) x, false, x, 0, ?_, ?_⟩
      · rw [hcur]
        exact hadv
      · exact skip_loop_stalled f 0 hadv
  obtain ⟨cur1, b1, x1, tot, hadv, hskip⟩ := hwalk
  refine ⟨x1, ?_⟩
  have hoff := payload_offset_le ps k
  have hsq : u32_of_int (((q + 1 + payload_offset ps k : Nat) : Int) + 0)
      = q + 1 + payload_offset ps k := by
    have hlt : q + 1 + payload_offset ps k < 2 ^ 32 := hseq
    simp only [u32_of_int, add_zero]
    have h2 : ((q + 1 + payload_offset ps k : Nat) : Int) % 2 ^ 32
        = ((q + 1 + payload_offset ps k : Nat) : Int) := by
      apply Int.emod_eq_of_lt
      · exact Int.natCast_nonneg _
      · exact_mod_cast hlt
    rw [h2, Int.toNat_natCast]
  have hpop := pop_unedited dbg fuel (round_trip_stream q ps k (round_trip_cursor ps k x)) k
    (round_trip_chunk q ps k k) (data_segment (q + 1 + payload_offset ps k) (ps.getD k []))
    cur1 (round_trip_end ps (ps.length - 1) x1) (round_trip_cursor ps (k + 1) x1) b1 tot
    (round_trip_mark_invalid q ps k _) (by simp [round_trip_stream, hk]) hadv hskip
    (try_advance_chunk_round_trip dbg q ps k _ x1 hb hk)
    (chunk_is_before_round_trip q ps k _ x1 hb hk)
    hget (by simp [round_trip_chunk, hnk]) rfl
    (by
      intro _ _
      rw [round_trip_chunk_next q ps k k (le_refl _)]
      rename_i hl
      have : ps.length - 1 = k := by simpa [round_trip_stream, hk] using hl
      have : ¬ k + 1 < ps.length := by omega
      simp [this])
    (by
      intro lp hlp
      have hpos : 0 < k := by
        by_contra h0
        simp [round_trip_stream, h0] at hlp
      have hlp2 : lp = k - 1 := by
        simp [round_trip_stream, hpos] at hlp
        exact hlp.symm
      subst hlp2
      refine ⟨round_trip_chunk q ps k (k - 1),
        round_trip_chunk_get q ps k _ (k - 1) (by omega), by omega, ?_⟩
      intro _
      have : k - 1 + 1 = k := by omega
      simp [round_trip_chunk, this])
  rw [hpop, after_pop_round_trip q ps k _ _ hk]
  simp only [round_trip_stream, data_segment, hsq]

/-- Successive pops of the round trip. -/
theorem pop_many_round_trip (dbg : Bool) (fuel : Nat) (q : Nat) (ps : List (List Nat))
    (hinc : ∀ p ∈ ps.dropLast, p ≠ [])
    (hb : (ps.map List.length).sum < 2 ^ 64)
    (hseq : ∀ i, i < ps.length → q + 1 + payload_offset ps i < 2 ^ 32)
    (hfuel : ps.length + 2 ≤ fuel) :
    ∀ (m k x : Nat), k + m ≤ ps.length →
      ∃ x1, pop_many dbg fuel m (round_trip_stream q ps k (round_trip_cursor ps k x))
        = Except.ok (round_trip_stream q ps (k + m) (round_trip_cursor ps (k + m) x1),
            (List.range' k m).map
              (fun i => some (data_segment (q + 1 + payload_offset ps i) (ps.getD i [])))) := by
  intro m
  induction m with
  | zero =>
    intro k x _
    exact ⟨x, rfl⟩
  | succ m ih =>
    intro k x hkm
    obtain ⟨x1, h1⟩ :=
      pop_round_trip dbg fuel q ps k x (by omega) hinc hb (hseq k (by omega)) hfuel
    obtain ⟨x2, h2⟩ := ih (k + 1) x1 (by omega)
    refine ⟨x2, ?_⟩
    have hadd : k + 1 + m = k + (m + 1) := by omega
    simp only [pop_many, h1, ok_bind, h2, pure_eq_ok, hadd, List.range'_succ, List.map_cons]

theorem contiguous_segments_getElem? :
    ∀ (ps : List (List Nat)) (seq i : Nat),
      (contiguous_segments seq ps)[i]?
        = if i < ps.length then some (data_segment (seq + payload_offset ps i) (ps.getD i []))
          else none := by
  intro ps
  induction ps with
  | nil =>
    intro seq i
    simp [contiguous_segments]
  | cons p ps ih =>
    intro seq i
    cases i with
    | zero => simp [contiguous_segments, payload_offset]
    | succ j =>
      simp only [contiguous_segments, List.getElem?_cons_succ, ih, List.length_cons,
        Nat.add_lt_add_iff_right]
      by_cases hj : j < ps.length
      · simp [hj, payload_offset, Nat.add_assoc]
      · simp [hj]

theorem contiguous_segments_eq (ps : List (List Nat)) (seq : Nat) :
    contiguous_segments seq ps
      = (List.range' 0 ps.length).map
          (fun i => data_segment (seq + payload_offset ps i) (ps.getD i [])) := by
  apply List.ext_getElem?
  intro i
  rw [contiguous_segments_getElem?, ← List.range_eq_range', map_range_getElem?]

/-- C1 (round trip with no edits): push a SYN with sequence number `q` and then
`n ≥ 1` data segments carrying the payloads `ps`, each starting where the
previous one ends, with increasing sequence numbers (every payload but the last
is non-empty, and every sequence number is a 32-bit value, so none wraps), the
whole fitting a `size_t`.  Every push succeeds, and from the resulting stream
`m ≤ n` successive pops return exactly the first `m` pushed segments, in push
order, payload and sequence number unchanged, and leave `first_offset_seq` at
zero. -/
theorem round_trip_without_edits (dbg : Bool) (fuel : Nat) (q : Nat) (ps : List (List Nat))
    (hn : ps ≠ []) (hinc : ∀ p ∈ ps.dropLast, p ≠ [])
    (hseq : ∀ t ∈ contiguous_segments (q + 1) ps, t.seq < 2 ^ 32)
    (hsize : q + 1 + (ps.map List.length).sum < 2 ^ 64) (hfuel : ps.length + 2 ≤ fuel) :
    ∃ s1,
      push_many dbg fuel tcp_stream_create (syn_segment q :: contiguous_segments (q + 1) ps)
        = Except.ok (s1, List.replicate (ps.length + 1) none) ∧
      ∀ m, m ≤ ps.length →
        ∃ s2, pop_many dbg fuel m s1
            = Except.ok (s2, ((contiguous_segments (q + 1) ps).take m).map some) ∧
          s2.first_offset_seq = 0 := by
  have h32 : ∀ i, i < ps.length → q + 1 + payload_offset ps i < 2 ^ 32 := by
    intro i hi
    have hget := contiguous_segments_getElem? ps (q + 1) i
    rw [if_pos hi] at hget
    exact hseq _ (List.mem_iff_getElem?.mpr ⟨i, hget⟩)
  have hpos : 0 < ps.length := List.length_pos.mpr hn
  have hq : q + 1 < 2 ^ 32 := by
    have := h32 0 hpos
    rw [payload_offset_zero] at this
    exact this
  refine ⟨round_trip_stream q ps 0 (round_trip_cursor ps 0 0), ?_, ?_⟩
  · have h1 := push_syn_round_trip dbg fuel q hq
    have h2 := push_many_round_trip dbg fuel q (by omega) ps [] (by simpa using hinc)
      (by simpa using hsize)
    simp only [List.length_nil, payload_offset_zero, Nat.add_zero, List.nil_append] at h2
    simp only [push_many, h1, ok_bind, h2, pure_eq_ok, List.replicate_succ,
      round_trip_cursor_zero]
  · intro m hm
    obtain ⟨x1, h⟩ :=
      pop_many_round_trip dbg fuel q ps hinc (by omega) h32 hfuel m 0 0 (by omega)
    refine ⟨round_trip_stream q ps (0 + m) (round_trip_cursor ps (0 + m) x1), ?_, ?_⟩
    · rw [h, contiguous_segments_eq, ← List.map_take, ← List.range_eq_range',
        ← List.range_eq_range', List.take_range, Nat.min_eq_left hm, List.map_map]
      rfl
    · rfl

/-- Witness of `round_trip_without_edits`: SYN 1000, then `"HELLO"` at 1001 and
`"WORLD"` at 1006. -/
theorem round_trip_without_edits_witness :
    ∃ s1,
      push_many true 4 tcp_stream_create
          (syn_segment 1000 ::
            contiguous_segments (1000 + 1) [[72, 69, 76, 76, 79], [87, 79, 82, 76, 68]])
        = Except.ok (s1,
            List.replicate ([[72, 69, 76, 76, 79], [87, 79, 82, 76, 68]].length + 1) none) ∧
      ∀ m, m ≤ [[72, 69, 76, 76, 79], [87, 79, 82, 76, 68]].length →
        ∃ s2, pop_many true 4 m s1
            = Except.ok (s2,
                ((contiguous_segments (1000 + 1)
                  [[72, 69, 76, 76, 79], [87, 79, 82, 76, 68]]).take m).map some) ∧
          s2.first_offset_seq = 0 :=
  round_trip_without_edits true 4 1000 [[72, 69, 76, 76, 79], [87, 79, 82, 76, 68]]
    (by decide) (by decide) (by decide) (by decide) (by decide)

/-! ## The sequence shift on pop (C4) -/

theorem bind_eq_ok {α β : Type} (x : M α) (f : α → M β) (b : β) :
    (x >>= f) = Except.ok b ↔ ∃ a, x = Except.ok a ∧ f a = Except.ok b := by
  cases x with
  | error e => simp [bind, Except.bind]
  | ok a => simp [bind, Except.bind]

theorem get_chunk_eq_ok (s : tcp_stream) (a : Nat) (c : tcp_stream_chunk) :
    get_chunk s a = Except.ok c ↔ s.chunks[a]? = some c := by
  unfold get_chunk
  cases h : s.chunks[a]? with
  | none => simp [throw, throwThe, MonadExceptOf.throw]
  | some d => simp [pure, Except.pure]

theorem update_chunk_eq_ok (s s' : tcp_stream) (a : Nat)
    (f : tcp_stream_chunk → tcp_stream_chunk) :
    update_chunk s (some a) f = Except.ok s' ↔
      ∃ c, s.chunks[a]? = some c ∧ s' = { s with chunks := s.chunks.set a (f c) } := by
  simp only [update_chunk, bind_eq_ok, get_chunk_eq_ok, set_chunk, pure_eq_ok, Except.ok.injEq]
  constructor
  · rintro ⟨c, hc, h⟩
    exact ⟨c, hc, h.symm⟩
  · rintro ⟨c, hc, h⟩
    exact ⟨c, hc, h.symm⟩

theorem chunk_release_loop_frame :
    ∀ (n : Nat) (s : tcp_stream) (p : Option Nat) (s' : tcp_stream),
      tcp_stream_chunk_release_loop n s p = Except.ok s' →
        ∃ ms, s' = { s with modifs := ms } := by
  intro n
  induction n with
  | zero =>
    intro s p s' h
    cases p with
    | none =>
      simp only [tcp_stream_chunk_release_loop, pure_eq_ok, Except.ok.injEq] at h
      exact ⟨s.modifs, h.symm⟩
    | some mp => simp [tcp_stream_chunk_release_loop, throw, throwThe, MonadExceptOf.throw] at h
  | succ n ih =>
    intro s p s' h
    cases p with
    | none =>
      simp only [tcp_stream_chunk_release_loop, pure_eq_ok, Except.ok.injEq] at h
      exact ⟨s.modifs, h.symm⟩
    | some mp =>
      simp only [tcp_stream_chunk_release_loop, bind_eq_ok] at h
      obtain ⟨m, _, h2⟩ := h
      obtain ⟨ms, hms⟩ := ih _ _ _ h2
      exact ⟨ms, by rw [hms]; rfl⟩

theorem chunk_release_frame (fuel : Nat) (s s' : tcp_stream) (a : Nat)
    (h : tcp_stream_chunk_release fuel s a = Except.ok s') :
    ∃ ms c, s.chunks[a]? = some c ∧
      s' = { s with modifs := ms, chunks := s.chunks.set a { c with modifs := none } } := by
  simp only [tcp_stream_chunk_release, bind_eq_ok, get_chunk_eq_ok, pure_eq_ok,
    Except.ok.injEq] at h
  obtain ⟨c, hc, s1, h1, c1, hc1, h2⟩ := h
  obtain ⟨ms, hms⟩ := chunk_release_loop_frame _ _ _ _ h1
  subst hms
  simp only at hc1
  rw [hc] at hc1
  cases hc1
  exact ⟨ms, c, hc, by rw [← h2]; rfl⟩

theorem ChunkList.get {s : tcp_stream} {p : Option Nat} {l : List (Nat × tcp_stream_chunk)}
    (h : ChunkList s p l) : ∀ x ∈ l, s.chunks[x.1]? = some x.2 := by
  induction h with
  | nil => intro x hx; cases hx
  | cons hc _ ih =>
    intro x hx
    rcases List.mem_cons.mp hx with rfl | hx
    · exact hc
    · exact ih x hx

theorem ChunkList.head_eq {s : tcp_stream} {p : Option Nat} {x : Nat × tcp_stream_chunk}
    {l : List (Nat × tcp_stream_chunk)} (h : ChunkList s p (x :: l)) : p = some x.1 := by
  cases h
  rfl

theorem ChunkList.nil_eq {s : tcp_stream} {p : Option Nat} (h : ChunkList s p []) :
    p = none := by
  cases h
  rfl

theorem ChunkList.tail {s : tcp_stream} {p : Option Nat} {x : Nat × tcp_stream_chunk}
    {l : List (Nat × tcp_stream_chunk)} (h : ChunkList s p (x :: l)) :
    ChunkList s x.2.next l := by
  cases h
  assumption

theorem erased_head_stream_reached (dbg : Bool) :
    run dbg 8 tcp_stream_create erased_head_trace = Except.ok erased_head_stream := by
  cases dbg <;> decide!

/-- C12 (insert/erase inverse): on `"ABCDEF"` with the cursor at offset 0,
6 bytes are available and read as `"ABCDEF"`; after `insert "XY"` immediately
followed by `erase 2`, 4 bytes are available and read as `"CDEF"`: the erase
removed `"AB"`, not the inserted bytes, and the chunk is emitted as
`"XYCDEF"`; stated with assertions unchecked, then checked. -/
theorem insert_then_erase_is_not_inverse :
    available_after false 8 abcdef_trace = Except.ok 6 ∧
    read_after false 8 abcdef_trace 6 = Except.ok (6, [65, 66, 67, 68, 69, 70]) ∧
    available_after false 8 (abcdef_trace ++ [Op.insert [88, 89], Op.erase 2]) = Except.ok 4 ∧
    read_after false 8 (abcdef_trace ++ [Op.insert [88, 89], Op.erase 2]) 6
      = Except.ok (4, [67, 68, 69, 70]) ∧
    popped_after false 8 (abcdef_trace ++ [Op.insert [88, 89], Op.erase 2]) 1
      = Except.ok [some (data_segment 1001 [88, 89, 67, 68, 69, 70])] ∧
    available_after true 8 abcdef_trace = Except.ok 6 ∧
    read_after true 8 abcdef_trace 6 = Except.ok (6, [65, 66, 67, 68, 69, 70]) ∧
    available_after true 8 (abcdef_trace ++ [Op.insert [88, 89], Op.erase 2]) = Except.ok 4 ∧
    read_after true 8 (abcdef_trace ++ [Op.insert [88, 89], Op.erase 2]) 6
      = Except.ok (4, [67, 68, 69, 70]) ∧
    popped_after true 8 (abcdef_trace ++ [Op.insert [88, 89], Op.erase 2]) 1
      = Except.ok [some (data_segment 1001 [88, 89, 67, 68, 69, 70])] := by
  decide!

/-- C14 (erase removes the next bytes): after `pending_insert_trace` one byte
(the pending insert `"X"`) is available and can be read, but
`tcp_stream_erase` of one byte dereferences the `NULL` chunk of the cursor. -/
theorem erase_of_pending_insert_faults (dbg : Bool) :
    available_after dbg 8 pending_insert_trace = Except.ok 1 ∧
    read_after dbg 8 pending_insert_trace 1 = Except.ok (1, [88]) ∧
    erase_after dbg 8 pending_insert_trace 1 = Except.error Fault.null_deref := by
  cases dbg <;> decide!

/-- C15 (ack translation fixed point): after `hello_world_sent_trace` the sent
list holds `[0, 5)` and `[5, 10)` with `offset_seq = 0` (the stream starts at
1001); an acknowledgement of 1003, inside the first chunk, is rewritten to
1001, and one of 1013, beyond the last chunk, to 1011; stated with assertions
unchecked, then checked. -/
theorem ack_inside_chunk_is_rounded :
    sent_after false 8 hello_world_sent_trace = Except.ok [(0, 5, 0), (5, 10, 0)] ∧
    ack_after false 8 hello_world_sent_trace 1003 = Except.ok 1001 ∧
    ack_after false 8 hello_world_sent_trace 1013 = Except.ok 1011 ∧
    sent_after true 8 hello_world_sent_trace = Except.ok [(0, 5, 0), (5, 10, 0)] ∧
    ack_after true 8 hello_world_sent_trace 1003 = Except.ok 1001 ∧
    ack_after true 8 hello_world_sent_trace 1013 = Except.ok 1011 := by
  decide!

/-- C16 (ack translation at packet boundaries): in scenario S3 the chunks
`[0, 6)` (two bytes erased) and `[6, 9)` are emitted with sequence numbers 1001
(4 bytes) and 1005 (3 bytes); the acknowledgement 1005 of the first is
rewritten to 1007 = 1001 + 6, but the acknowledgement 1008 = 1005 + 3 of the
second is rewritten to 1007 as well, not to 1010 = 1001 + 9. -/
theorem ack_after_erase_stops_early (dbg : Bool) :
    popped_after dbg 8 (erased_head_trace.take 3) 1
      = Except.ok [some (data_segment 1001 [67, 68, 69, 70])] ∧
    popped_after dbg 8 erased_head_trace 1
      = Except.ok [some (data_segment 1005 [71, 72, 73])] ∧
    sent_after dbg 8 erased_head_sent_trace = Except.ok [(0, 6, -2), (6, 9, 0)] ∧
    ack_after dbg 8 erased_head_sent_trace 1005 = Except.ok 1007 ∧
    ack_after dbg 8 erased_head_sent_trace 1008 = Except.ok 1007 := by
  cases dbg <;> decide!

/-- C18 (cursor monotonicity): on `"HELLO"` and `"WORLD"` a read of 7 bytes
succeeds and leaves `current_seq_modif = 7`; after a pop and the push of
`"ABC"`, a read of 1 byte succeeds and leaves `current_seq_modif = 6`. -/
theorem pop_moves_cursor_back (dbg : Bool) :
    read_after dbg 8 hello_world_trace 7 = Except.ok (7, [72, 69, 76, 76, 79, 87, 79]) ∧
    cursor_after dbg 8 (hello_world_trace ++ [Op.read 7]) = Except.ok 7 ∧
    read_after dbg 8 skip_trace 1 = Except.ok (1, [65]) ∧
    cursor_after dbg 8 (skip_trace ++ [Op.read 1]) = Except.ok 6 := by
  cases dbg <;> decide!

/-- C20 (pending insert adoption): after an insert of `"X"` before any data,
the push of the first data segment `"HELLO"` succeeds and yields a chunk with
an empty edit list and `offset_seq = 0`, and `pending_modif` is still set. -/
theorem first_push_ignores_pending_insert (dbg : Bool) :
    pending_modif_after dbg 8 early_insert_trace = Except.ok (some 0) ∧
    push_after dbg 8 early_insert_trace (data_segment 1001 [72, 69, 76, 76, 79])
      = Except.ok (none, [(0, 5)]) ∧
    (first_chunk_after dbg 8
        (early_insert_trace ++ [Op.push (data_segment 1001 [72, 69, 76, 76, 79])])).map
      (fun c => (c.modifs, c.offset_seq)) = Except.ok (none, 0) ∧
    pending_modif_after dbg 8
        (early_insert_trace ++ [Op.push (data_segment 1001 [72, 69, 76, 76, 79])])
      = Except.ok (some 0) := by
  cases dbg <;> decide!

/-! ## Mark, read, rewind, read (C11) -/

theorem size_add_zero_right {a : Nat} (h : a < 2 ^ 64) : size_add a (size_of_int 0) = a := by
  rw [size_of_int_zero, size_add_eq (by omega)]
  rfl

/-- In a contiguous list of chunks with `start_seq ≤ end_seq`, no chunk ends
before the first one starts. -/
theorem contiguous_start_le :
    ∀ (l : List (Nat × tcp_stream_chunk)) (x : Nat × tcp_stream_chunk),
      List.Chain' (fun u v => v.2.start_seq = u.2.end_seq) (x :: l) →
      (∀ y ∈ x :: l, y.2.start_seq ≤ y.2.end_seq) →
      ∀ y ∈ x :: l, x.2.start_seq ≤ y.2.end_seq := by
  intro l
  induction l with
  | nil =>
    intro x _ hle y hy
    simp only [List.mem_singleton] at hy
    subst hy
    exact hle _ (List.mem_singleton_self _)
  | cons z l ih =>
    intro x hch hle y hy
    rcases List.mem_cons.mp hy with rfl | hy
    · exact hle _ (List.mem_cons_self _ _)
    · have h1 := ih z (List.Chain'.tail hch) (fun w hw => hle w (List.mem_cons_of_mem _ hw)) y hy
      have h2 : z.2.start_seq = x.2.end_seq := (List.chain'_cons.mp hch).1
      have h3 := hle x (List.mem_cons_self _ _)
      omega

/-- One round of the loop of `tcp_stream_ack` on a chunk without edits. -/
theorem ack_loop_step (dbg : Bool) (s : tcp_stream) (e f new_seq a : Nat)
    (c : tcp_stream_chunk) (hc : s.chunks[a]? = some c) (h0 : c.offset_seq = 0)
    (hle : c.start_seq ≤ c.end_seq) (h32 : c.end_seq < 2 ^ 32)
    (hnext : ∀ np, c.next = some np → ∃ nx, s.chunks[np]? = some nx ∧ nx.start_seq = c.end_seq) :
    tcp_stream_ack_loop dbg s e (f + 1) (some a) c.start_seq new_seq
      = if c.end_seq > e then Except.ok new_seq
        else if e ≤ c.end_seq then Except.ok c.end_seq
        else tcp_stream_ack_loop dbg s e f c.next c.end_seq c.end_seq := by
  have h1 : size_add c.end_seq (size_of_int 0) = c.end_seq :=
    size_add_zero_right (by omega)
  have h2 : size_add (size_sub c.end_seq c.start_seq) (size_of_int 0)
      = c.end_seq - c.start_seq := by
    rw [size_sub_eq hle (by omega), size_add_zero_right (by omega)]
  have h3 : (c.start_seq + (c.end_seq - c.start_seq)) % 2 ^ 32 = c.end_seq := by
    rw [Nat.add_sub_cancel' hle]
    exact Nat.mod_eq_of_lt h32
  have h4 : c.end_seq % 2 ^ 32 = c.end_seq := Nat.mod_eq_of_lt h32
  cases dbg
  · simp only [tcp_stream_ack_loop, get_chunk_eq hc, ok_bind, h0, h1, h2, h3, h4,
      Bool.false_eq_true, if_false, pure_eq_ok]
  · cases hn : c.next with
    | none =>
      simp only [tcp_stream_ack_loop, get_chunk_eq hc, ok_bind, h0, h1, h2, h3, h4,
        if_true, pure_eq_ok, hn]
    | some np =>
      obtain ⟨nx, hnx, hst⟩ := hnext np hn
      simp only [tcp_stream_ack_loop, get_chunk_eq hc, ok_bind, h0, h1, h2, h3, h4,
        if_true, pure_eq_ok, hn, get_chunk_eq hnx, hst, c_assert_True]

/-- In a contiguous list of chunks with `start_seq ≤ end_seq`, no chunk starts
before the first one. -/
theorem contiguous_start_mono :
    ∀ (l : List (Nat × tcp_stream_chunk)) (x : Nat × tcp_stream_chunk),
      List.Chain' (fun u v => v.2.start_seq = u.2.end_seq) (x :: l) →
      (∀ y ∈ x :: l, y.2.start_seq ≤ y.2.end_seq) →
      ∀ y ∈ x :: l, x.2.start_seq ≤ y.2.start_seq := by
  intro l
  induction l with
  | nil =>
    intro x _ _ y hy
    simp only [List.mem_singleton] at hy
    subst hy
    exact le_refl _
  | cons z l ih =>
    intro x hch hle y hy
    rcases List.mem_cons.mp hy with rfl | hy
    · exact le_refl _
    · have h1 := ih z (List.Chain'.tail hch) (fun w hw => hle w (List.mem_cons_of_mem _ hw)) y hy
      have h2 : z.2.start_seq = x.2.end_seq := (List.chain'_cons.mp hch).1
      have h3 := hle x (List.mem_cons_self _ _)
      omega

theorem ack_loop_none (dbg : Bool) (s : tcp_stream) (e fuel seq new_seq : Nat) :
    tcp_stream_ack_loop dbg s e fuel none seq new_seq = Except.ok new_seq := by
  cases fuel <;> rfl

/-- A 32-bit acknowledgement number is recovered from its offset to
`start_seq`. -/
theorem ack_offset_round_trip (a b : Nat) (ha : a < 2 ^ 32) :
    size_add (size_sub a b % 2 ^ 32) b % 2 ^ 32 = a := by
  unfold size_add size_sub
  norm_num
  omega

/-- The loop of `tcp_stream_ack` on a contiguous list of chunks without edits:
the result is `new_seq` when the acknowledgement `e` is below the end of the
first chunk, `e` itself when it is the end of a chunk, the start of the chunk
that holds it when it is inside a later chunk, and the end of the last chunk
when it is at or beyond it. -/
theorem ack_loop_round (dbg : Bool) (s : tcp_stream) (e : Nat) :
    ∀ (l : List (Nat × tcp_stream_chunk)) (p : Option Nat) (fuel new_seq : Nat)
      (x : Nat × tcp_stream_chunk),
      ChunkList s p (x :: l) →
      List.Chain' (fun u v => v.2.start_seq = u.2.end_seq) (x :: l) →
      (∀ y ∈ x :: l, y.2.offset_seq = 0 ∧ y.2.start_seq ≤ y.2.end_seq ∧ y.2.end_seq < 2 ^ 32) →
      l.length + 1 ≤ fuel →
      ∃ r, tcp_stream_ack_loop dbg s e fuel p x.2.start_seq new_seq = Except.ok r ∧
        (e < x.2.end_seq → r = new_seq) ∧
        (∀ y ∈ x :: l, y.2.end_seq = e → r = e) ∧
        (∀ y ∈ l, y.2.start_seq ≤ e → e < y.2.end_seq → r = y.2.start_seq) ∧
        (∀ z, (x :: l).getLast? = some z → z.2.end_seq ≤ e → r = z.2.end_seq) := by
  intro l
  induction l with
  | nil =>
    intro p fuel new_seq x hl _ hp hfuel
    obtain ⟨f, rfl⟩ : ∃ f, fuel = f + 1 := ⟨fuel - 1, by omega⟩
    have hpx := hl.head_eq
    subst hpx
    have hx := hl.get x (List.mem_cons_self _ _)
    have hnx : x.2.next = none := (hl.tail).nil_eq
    obtain ⟨h0, hle, h32⟩ := hp x (List.mem_cons_self _ _)
    rw [ack_loop_step dbg s e f new_seq x.1 x.2 hx h0 hle h32 (by simp [hnx])]
    by_cases h1 : x.2.end_seq > e
    · rw [if_pos h1]
      refine ⟨new_seq, rfl, fun _ => rfl, ?_, ?_, ?_⟩
      · intro y hy hye
        simp only [List.mem_singleton] at hy
        subst hy
        omega
      · intro y hy
        cases hy
      · intro z hz hze
        simp only [List.getLast?_singleton, Option.some.injEq] at hz
        subst hz
        omega
    · rw [if_neg h1]
      by_cases h2 : e ≤ x.2.end_seq
      · rw [if_pos h2]
        refine ⟨x.2.end_seq, rfl, fun h => by omega, ?_, ?_, ?_⟩
        · intro y _ _
          omega
        · intro y hy
          cases hy
        · intro z hz _
          simp only [List.getLast?_singleton, Option.some.injEq] at hz
          subst hz
          rfl
      · rw [if_neg h2, hnx, ack_loop_none]
        refine ⟨x.2.end_seq, rfl, fun h => by omega, ?_, ?_, ?_⟩
        · intro y hy hye
          simp only [List.mem_singleton] at hy
          subst hy
          omega
        · intro y hy
          cases hy
        · intro z hz _
          simp only [List.getLast?_singleton, Option.some.injEq] at hz
          subst hz
          rfl
  | cons z l ih =>
    intro p fuel new_seq x hl hch hp hfuel
    obtain ⟨f, rfl⟩ : ∃ f, fuel = f + 1 := ⟨fuel - 1, by simp at hfuel; omega⟩
    have hpx := hl.head_eq
    subst hpx
    have hx := hl.get x (List.mem_cons_self _ _)
    have hz := hl.get z (List.mem_cons_of_mem _ (List.mem_cons_self _ _))
    have htail := hl.tail
    have hzp := htail.head_eq
    obtain ⟨h0, hle, h32⟩ := hp x (List.mem_cons_self _ _)
    have hrel : z.2.start_seq = x.2.end_seq := (List.chain'_cons.mp hch).1
    have hle2 : ∀ w ∈ z :: l, w.2.start_seq ≤ w.2.end_seq :=
      fun w hw => (hp w (List.mem_cons_of_mem _ hw)).2.1
    have hends : ∀ y ∈ z :: l, x.2.end_seq ≤ y.2.end_seq := by
      intro y hy
      have := contiguous_start_le l z (List.Chain'.tail hch) hle2 y hy
      omega
    have hstarts : ∀ y ∈ z :: l, x.2.end_seq ≤ y.2.start_seq := by
      intro y hy
      have := contiguous_start_mono l z (List.Chain'.tail hch) hle2 y hy
      omega
    have hlast : ∀ w, (x :: z :: l).getLast? = some w → w ∈ z :: l := by
      intro w hw
      rw [List.getLast?_cons_cons] at hw
      exact List.mem_of_getLast?_eq_some hw
    rw [ack_loop_step dbg s e f new_seq x.1 x.2 hx h0 hle h32
      (by
        intro np hnp
        rw [hzp] at hnp
        cases hnp
        exact ⟨z.2, hz, hrel⟩)]
    by_cases h1 : x.2.end_seq > e
    · rw [if_pos h1]
      refine ⟨new_seq, rfl, fun _ => rfl, ?_, ?_, ?_⟩
      · intro y hy hye
        rcases List.mem_cons.mp hy with rfl | hy
        · omega
        · have := hends y hy
          omega
      · intro y hy hys _
        have := hstarts y hy
        omega
      · intro w hw hwe
        have := hends w (hlast w hw)
        omega
    · rw [if_neg h1]
      by_cases h2 : e ≤ x.2.end_seq
      · rw [if_pos h2]
        refine ⟨x.2.end_seq, rfl, fun h => by omega, ?_, ?_, ?_⟩
        · intro y _ _
          omega
        · intro y hy hys _
          have := hstarts y hy
          omega
        · intro w hw hwe
          have := hends w (hlast w hw)
          omega
      · rw [if_neg h2]
        obtain ⟨r, hr, c1, c2, c3, c4⟩ := ih x.2.next f x.2.end_seq z htail
          (List.Chain'.tail hch) (fun w hw => hp w (List.mem_cons_of_mem _ hw))
          (by simp at hfuel ⊢; omega)
        rw [hrel] at hr
        refine ⟨r, hr, fun h => by omega, ?_, ?_, ?_⟩
        · intro y hy hye
          rcases List.mem_cons.mp hy with rfl | hy
          · omega
          · exact c2 y hy hye
        · intro y hy hys hye
          rcases List.mem_cons.mp hy with rfl | hy
          · rw [c1 hye, hrel]
          · exact c3 y hy hys hye
        · intro w hw hwe
          rw [List.getLast?_cons_cons] at hw
          exact c4 w hw hwe

/-- C15, amended (ack translation rounds to packet boundaries): on a stream
without edits (every sent chunk has `offset_seq = 0`, `sent_offset_seq` is 0)
whose sent list is a proper contiguous list of chunks below `2 ^ 32`,
`tcp_stream_ack` rewrites the acknowledgement number to `start_seq + r`, where,
for the offset `e` of the acknowledgement to `start_seq`: the acknowledgement
is unchanged when `e` is the end of a sent chunk; `r` is the start of the chunk
when `e` is inside it (`start_seq ≤ e < end_seq`); `r` is the end of the last
sent chunk when `e` is at or beyond it; `r` is the start of the first sent
chunk when `e` is before it; and with no sent chunk the acknowledgement is
unchanged. -/
theorem ack_rounds_to_packet_boundary (dbg : Bool) (fuel : Nat) (s : tcp_stream) (tcp : Tcp)
    (sl : List (Nat × tcp_stream_chunk))
    (hsent : ChunkList s s.sent sl)
    (hcont : List.Chain' (fun u v => v.2.start_seq = u.2.end_seq) sl)
    (hplain : ∀ y ∈ sl, y.2.offset_seq = 0 ∧ y.2.start_seq ≤ y.2.end_seq ∧
      y.2.end_seq < 2 ^ 32)
    (hoff : s.sent_offset_seq = 0)
    (h32 : tcp.ack_seq < 2 ^ 32) (hfuel : sl.length ≤ fuel) :
    ∃ r, tcp_stream_ack dbg fuel s tcp =
        Except.ok { tcp with ack_seq := size_add r s.start_seq % 2 ^ 32 } ∧
      (∀ y ∈ sl, y.2.end_seq = size_sub tcp.ack_seq s.start_seq % 2 ^ 32 →
        size_add r s.start_seq % 2 ^ 32 = tcp.ack_seq) ∧
      (∀ y ∈ sl, y.2.start_seq ≤ size_sub tcp.ack_seq s.start_seq % 2 ^ 32 →
        size_sub tcp.ack_seq s.start_seq % 2 ^ 32 < y.2.end_seq → r = y.2.start_seq) ∧
      (∀ z, sl.getLast? = some z →
        z.2.end_seq ≤ size_sub tcp.ack_seq s.start_seq % 2 ^ 32 → r = z.2.end_seq) ∧
      (∀ x, sl.head? = some x →
        size_sub tcp.ack_seq s.start_seq % 2 ^ 32 < x.2.start_seq → r = x.2.start_seq) ∧
      (sl = [] → size_add r s.start_seq % 2 ^ 32 = tcp.ack_seq) := by
  have hrt := ack_offset_round_trip tcp.ack_seq s.start_seq h32
  cases sl with
  | nil =>
    have hn := hsent.nil_eq
    refine ⟨size_sub tcp.ack_seq s.start_seq % 2 ^ 32, ?_, ?_, ?_, ?_, ?_, fun _ => hrt⟩
    · simp only [tcp_stream_ack, hn, hrt]
      rfl
    · intro y hy
      cases hy
    · intro y hy
      cases hy
    · intro z hz
      simp at hz
    · intro x hx
      simp at hx
  | cons y l =>
    have hsp := hsent.head_eq
    have hy := hsent.get y (List.mem_cons_self _ _)
    obtain ⟨_, hyle, hy32⟩ := hplain y (List.mem_cons_self _ _)
    have hseq : size_add (size_of_int 0) y.2.start_seq % 2 ^ 32 = y.2.start_seq := by
      rw [size_of_int_zero, size_add_eq (by omega), Nat.zero_add]
      exact Nat.mod_eq_of_lt (by omega)
    have hns : y.2.start_seq % 2 ^ 32 = y.2.start_seq := Nat.mod_eq_of_lt (by omega)
    obtain ⟨r, hr, c1, c2, c3, c4⟩ := ack_loop_round dbg s
      (size_sub tcp.ack_seq s.start_seq % 2 ^ 32) l s.sent fuel y.2.start_seq y
      hsent hcont hplain (by simpa using hfuel)
    refine ⟨r, ?_, ?_, ?_, ?_, ?_, fun h => nomatch h⟩
    · simp only [tcp_stream_ack, hsp, get_chunk_eq hy, ok_bind, hoff, hseq, hns, pure_eq_ok]
      rw [← hsp, hr]
      rfl
    · intro w hw hwe
      rw [c2 w hw hwe]
      exact hrt
    · intro w hw hws hwe
      rcases List.mem_cons.mp hw with rfl | hw
      · exact c1 hwe
      · exact c3 w hw hws hwe
    · exact c4
    · intro x hx hxe
      simp only [List.head?_cons, Option.some.injEq] at hx
      subst hx
      exact c1 (by omega)

theorem hello_world_sent_stream_reached (dbg : Bool) :
    run dbg 8 tcp_stream_create hello_world_sent_trace = Except.ok hello_world_sent_stream := by
  cases dbg <;> decide!

/-- Witness of `ack_rounds_to_packet_boundary`: with `"HELLO"` and `"WORLD"`
sent from 1001, the acknowledgement 1003, inside `"HELLO"`, is rewritten to
1001. -/
theorem ack_rounds_to_packet_boundary_witness :
    tcp_stream_ack true 8 hello_world_sent_stream
        { seq := 0, ack_seq := 1003, syn := false, payload := [] } =
      Except.ok { seq := 0, ack_seq := 1001, syn := false, payload := [] } := by
  obtain ⟨r, h, -, h2, -, -, -⟩ := ack_rounds_to_packet_boundary true 8 hello_world_sent_stream
    { seq := 0, ack_seq := 1003, syn := false, payload := [] }
    [(0, { tcp := none, start_seq := 0, end_seq := 5, offset_seq := 0, modifs := none,
           next := some 1 }),
     (1, { tcp := none, start_seq := 5, end_seq := 10, offset_seq := 0, modifs := none,
           next := none })]
    (ChunkList.cons rfl (ChunkList.cons rfl ChunkList.nil))
    (by simp)
    (by
      intro y hy
      simp only [List.mem_cons, List.mem_singleton, List.not_mem_nil, or_false] at hy
      rcases hy with rfl | rfl <;> simp)
    rfl (by decide) (by decide)
  have hr : r = 0 := h2 _ (List.mem_cons_self _ _) (by decide) (by decide)
  subst hr
  exact h

theorem get_modif_eq {s : tcp_stream} {a : Nat} {m : tcp_stream_chunk_modif}
    (h : s.modifs[a]? = some m) (hf : m.freed = false) : get_modif s a = Except.ok m := by
  simp [get_modif, h, hf]

theorem update_modif_eq (s : tcp_stream) (a : Nat) (m : tcp_stream_chunk_modif)
    (f : tcp_stream_chunk_modif → tcp_stream_chunk_modif)
    (h : s.modifs[a]? = some m) (hf : m.freed = false) :
    update_modif s (some a) f = Except.ok { s with modifs := s.modifs.set a (f m) } := by
  simp [update_modif, get_modif_eq h hf, set_modif]

theorem getElem?_lt_of_some {α : Type} {l : List α} {i : Nat} {x : α} (h : l[i]? = some x) :
    i < l.length := by
  by_contra hn
  rw [List.getElem?_eq_none (by omega)] at h
  cases h

theorem getElem?_append_one_left {α : Type} {l : List α} {i : Nat} {x y : α}
    (h : l[i]? = some x) : (l ++ [y])[i]? = some x := by
  rw [List.getElem?_append_left (getElem?_lt_of_some h)]
  exact h

theorem getElem?_append_one_right {α : Type} (l : List α) (y : α) :
    (l ++ [y])[l.length]? = some y := by
  simp

theorem getElem?_set_other {α : Type} {l : List α} {i j : Nat} {x y : α}
    (h : l[i]? = some x) (hne : j ≠ i) : (l.set j y)[i]? = some x := by
  rw [List.getElem?_set_ne hne]
  exact h

theorem getElem?_set_same {α : Type} {l : List α} {i : Nat} {x : α} (y : α)
    (h : l[i]? = some x) : (l.set i y)[i]? = some y := by
  rw [List.getElem?_set_eq_of_lt _ (getElem?_lt_of_some h)]

theorem PlainAhead.position_modif {s : tcp_stream} {pos : tcp_stream_position} {a : Nat}
    {c : tcp_stream_chunk} {next : Option Nat} {k : Nat} (h : PlainAhead s pos a c next k) :
    tcp_stream_position_modif s pos true = Except.ok ⟨none, none, pos.modif, next⟩ := by
  cases hm : pos.modif with
  | none =>
    simp [tcp_stream_position_modif, hm, h.bound, get_chunk_eq h.chunk, h.unedited hm]
  | some mp =>
    obtain ⟨m, hmm, hf, hp, hn⟩ := h.passed mp hm
    rcases hp with hp | hp | hp
    · simp [tcp_stream_position_modif, hm, get_modif_eq hmm hf, hp, hn]
    · by_cases he : m.position = pos.chunk_offset
      · simp [tcp_stream_position_modif, hm, get_modif_eq hmm hf, he, hp, hn]
      · simp [tcp_stream_position_modif, hm, get_modif_eq hmm hf, he, hn]
    · by_cases he : m.position = pos.chunk_offset
      · simp [tcp_stream_position_modif, hm, get_modif_eq hmm hf, he, hp, hn]
      · simp [tcp_stream_position_modif, hm, get_modif_eq hmm hf, he, hn]

theorem PlainAhead.position_modif_cur {s : tcp_stream} {pos : tcp_stream_position} {a : Nat}
    {c : tcp_stream_chunk} {next : Option Nat} {k : Nat} (h : PlainAhead s pos a c next k) :
    ∃ lk, tcp_stream_position_modif s pos false = Except.ok lk ∧ lk.cur = none := by
  cases hm : pos.modif with
  | none =>
    exact ⟨⟨none, none, none, none⟩, by simp [tcp_stream_position_modif, hm, h.bound], rfl⟩
  | some mp =>
    obtain ⟨m, hmm, hf, hp, hn⟩ := h.passed mp hm
    refine ⟨⟨none, none, some mp, m.next⟩, ?_, rfl⟩
    rcases hp with hp | hp | hp
    · simp [tcp_stream_position_modif, hm, get_modif_eq hmm hf, hp]
    · by_cases he : m.position = pos.chunk_offset
      · simp [tcp_stream_position_modif, hm, get_modif_eq hmm hf, he, hp]
      · simp [tcp_stream_position_modif, hm, get_modif_eq hmm hf, he]
    · by_cases he : m.position = pos.chunk_offset
      · simp [tcp_stream_position_modif, hm, get_modif_eq hmm hf, he, hp]
      · simp [tcp_stream_position_modif, hm, get_modif_eq hmm hf, he]

theorem PlainAhead.update_modif (dbg : Bool) {s : tcp_stream} {pos : tcp_stream_position}
    {a : Nat} {c : tcp_stream_chunk} {next : Option Nat} {k : Nat}
    (h : PlainAhead s pos a c next k) (hk : 0 < k) :
    tcp_stream_position_update_modif dbg s pos = Except.ok pos := by
  have hnext : ∀ np, next = some np → ∃ q, get_modif s np = Except.ok q ∧
      c_assert dbg (q.position ≥ pos.chunk_offset) = Except.ok () ∧
      ¬ q.position = pos.chunk_offset := by
    intro np hn
    obtain ⟨q, hq, hf, hpos⟩ := h.ahead np hn
    exact ⟨q, get_modif_eq hq hf, c_assert_true dbg (by omega), by omega⟩
  cases hm : pos.modif with
  | none =>
    cases hn : next with
    | none =>
      have hu := h.unedited hm
      rw [hn] at hu
      simp [tcp_stream_position_update_modif, hm, h.bound, get_chunk_eq h.chunk, hu]
    | some np =>
      obtain ⟨q, hq, hca, hne⟩ := hnext np hn
      have hu := h.unedited hm
      rw [hn] at hu
      simp [tcp_stream_position_update_modif, hm, h.bound, get_chunk_eq h.chunk, hu, hq, hca, hne]
  | some mp =>
    obtain ⟨m, hmm, hf, hp, hmn⟩ := h.passed mp hm
    cases hn : next with
    | none =>
      rw [hn] at hmn
      by_cases he : pos.chunk_offset = m.position
      · by_cases hi : m.type = TCP_MODIF_INSERT ∧ pos.modif_offset ≥ m.length
        · simp [tcp_stream_position_update_modif, hm, get_modif_eq hmm hf, he.symm, hi, hmn]
        · by_cases hi2 : m.type = TCP_MODIF_ERASE ∧ pos.modif_offset ≠ 0
          · simp [tcp_stream_position_update_modif, hm, get_modif_eq hmm hf, he.symm, hi, hi2, hmn]
          · exfalso
            rcases hp with hp | hp | hp
            · exact hp he.symm
            · exact hi hp
            · exact hi2 hp
      · simp [tcp_stream_position_update_modif, hm, get_modif_eq hmm hf, he, hmn]
    | some np =>
      obtain ⟨q, hq, hca, hne⟩ := hnext np hn
      rw [hn] at hmn
      by_cases he : pos.chunk_offset = m.position
      · by_cases hi : m.type = TCP_MODIF_INSERT ∧ pos.modif_offset ≥ m.length
        · simp [tcp_stream_position_update_modif, hm, get_modif_eq hmm hf, he.symm, hi, hmn, hq, hca,
            hne]
        · by_cases hi2 : m.type = TCP_MODIF_ERASE ∧ pos.modif_offset ≠ 0
          · simp [tcp_stream_position_update_modif, hm, get_modif_eq hmm hf, he.symm, hi, hi2, hmn,
              hq, hca, hne]
          · exfalso
            rcases hp with hp | hp | hp
            · exact hp he.symm
            · exact hi hp
            · exact hi2 hp
      · simp [tcp_stream_position_update_modif, hm, get_modif_eq hmm hf, he, hmn, hq, hca, hne]

/-- With plain bytes ahead the position can advance without moving. -/
theorem PlainAhead.advance (dbg : Bool) (fuel : Nat) {s : tcp_stream}
    {pos : tcp_stream_position} {a : Nat} {c : tcp_stream_chunk} {next : Option Nat} {k : Nat}
    (h : PlainAhead s pos a c next k) (hk : 0 < k) :
    tcp_stream_position_advance dbg (fuel + 1) s pos = Except.ok (pos, true) := by
  have hsize := h.size
  have hroom := h.room
  have hne : ¬ size_add c.start_seq pos.chunk_offset = c.end_seq := by
    rw [size_add_eq (by omega)]
    omega
  have hle : size_add c.start_seq pos.chunk_offset ≤ c.end_seq := by
    rw [size_add_eq (by omega)]
    omega
  have hend : tcp_stream_position_chunk_at_end dbg s pos = Except.ok false := by
    simp [tcp_stream_position_chunk_at_end, deref_chunk, h.bound, get_chunk_eq h.chunk, hne]
  obtain ⟨lk, hlk, hcur⟩ := h.position_modif_cur
  rw [advance_bound dbg (fuel + 1) s h.bound]
  cases dbg
  · simp [tcp_stream_position_advance_loop, h.update_modif false hk, h.bound, hend, hlk, hcur]
  · simp [tcp_stream_position_advance_loop, h.update_modif true hk, h.bound, hend, hlk, hcur,
      get_chunk_eq h.chunk, c_assert_true true hle]

theorem insert_plain (dbg : Bool) (fuel : Nat) {s : tcp_stream} {a : Nat}
    {c : tcp_stream_chunk} {next : Option Nat} {k : Nat} (data : List Nat)
    (h : PlainAhead s s.current_position a c next k) (hk : 0 < k) :
    tcp_stream_insert dbg (fuel + 1) s data =
      (tcp_stream_create_insert_modif s s.current_position.modif next data >>=
        fun r => pure (r.1, data.length)) := by
  have hadv := h.advance dbg fuel hk
  have hlk := h.position_modif
  have hs : ({ s with current_position := s.current_position } : tcp_stream) = s := rfl
  simp only [tcp_stream_insert, hadv, ok_bind, h.bound, hs, hlk]

theorem create_insert_plain {s : tcp_stream} {a : Nat}
    {c : tcp_stream_chunk} {next : Option Nat} {k : Nat} (data : List Nat)
    (h : PlainAhead s s.current_position a c next k) :
    ∃ s1 c1, tcp_stream_create_insert_modif s s.current_position.modif next data =
        Except.ok (s1, s.modifs.length) ∧
      PlainAhead s1 s1.current_position a c1 next k ∧
      c1.offset_seq = int_wrap (size_add (size_of_int c.offset_seq) data.length) ∧
      c1.start_seq = c.start_seq ∧ c1.end_seq = c.end_seq ∧ c1.tcp = c.tcp ∧
      s1.current_position.chunk_offset = s.current_position.chunk_offset := by
  have hb := h.bound
  have hc := h.chunk
  have hlt := getElem?_lt_of_some hc
  cases hm : s.current_position.modif with
  | none =>
    have hu := h.unedited hm
    cases hop : tcp_stream_create_insert_modif s none next data with
    | error e =>
      exfalso
      simp [tcp_stream_create_insert_modif, update_modif, get_modif, set_modif, update_chunk,
        get_chunk, set_chunk, hb, hc, List.getElem?_set, hlt] at hop
    | ok r =>
      obtain ⟨s1, r1⟩ := r
      simp [tcp_stream_create_insert_modif, update_modif, get_modif, set_modif, update_chunk,
        get_chunk, set_chunk, hb, hc, List.getElem?_set, hlt] at hop
      obtain ⟨rfl, rfl⟩ := hop
      refine ⟨_, { c with modifs := some s.modifs.length, offset_seq := int_wrap (size_add (size_of_int c.offset_seq) data.length) }, rfl, ?_, rfl, rfl, rfl, rfl, rfl⟩
      constructor
      · rfl
      · simp [List.getElem?_set, hlt]
      · exact h.room
      · exact h.size
      · intro hx
        simp at hx
      · intro mp hmp
        simp at hmp
        subst hmp
        refine ⟨_, getElem?_append_one_right _ _, rfl, ?_, rfl⟩
        right; left
        exact ⟨rfl, le_refl _⟩
      · intro np hnp
        obtain ⟨q, hq, hqf, hqp⟩ := h.ahead np hnp
        exact ⟨q, getElem?_append_one_left hq, hqf, hqp⟩
  | some pp =>
    obtain ⟨m, hmm, hmf, hp, hmn⟩ := h.passed pp hm
    have hpplt := getElem?_lt_of_some hmm
    have hppne : ¬ s.modifs.length = pp := by omega
    cases hn : next with
    | none =>
      rw [hn] at hmn
      cases hop : tcp_stream_create_insert_modif s (some pp) none data with
      | error e =>
        exfalso
        simp [tcp_stream_create_insert_modif, update_modif, get_modif, set_modif, update_chunk,
          get_chunk, set_chunk, hb, hc, List.getElem?_set, hlt, List.getElem?_append_left, hpplt,
          hppne, hmm, hmf, hmn] at hop
      | ok r =>
        obtain ⟨s1, r1⟩ := r
        simp [tcp_stream_create_insert_modif, update_modif, get_modif, set_modif, update_chunk,
          get_chunk, set_chunk, hb, hc, List.getElem?_set, hlt, List.getElem?_append_left, hpplt,
          hppne, hmm, hmf, hmn] at hop
        obtain ⟨rfl, rfl⟩ := hop
        refine ⟨_, { c with offset_seq := int_wrap (size_add (size_of_int c.offset_seq) data.length) }, rfl, ?_, rfl, rfl, rfl, rfl, rfl⟩
        constructor
        · rfl
        · simp [List.getElem?_set, hlt]
        · exact h.room
        · exact h.size
        · intro hx
          simp at hx
        · intro mp hmp
          simp at hmp
          subst hmp
          refine ⟨{ type := TCP_MODIF_INSERT, position := s.current_position.chunk_offset,
                    length := data.length, prev := some pp, next := none, data := data,
                    freed := false }, ?_, rfl, ?_, rfl⟩
          · simp
          · right; left
            exact ⟨rfl, le_refl _⟩
        · intro np hnp
          simp at hnp
    | some np =>
      rw [hn] at hmn
      obtain ⟨q, hq, hqf, hqp⟩ := h.ahead np hn
      have hnplt := getElem?_lt_of_some hq
      have hnpne : ¬ s.modifs.length = np := by omega
      by_cases hal : np = pp
      · subst hal
        have hnplt2 : np < s.modifs.length + 1 := by omega
        rw [hq] at hmm
        simp only [Option.some.injEq] at hmm
        subst hmm
        cases hop : tcp_stream_create_insert_modif s (some np) (some np) data with
        | error e =>
          exfalso
          simp [tcp_stream_create_insert_modif, update_modif, get_modif, set_modif, update_chunk,
            get_chunk, set_chunk, hb, hc, List.getElem?_set, hlt, List.getElem?_append_left,
            hmn, hnplt, hnpne, hq, hqf] at hop
          simp [hnplt2] at hop
        | ok r =>
          obtain ⟨s1, r1⟩ := r
          simp [tcp_stream_create_insert_modif, update_modif, get_modif, set_modif, update_chunk,
            get_chunk, set_chunk, hb, hc, List.getElem?_set, hlt, List.getElem?_append_left,
            hmn, hnplt, hnpne, hq, hqf] at hop
          simp [hnplt2] at hop
          obtain ⟨rfl, rfl⟩ := hop
          refine ⟨_, { c with offset_seq := int_wrap (size_add (size_of_int c.offset_seq) data.length) }, rfl, ?_, rfl, rfl, rfl, rfl, rfl⟩
          constructor
          · rfl
          · simp [List.getElem?_set, hlt]
          · exact h.room
          · exact h.size
          · intro hx
            simp at hx
          · intro mp hmp
            simp at hmp
            subst hmp
            refine ⟨{ type := TCP_MODIF_INSERT, position := s.current_position.chunk_offset,
                      length := data.length, prev := some np, next := some np, data := data,
                      freed := false }, ?_, rfl, ?_, rfl⟩
            · simp
            · right; left
              exact ⟨rfl, le_refl _⟩
          · intro np2 hnp2
            simp at hnp2
            subst hnp2
            refine ⟨{ q with prev := some s.modifs.length, next := some s.modifs.length },
              ?_, hqf, hqp⟩
            simp [List.getElem?_append_left, List.getElem?_set, hnplt, hqf]
      · have hal2 : ¬ pp = np := fun e => hal e.symm
        cases hop : tcp_stream_create_insert_modif s (some pp) (some np) data with
        | error e =>
          exfalso
          simp [tcp_stream_create_insert_modif, update_modif, get_modif, set_modif, update_chunk,
            get_chunk, set_chunk, hb, hc, List.getElem?_set, hlt, List.getElem?_append_left, hpplt,
            hppne, hmm, hmf, hmn, hnplt, hnpne, hq, hqf, hal, hal2] at hop
        | ok r =>
          obtain ⟨s1, r1⟩ := r
          simp [tcp_stream_create_insert_modif, update_modif, get_modif, set_modif, update_chunk,
            get_chunk, set_chunk, hb, hc, List.getElem?_set, hlt, List.getElem?_append_left, hpplt,
            hppne, hmm, hmf, hmn, hnplt, hnpne, hq, hqf, hal, hal2] at hop
          obtain ⟨rfl, rfl⟩ := hop
          refine ⟨_, { c with offset_seq := int_wrap (size_add (size_of_int c.offset_seq) data.length) }, rfl, ?_, rfl, rfl, rfl, rfl, rfl⟩
          constructor
          · rfl
          · simp [List.getElem?_set, hlt]
          · exact h.room
          · exact h.size
          · intro hx
            simp at hx
          · intro mp hmp
            simp at hmp
            subst hmp
            refine ⟨{ type := TCP_MODIF_INSERT, position := s.current_position.chunk_offset,
                      length := data.length, prev := some pp, next := some np, data := data,
                      freed := false }, ?_, rfl, ?_, rfl⟩
            · simp
            · right; left
              exact ⟨rfl, le_refl _⟩
          · intro np2 hnp2
            simp at hnp2
            subst hnp2
            refine ⟨{ q with prev := some s.modifs.length }, ?_, hqf, hqp⟩
            simp [List.getElem?_append_left, List.getElem?_set, hnplt, hal, hal2, hqf]

set_option maxHeartbeats 1000000 in
theorem erase_plain (dbg : Bool) (fuel g : Nat) {s : tcp_stream} {a : Nat}
    {c : tcp_stream_chunk} {next : Option Nat} {k : Nat} (n : Nat)
    (h : PlainAhead s s.current_position a c next k) (hk : 0 < k) (hn : n ≤ k) :
    ∃ s1 c1, tcp_stream_erase dbg (fuel + 1) (g + 1) s n = Except.ok (s1, n) ∧
      PlainAhead s1 s1.current_position a c1 next (k - n) ∧
      c1.offset_seq = int_wrap (size_sub (size_of_int c.offset_seq) n) ∧
      c1.start_seq = c.start_seq ∧ c1.end_seq = c.end_seq ∧ c1.tcp = c.tcp ∧
      s1.current_position.chunk_offset = s.current_position.chunk_offset + n := by
  have hb := h.bound
  have hc := h.chunk
  have hlt := getElem?_lt_of_some hc
  have hadv := h.advance dbg fuel hk
  have hlk := h.position_modif
  have hs : ({ s with current_position := s.current_position } : tcp_stream) = s := rfl
  have hroom := h.room
  have hsize := h.size
  have hnn : ¬ (n > 0 ∧ n < n) := by omega
  have hoff : size_add s.current_position.chunk_offset n = s.current_position.chunk_offset + n :=
    size_add_eq (by omega)
  cases hm : s.current_position.modif with
  | none =>
    have hu := h.unedited hm
    cases hnx : next with
    | none =>
      have hmax : min (size_sub (size_sub c.end_seq c.start_seq) s.current_position.chunk_offset) n
          = n := by
        rw [size_sub_eq (by omega) hsize, size_sub_eq (by omega) (by omega)]
        omega
      have hcond : ¬ size_sub (size_sub c.end_seq c.start_seq) s.current_position.chunk_offset
          < n := by
        rw [size_sub_eq (by omega) hsize, size_sub_eq (by omega) (by omega)]
        omega
      rw [hnx] at hlk
      cases hop : tcp_stream_erase dbg (fuel + 1) (g + 1) s n with
      | error e =>
        exfalso
        simp only [tcp_stream_erase, hadv, ok_bind, hs, hlk, hm] at hop
        simp [tcp_stream_erase_payload, deref_chunk, update_modif, get_modif, set_modif,
          update_chunk, get_chunk, set_chunk, hb, hc, List.getElem?_set, hlt, hmax, hnn, hcond] at hop
      | ok r =>
        obtain ⟨s1, r1⟩ := r
        simp only [tcp_stream_erase, hadv, ok_bind, hs, hlk, hm] at hop
        simp [tcp_stream_erase_payload, deref_chunk, update_modif, get_modif, set_modif,
          update_chunk, get_chunk, set_chunk, hb, hc, List.getElem?_set, hlt, hmax, hnn, hcond] at hop
        obtain ⟨rfl, rfl⟩ := hop
        refine ⟨_, { c with modifs := some s.modifs.length, offset_seq := int_wrap (size_sub (size_of_int c.offset_seq) n) }, rfl, ?_, rfl, rfl, rfl, rfl, hoff⟩
        constructor
        · rfl
        · simp [List.getElem?_set, hlt]
        · simp only [hoff]
          omega
        · exact hsize
        · intro hx
          simp at hx
        · intro mp hmp
          simp at hmp
          subst hmp
          refine ⟨{ type := TCP_MODIF_ERASE, position := s.current_position.chunk_offset,
                    length := n, prev := none, next := none, data := [], freed := false },
            ?_, rfl, ?_, rfl⟩
          · simp
          · right; right
            exact ⟨rfl, by simp⟩
        · intro np hnp
          simp at hnp
    | some np =>
      obtain ⟨q, hq, hqf, hqp, hq64⟩ := h.ahead np hnx
      have hnplt := getElem?_lt_of_some hq
      have hnpne : ¬ s.modifs.length = np := by omega
      have hmax : min (size_sub q.position s.current_position.chunk_offset) n = n := by
        rw [size_sub_eq (by omega) hq64]
        omega
      have hcond : ¬ size_sub q.position s.current_position.chunk_offset < n := by
        rw [size_sub_eq (by omega) hq64]
        omega
      rw [hnx] at hlk
      cases hop : tcp_stream_erase dbg (fuel + 1) (g + 1) s n with
      | error e =>
        exfalso
        simp only [tcp_stream_erase, hadv, ok_bind, hs, hlk, hm] at hop
        simp [tcp_stream_erase_payload, deref_chunk, update_modif, get_modif, set_modif,
          update_chunk, get_chunk, set_chunk, hb, hc, List.getElem?_set, hlt, hmax, hnn, hcond,
          List.getElem?_append_left, hq, hqf, hnplt, hnpne] at hop
      | ok r =>
        obtain ⟨s1, r1⟩ := r
        simp only [tcp_stream_erase, hadv, ok_bind, hs, hlk, hm] at hop
        simp [tcp_stream_erase_payload, deref_chunk, update_modif, get_modif, set_modif,
          update_chunk, get_chunk, set_chunk, hb, hc, List.getElem?_set, hlt, hmax, hnn, hcond,
          List.getElem?_append_left, hq, hqf, hnplt, hnpne] at hop
        obtain ⟨rfl, rfl⟩ := hop
        refine ⟨_, { c with modifs := some s.modifs.length, offset_seq := int_wrap (size_sub (size_of_int c.offset_seq) n) }, rfl, ?_, rfl, rfl, rfl, rfl, hoff⟩
        constructor
        · rfl
        · simp [List.getElem?_set, hlt]
        · simp only [hoff]
          omega
        · exact hsize
        · intro hx
          simp at hx
        · intro mp hmp
          simp at hmp
          subst hmp
          refine ⟨{ type := TCP_MODIF_ERASE, position := s.current_position.chunk_offset,
                    length := n, prev := none, next := some np, data := [], freed := false },
            ?_, rfl, ?_, rfl⟩
          · simp
          · right; right
            exact ⟨rfl, by simp⟩
        · intro np2 hnp2
          simp at hnp2
          subst hnp2
          refine ⟨q, ?_, hqf, ?_, hq64⟩
          · simp [List.getElem?_append_left, List.getElem?_set, hnplt, hqf, hq]
          · simp only [hoff]
            omega
  | some pp =>
    obtain ⟨m, hmm, hmf, hp, hmn⟩ := h.passed pp hm
    have hpplt := getElem?_lt_of_some hmm
    have hppne : ¬ s.modifs.length = pp := by omega
    cases hnx : next with
    | none =>
      rw [hnx] at hmn
      have hmax : min (size_sub (size_sub c.end_seq c.start_seq) s.current_position.chunk_offset) n
          = n := by
        rw [size_sub_eq (by omega) hsize, size_sub_eq (by omega) (by omega)]
        omega
      have hcond : ¬ size_sub (size_sub c.end_seq c.start_seq) s.current_position.chunk_offset
          < n := by
        rw [size_sub_eq (by omega) hsize, size_sub_eq (by omega) (by omega)]
        omega
      rw [hnx] at hlk
      cases hop : tcp_stream_erase dbg (fuel + 1) (g + 1) s n with
      | error e =>
        exfalso
        simp only [tcp_stream_erase, hadv, ok_bind, hs, hlk, hm] at hop
        simp [tcp_stream_erase_payload, deref_chunk, update_modif, get_modif, set_modif,
          update_chunk, get_chunk, set_chunk, hb, hc, List.getElem?_set, hlt, hmax, hnn, hcond,
          List.getElem?_append_left, hpplt, hppne, hmm, hmf, hmn] at hop
      | ok r =>
        obtain ⟨s1, r1⟩ := r
        simp only [tcp_stream_erase, hadv, ok_bind, hs, hlk, hm] at hop
        simp [tcp_stream_erase_payload, deref_chunk, update_modif, get_modif, set_modif,
          update_chunk, get_chunk, set_chunk, hb, hc, List.getElem?_set, hlt, hmax, hnn, hcond,
          List.getElem?_append_left, hpplt, hppne, hmm, hmf, hmn] at hop
        obtain ⟨rfl, rfl⟩ := hop
        refine ⟨_, { c with offset_seq := int_wrap (size_sub (size_of_int c.offset_seq) n) }, rfl, ?_, rfl, rfl, rfl, rfl, hoff⟩
        constructor
        · rfl
        · simp [List.getElem?_set, hlt]
        · simp only [hoff]
          omega
        · exact hsize
        · intro hx
          simp at hx
        · intro mp hmp
          simp at hmp
          subst hmp
          refine ⟨{ type := TCP_MODIF_ERASE, position := s.current_position.chunk_offset,
                    length := n, prev := some pp, next := none, data := [], freed := false },
            ?_, rfl, ?_, rfl⟩
          · simp
          · right; right
            exact ⟨rfl, by simp⟩
        · intro np2 hnp2
          simp at hnp2
    | some np =>
      rw [hnx] at hmn
      obtain ⟨q, hq, hqf, hqp, hq64⟩ := h.ahead np hnx
      have hnplt := getElem?_lt_of_some hq
      have hnpne : ¬ s.modifs.length = np := by omega
      have hmax : min (size_sub q.position s.current_position.chunk_offset) n = n := by
        rw [size_sub_eq (by omega) hq64]
        omega
      have hcond : ¬ size_sub q.position s.current_position.chunk_offset < n := by
        rw [size_sub_eq (by omega) hq64]
        omega
      rw [hnx] at hlk
      by_cases hal : np = pp
      · subst hal
        have hnplt2 : np < s.modifs.length + 1 := by omega
        rw [hq] at hmm
        simp only [Option.some.injEq] at hmm
        subst hmm
        cases hop : tcp_stream_erase dbg (fuel + 1) (g + 1) s n with
        | error e =>
          exfalso
          simp only [tcp_stream_erase, hadv, ok_bind, hs, hlk, hm] at hop
          simp [tcp_stream_erase_payload, deref_chunk, update_modif, get_modif, set_modif,
            update_chunk, get_chunk, set_chunk, hb, hc, List.getElem?_set, hlt, hmax, hnn, hcond,
            List.getElem?_append_left, hq, hqf, hnplt, hnpne, hmn] at hop
          simp [hnplt2] at hop
        | ok r =>
          obtain ⟨s1, r1⟩ := r
          simp only [tcp_stream_erase, hadv, ok_bind, hs, hlk, hm] at hop
          simp [tcp_stream_erase_payload, deref_chunk, update_modif, get_modif, set_modif,
            update_chunk, get_chunk, set_chunk, hb, hc, List.getElem?_set, hlt, hmax, hnn, hcond,
            List.getElem?_append_left, hq, hqf, hnplt, hnpne, hmn] at hop
          simp [hnplt2] at hop
          obtain ⟨rfl, rfl⟩ := hop
          refine ⟨_, { c with offset_seq := int_wrap (size_sub (size_of_int c.offset_seq) n) }, rfl, ?_, rfl, rfl, rfl, rfl, hoff⟩
          constructor
          · rfl
          · simp [List.getElem?_set, hlt]
          · simp only [hoff]
            omega
          · exact hsize
          · intro hx
            simp at hx
          · intro mp hmp
            simp at hmp
            subst hmp
            refine ⟨{ type := TCP_MODIF_ERASE, position := s.current_position.chunk_offset,
                      length := n, prev := some np, next := some np, data := [], freed := false },
              ?_, rfl, ?_, rfl⟩
            · simp
            · right; right
              exact ⟨rfl, by simp⟩
          · intro np2 hnp2
            simp at hnp2
            subst hnp2
            refine ⟨{ q with prev := some s.modifs.length, next := some s.modifs.length }, ?_, hqf, ?_, hq64⟩
            · simp [List.getElem?_append_left, List.getElem?_set, hnplt, hqf, hq]
            · simp only [hoff]
              omega

      · have hal2 : ¬ pp = np := fun e => hal e.symm
        cases hop : tcp_stream_erase dbg (fuel + 1) (g + 1) s n with
        | error e =>
          exfalso
          simp only [tcp_stream_erase, hadv, ok_bind, hs, hlk, hm] at hop
          simp [tcp_stream_erase_payload, deref_chunk, update_modif, get_modif, set_modif,
            update_chunk, get_chunk, set_chunk, hb, hc, List.getElem?_set, hlt, hmax, hnn, hcond,
            List.getElem?_append_left, hpplt, hppne, hmm, hmf, hmn, hq, hqf, hnplt, hnpne, hal, hal2] at hop
        | ok r =>
          obtain ⟨s1, r1⟩ := r
          simp only [tcp_stream_erase, hadv, ok_bind, hs, hlk, hm] at hop
          simp [tcp_stream_erase_payload, deref_chunk, update_modif, get_modif, set_modif,
            update_chunk, get_chunk, set_chunk, hb, hc, List.getElem?_set, hlt, hmax, hnn, hcond,
            List.getElem?_append_left, hpplt, hppne, hmm, hmf, hmn, hq, hqf, hnplt, hnpne, hal, hal2] at hop
          obtain ⟨rfl, rfl⟩ := hop
          refine ⟨_, { c with offset_seq := int_wrap (size_sub (size_of_int c.offset_seq) n) }, rfl, ?_, rfl, rfl, rfl, rfl, hoff⟩
          constructor
          · rfl
          · simp [List.getElem?_set, hlt]
          · simp only [hoff]
            omega
          · exact hsize
          · intro hx
            simp at hx
          · intro mp hmp
            simp at hmp
            subst hmp
            refine ⟨{ type := TCP_MODIF_ERASE, position := s.current_position.chunk_offset,
                      length := n, prev := some pp, next := some np, data := [], freed := false },
              ?_, rfl, ?_, rfl⟩
            · simp
            · right; right
              exact ⟨rfl, by simp⟩
          · intro np2 hnp2
            simp at hnp2
            subst hnp2
            refine ⟨{ q with prev := some s.modifs.length }, ?_, hqf, ?_, hq64⟩
            · simp [List.getElem?_append_left, List.getElem?_set, hnplt, hqf, hq, hal, hal2]
            · simp only [hoff]
              omega

theorem read_step_ahead (dbg : Bool) (fuel : Nat) {s : tcp_stream} {pos : tcp_stream_position}
    {a : Nat} {c : tcp_stream_chunk} {next : Option Nat} {k : Nat} (j : Nat) (t : Tcp)
    (h : PlainAhead s pos a c next k) (hj : 0 < j) (hjk : j ≤ k)
    (ht : c.tcp = some t) (hlen : c.start_seq + t.payload.length = c.end_seq) :
    tcp_stream_position_read_step dbg (fuel + 1) s pos j =
      Except.ok ({ pos with chunk_offset := pos.chunk_offset + j,
                            current_seq_modif := size_add pos.current_seq_modif j },
                 some (j, (t.payload.drop pos.chunk_offset).take j)) := by
  have hadv := h.advance dbg fuel (lt_of_lt_of_le hj hjk)
  have hlk := h.position_modif
  have hroom := h.room
  have hsize := h.size
  have hoff : size_add pos.chunk_offset j = pos.chunk_offset + j := size_add_eq (by omega)
  have hcopy : pos.chunk_offset + j ≤ t.payload.length := by omega
  cases hnx : next with
  | none =>
    have hmax : min (size_sub (size_sub c.end_seq c.start_seq) pos.chunk_offset) j = j := by
      rw [size_sub_eq (by omega) hsize, size_sub_eq (by omega) (by omega)]
      omega
    rw [hnx] at hlk
    simp [tcp_stream_position_read_step, hadv, hlk, h.bound, get_chunk_eq h.chunk, hmax, ht,
      copy_bytes, hcopy, hoff]
  | some np =>
    obtain ⟨q, hq, hqf, hqp, hq64⟩ := h.ahead np hnx
    have hmax : min (size_sub q.position pos.chunk_offset) j = j := by
      rw [size_sub_eq (by omega) hq64]
      omega
    rw [hnx] at hlk
    simp [tcp_stream_position_read_step, hadv, hlk, h.bound, get_chunk_eq h.chunk, hmax, ht,
      copy_bytes, hcopy, hoff, get_modif_eq hq hqf]

theorem read_ahead (dbg : Bool) (fuel : Nat) {s : tcp_stream}
    {a : Nat} {c : tcp_stream_chunk} {next : Option Nat} {k : Nat} (j : Nat) (t : Tcp)
    (h : PlainAhead s s.current_position a c next k) (hj : 0 < j) (hjk : j ≤ k)
    (ht : c.tcp = some t) (hlen : c.start_seq + t.payload.length = c.end_seq) :
    tcp_stream_read dbg (fuel + 1) s j =
      Except.ok ({ s with current_position :=
                    { s.current_position with
                        chunk_offset := s.current_position.chunk_offset + j,
                        current_seq_modif := size_add s.current_position.current_seq_modif j } },
                 j, (t.payload.drop s.current_position.chunk_offset).take j) := by
  have hroom := h.room
  have hsize := h.size
  have hjj : size_sub j j = 0 := by
    rw [size_sub_eq (le_refl j) (by omega)]
    omega
  have hj0 : size_sub j 0 = j := size_sub_eq (Nat.zero_le j) (by omega)
  have hne : j ≠ 0 := by omega
  simp only [tcp_stream_read, tcp_stream_position_read, read_loop_succ dbg (fuel + 1) s fuel _ j []
    hne, read_step_ahead dbg fuel j t h hj hjk ht hlen, ok_bind, hjj, read_loop_zero, hj0,
    List.nil_append, pure_eq_ok]

theorem size_of_int_cast (x : Int) : ∃ q : Int, (size_of_int x : Int) = x + 2 ^ 64 * q := by
  refine ⟨-(x / 2 ^ 64), ?_⟩
  unfold size_of_int
  omega

theorem size_add_cast (a n : Nat) : ∃ q : Int, (size_add a n : Int) = a + n + 2 ^ 64 * q := by
  refine ⟨-(((a + n : Nat) : Int) / 2 ^ 64), ?_⟩
  unfold size_add
  omega

theorem size_sub_cast (a n : Nat) : ∃ q : Int, (size_sub a n : Int) = a - n + 2 ^ 64 * q := by
  unfold size_sub
  refine ⟨(1 : Int) - (a / 2 ^ 64 : Nat) + (n / 2 ^ 64 : Nat)
    - ((a % 2 ^ 64 + (2 ^ 64 - n % 2 ^ 64) : Nat) / 2 ^ 64 : Nat), ?_⟩
  omega

theorem int_wrap_cast (i : Int) : ∃ q : Int, int_wrap i = i + 2 ^ 32 * q := by
  refine ⟨-((i + 2 ^ 31) / 2 ^ 32), ?_⟩
  unfold int_wrap
  omega

theorem int_wrap_range (i : Int) : -2 ^ 31 ≤ int_wrap i ∧ int_wrap i < 2 ^ 31 := by
  unfold int_wrap
  omega


theorem offset_insert_erase (x : Int) (n : Nat) (hx : -2 ^ 31 ≤ x ∧ x < 2 ^ 31) :
    int_wrap (size_sub (size_of_int (int_wrap (size_add (size_of_int x) n))) n) = x := by
  obtain ⟨q1, h1⟩ := size_of_int_cast x
  obtain ⟨q2, h2⟩ := size_add_cast (size_of_int x) n
  obtain ⟨q3, h3⟩ := int_wrap_cast (size_add (size_of_int x) n)
  obtain ⟨q4, h4⟩ := size_of_int_cast (int_wrap (size_add (size_of_int x) n))
  obtain ⟨q5, h5⟩ := size_sub_cast (size_of_int (int_wrap (size_add (size_of_int x) n))) n
  obtain ⟨q6, h6⟩ := int_wrap_cast
    (size_sub (size_of_int (int_wrap (size_add (size_of_int x) n))) n)
  have hr := int_wrap_range (size_sub (size_of_int (int_wrap (size_add (size_of_int x) n))) n)
  generalize int_wrap (size_sub (size_of_int (int_wrap (size_add (size_of_int x) n))) n) = r
    at h6 hr ⊢
  generalize ((size_sub (size_of_int (int_wrap (size_add (size_of_int x) n))) n : Nat) : Int) = e
    at h5 h6
  generalize ((size_of_int (int_wrap (size_add (size_of_int x) n)) : Nat) : Int) = d at h4 h5
  generalize int_wrap (size_add (size_of_int x) n) = o at h3 h4
  generalize ((size_add (size_of_int x) n : Nat) : Int) = b at h2 h3
  generalize ((size_of_int x : Nat) : Int) = a at h1 h2
  omega

/-! ## Insert, erase and replace on plain payload (C12, C13) -/

theorem replace_eq_ok (dbg : Bool) (fuel : Nat) (s s2 : tcp_stream) (data : List Nat) (r : Nat) :
    tcp_stream_replace dbg fuel s data = Except.ok (s2, r) ↔
      ∃ s1 r1, tcp_stream_insert dbg fuel s data = Except.ok (s1, r) ∧
        tcp_stream_erase dbg fuel fuel s1 data.length = Except.ok (s2, r1) := by
  simp only [tcp_stream_replace, bind_eq_ok, pure_eq_ok, Except.ok.injEq, Prod.mk.injEq]
  constructor
  · rintro ⟨⟨s1, r0⟩, hi, ⟨s3, r1⟩, he, h1, h2⟩
    simp only at h1 h2
    subst h1 h2
    exact ⟨s1, r1, hi, he⟩
  · rintro ⟨s1, r1, hi, he⟩
    exact ⟨(s1, r), hi, (s2, r1), he, rfl, rfl⟩

theorem abcdef_read_stream_reached (dbg : Bool) :
    run dbg 8 tcp_stream_create (abcdef_trace ++ [Op.read 2]) = Except.ok abcdef_read_stream := by
  cases dbg <;> decide!

theorem abcdef_read_stream_plain :
    PlainAhead abcdef_read_stream abcdef_read_stream.current_position 0
      { tcp := some (data_segment 1001 [65, 66, 67, 68, 69, 70]), start_seq := 0, end_seq := 6,
        offset_seq := 0, modifs := none, next := none } none 4 := by
  constructor
  · rfl
  · rfl
  · decide
  · simp
  · intro _
    rfl
  · intro mp hmp
    cases hmp
  · intro np hnp
    cases hnp

/-- C13 (replace): let the read cursor be bound to the chunk `c` (at address
`a`), past the edit record it designates, with `k ≥ 1` payload bytes of `c`
ahead that no edit record touches, and let `data` have at most `k` bytes.  Then
`tcp_stream_replace` returns a result exactly when `tcp_stream_insert` followed
by `tcp_stream_erase` of `data.length` bytes does, with the stream of the erase
and the value of the insert; here all three succeed, the insert and the replace
return `data.length`, and the `offset_seq` of `c` after the replace is its
value before. -/
theorem replace_is_insert_then_erase (dbg : Bool) (fuel : Nat) (s : tcp_stream)
    (data : List Nat) (a : Nat) (c : tcp_stream_chunk) (next : Option Nat) (k : Nat)
    (h : PlainAhead s s.current_position a c next k) (hk : 0 < k) (hn : data.length ≤ k)
    (hint : -2 ^ 31 ≤ c.offset_seq ∧ c.offset_seq < 2 ^ 31) :
    (∀ s2 r, tcp_stream_replace dbg (fuel + 1) s data = Except.ok (s2, r) ↔
      ∃ s1 r1, tcp_stream_insert dbg (fuel + 1) s data = Except.ok (s1, r) ∧
        tcp_stream_erase dbg (fuel + 1) (fuel + 1) s1 data.length = Except.ok (s2, r1)) ∧
    ∃ s1 s2 c2,
      tcp_stream_insert dbg (fuel + 1) s data = Except.ok (s1, data.length) ∧
      tcp_stream_erase dbg (fuel + 1) (fuel + 1) s1 data.length = Except.ok (s2, data.length) ∧
      tcp_stream_replace dbg (fuel + 1) s data = Except.ok (s2, data.length) ∧
      s2.chunks[a]? = some c2 ∧ c2.offset_seq = c.offset_seq := by
  refine ⟨fun s2 r => replace_eq_ok dbg (fuel + 1) s s2 data r, ?_⟩
  obtain ⟨s1, c1, hins, hp1, ho1, -, -, -, -⟩ := create_insert_plain data h
  have hinsert : tcp_stream_insert dbg (fuel + 1) s data = Except.ok (s1, data.length) := by
    rw [insert_plain dbg fuel data h hk, hins]
    rfl
  obtain ⟨s2, c2, hers, hp2, ho2, -, -, -, -⟩ := erase_plain dbg fuel fuel data.length hp1 hk hn
  refine ⟨s1, s2, c2, hinsert, hers, ?_, hp2.chunk, ?_⟩
  · exact (replace_eq_ok dbg (fuel + 1) s s2 data data.length).mpr ⟨s1, _, hinsert, hers⟩
  · rw [ho2, ho1]
    exact offset_insert_erase c.offset_seq data.length hint

theorem replace_is_insert_then_erase_witness :
    ∃ s1 s2 c2,
      tcp_stream_insert true 8 abcdef_read_stream [88, 89] = Except.ok (s1, 2) ∧
      tcp_stream_erase true 8 8 s1 2 = Except.ok (s2, 2) ∧
      tcp_stream_replace true 8 abcdef_read_stream [88, 89] = Except.ok (s2, 2) ∧
      s2.chunks[0]? = some c2 ∧ c2.offset_seq = 0 :=
  (replace_is_insert_then_erase true 7 abcdef_read_stream [88, 89] 0
    { tcp := some (data_segment 1001 [65, 66, 67, 68, 69, 70]), start_seq := 0, end_seq := 6,
      offset_seq := 0, modifs := none, next := none } none 4
    abcdef_read_stream_plain (by decide) (by decide) (by decide)).2

/-- Insert then erase with the cursor bound: let the read cursor be bound to
the chunk `c`, at offset `o`, past the edit record it designates, with `k`
payload bytes of `c` ahead that no edit record touches, and let
`data.length + j ≤ k` with `j ≥ 1`.  A read of `j` bytes returns the payload
bytes `o .. o + j`; `tcp_stream_insert data` and `tcp_stream_erase` of
`data.length` bytes succeed and return `data.length`, the `offset_seq` of `c`
is back to its value, and a read of `j` bytes then returns the payload bytes
`o + data.length .. o + data.length + j`. -/
theorem insert_then_erase_plain (dbg : Bool) (fuel : Nat) (s : tcp_stream)
    (data : List Nat) (a : Nat) (c : tcp_stream_chunk) (next : Option Nat) (k j : Nat) (t : Tcp)
    (h : PlainAhead s s.current_position a c next k) (hj : 0 < j) (hn : data.length + j ≤ k)
    (ht : c.tcp = some t) (hlen : c.start_seq + t.payload.length = c.end_seq)
    (hint : -2 ^ 31 ≤ c.offset_seq ∧ c.offset_seq < 2 ^ 31) :
    ∃ s0 s1 s2 s3 c2,
      tcp_stream_read dbg (fuel + 1) s j =
        Except.ok (s0, j, (t.payload.drop s.current_position.chunk_offset).take j) ∧
      tcp_stream_insert dbg (fuel + 1) s data = Except.ok (s1, data.length) ∧
      tcp_stream_erase dbg (fuel + 1) (fuel + 1) s1 data.length = Except.ok (s2, data.length) ∧
      s2.chunks[a]? = some c2 ∧ c2.offset_seq = c.offset_seq ∧
      tcp_stream_read dbg (fuel + 1) s2 j =
        Except.ok (s3, j,
          (t.payload.drop (s.current_position.chunk_offset + data.length)).take j) := by
  have hk : 0 < k := by omega
  obtain ⟨s1, c1, hins, hp1, ho1, hs1, he1, ht1, hc1⟩ := create_insert_plain data h
  have hinsert : tcp_stream_insert dbg (fuel + 1) s data = Except.ok (s1, data.length) := by
    rw [insert_plain dbg fuel data h hk, hins]
    rfl
  obtain ⟨s2, c2, hers, hp2, ho2, hs2, he2, ht2, hc2⟩ :=
    erase_plain dbg fuel fuel data.length hp1 hk (by omega)
  have hread0 := read_ahead dbg fuel j t h hj (by omega) ht hlen
  have hread2 := read_ahead dbg fuel j t hp2 hj (by omega) (by rw [ht2, ht1, ht])
    (by rw [hs2, hs1, he2, he1]; exact hlen)
  rw [hc2, hc1] at hread2
  refine ⟨_, s1, s2, _, c2, hread0, hinsert, hers, hp2.chunk, ?_, hread2⟩
  rw [ho2, ho1]
  exact offset_insert_erase c.offset_seq data.length hint

theorem insert_then_erase_plain_witness :
    ∃ s0 s1 s2 s3 c2,
      tcp_stream_read true 8 abcdef_read_stream 2 = Except.ok (s0, 2, [67, 68]) ∧
      tcp_stream_insert true 8 abcdef_read_stream [88, 89] = Except.ok (s1, 2) ∧
      tcp_stream_erase true 8 8 s1 2 = Except.ok (s2, 2) ∧
      s2.chunks[0]? = some c2 ∧ c2.offset_seq = 0 ∧
      tcp_stream_read true 8 s2 2 = Except.ok (s3, 2, [69, 70]) :=
  insert_then_erase_plain true 7 abcdef_read_stream [88, 89] 0
    { tcp := some (data_segment 1001 [65, 66, 67, 68, 69, 70]), start_seq := 0, end_seq := 6,
      offset_seq := 0, modifs := none, next := none } none 4 2
    (data_segment 1001 [65, 66, 67, 68, 69, 70])
    abcdef_read_stream_plain (by decide) (by decide) rfl (by decide) (by decide)

/-- The first block of `tcp_stream_position_advance` on the read cursor gives
the position of `CursorOn`. -/
theorem cursor_on_advance (dbg : Bool) (fuel : Nat) {s : tcp_stream} {a : Nat}
    {c : tcp_stream_chunk} {pos : tcp_stream_position}
    (hcur : CursorOn dbg s a c pos) (hc : s.chunks[a]? = some c) :
    tcp_stream_position_advance dbg fuel s s.current_position =
      tcp_stream_position_advance dbg fuel s pos := by
  cases hcur with
  | bound _ => rfl
  | unbound h1 h2 h3 h4 h5 =>
    rw [advance_bind dbg fuel h1 h2 h3 hc h4 h5]
    exact (advance_bound dbg fuel s rfl).symm

theorem same_heap_cursor (s : tcp_stream) (pos : tcp_stream_position) :
    SameHeap { s with current_position := pos } s :=
  ⟨rfl, rfl, rfl, rfl, rfl⟩

/-- `tcp_stream_insert` sees the read cursor through
`tcp_stream_position_advance` only. -/
theorem insert_cursor_congr (dbg : Bool) (fuel : Nat) (s : tcp_stream)
    (pos : tcp_stream_position) (data : List Nat)
    (h : tcp_stream_position_advance dbg fuel s s.current_position =
      tcp_stream_position_advance dbg fuel s pos) :
    tcp_stream_insert dbg fuel s data =
      tcp_stream_insert dbg fuel { s with current_position := pos } data := by
  simp only [tcp_stream_insert]
  rw [advance_congr dbg fuel (same_heap_cursor s pos), h]

/-- `tcp_stream_read` of at least one byte sees the read cursor through
`tcp_stream_position_advance` only. -/
theorem read_cursor_congr (dbg : Bool) (fuel : Nat) (s : tcp_stream)
    (pos : tcp_stream_position) (j : Nat) (hj : 0 < j)
    (h : tcp_stream_position_advance dbg (fuel + 1) s s.current_position =
      tcp_stream_position_advance dbg (fuel + 1) s pos) :
    tcp_stream_read dbg (fuel + 1) s j =
      tcp_stream_read dbg (fuel + 1) { s with current_position := pos } j := by
  have hstep := read_step_congr dbg (fuel + 1) s s.current_position pos j h
  simp only [tcp_stream_read, tcp_stream_position_read]
  rw [read_loop_heap_congr dbg (fuel + 1) (same_heap_cursor s pos),
    read_loop_succ dbg (fuel + 1) s fuel _ j [] (by omega),
    read_loop_succ dbg (fuel + 1) s fuel _ j [] (by omega), hstep]

/-- C12, amended (insert then erase): let the read cursor be on the chunk `c`
at offset `o` (`CursorOn`: bound to `c`, or not bound yet with `c` the first
pending chunk, starting at the cursor), past the edit record it designates,
with `k` payload bytes of `c` ahead that no edit record touches, and let
`data.length + j ≤ k` with `j ≥ 1`.  A read of `j` bytes returns the payload
bytes `o .. o + j`.  After `tcp_stream_insert data` immediately followed by
`tcp_stream_erase` of `data.length` bytes, both of which succeed and return
`data.length`, the `offset_seq` of `c` is back to its value, but a read of `j`
bytes returns the payload bytes `o + data.length .. o + data.length + j`: the
erase removed the payload bytes that follow the inserted ones, not the
inserted bytes. -/
theorem insert_then_erase_removes_next_bytes (dbg : Bool) (fuel : Nat) (s : tcp_stream)
    (data : List Nat) (a : Nat) (c : tcp_stream_chunk) (next : Option Nat) (k j : Nat) (t : Tcp)
    (pos : tcp_stream_position) (hcur : CursorOn dbg s a c pos)
    (h : PlainAhead s pos a c next k) (hj : 0 < j) (hn : data.length + j ≤ k)
    (ht : c.tcp = some t) (hlen : c.start_seq + t.payload.length = c.end_seq)
    (hint : -2 ^ 31 ≤ c.offset_seq ∧ c.offset_seq < 2 ^ 31) :
    ∃ s0 s1 s2 s3 c2,
      tcp_stream_read dbg (fuel + 1) s j =
        Except.ok (s0, j, (t.payload.drop pos.chunk_offset).take j) ∧
      tcp_stream_insert dbg (fuel + 1) s data = Except.ok (s1, data.length) ∧
      tcp_stream_erase dbg (fuel + 1) (fuel + 1) s1 data.length = Except.ok (s2, data.length) ∧
      s2.chunks[a]? = some c2 ∧ c2.offset_seq = c.offset_seq ∧
      tcp_stream_read dbg (fuel + 1) s2 j =
        Except.ok (s3, j, (t.payload.drop (pos.chunk_offset + data.length)).take j) := by
  have hadv := cursor_on_advance dbg (fuel + 1) hcur h.chunk
  have h1 : PlainAhead { s with current_position := pos }
      ({ s with current_position := pos } : tcp_stream).current_position a c next k :=
    ⟨h.bound, h.chunk, h.room, h.size, h.unedited, h.passed, h.ahead⟩
  obtain ⟨s0, s1, s2, s3, c2, e0, e1, e2, e3, e4, e5⟩ :=
    insert_then_erase_plain dbg fuel _ data a c next k j t h1 hj hn ht hlen hint
  refine ⟨s0, s1, s2, s3, c2, ?_, ?_, e2, e3, e4, e5⟩
  · rw [read_cursor_congr dbg fuel s pos j hj hadv]
    exact e0
  · rw [insert_cursor_congr dbg (fuel + 1) s pos data hadv]
    exact e1

theorem abcdef_stream_reached (dbg : Bool) :
    run dbg 8 tcp_stream_create abcdef_trace = Except.ok abcdef_stream := by
  cases dbg <;> decide!

/-- Witness of `insert_then_erase_removes_next_bytes` on `abcdef_stream`, where
the cursor is not bound yet: a read of two bytes returns `"AB"`; after the
insert of `"XY"` and the erase of two bytes it returns `"CD"`. -/
theorem insert_then_erase_removes_next_bytes_witness :
    ∃ s0 s1 s2 s3 c2,
      tcp_stream_read true 8 abcdef_stream 2 = Except.ok (s0, 2, [65, 66]) ∧
      tcp_stream_insert true 8 abcdef_stream [88, 89] = Except.ok (s1, 2) ∧
      tcp_stream_erase true 8 8 s1 2 = Except.ok (s2, 2) ∧
      s2.chunks[0]? = some c2 ∧ c2.offset_seq = 0 ∧
      tcp_stream_read true 8 s2 2 = Except.ok (s3, 2, [67, 68]) :=
  insert_then_erase_removes_next_bytes true 7 abcdef_stream [88, 89] 0
    { tcp := some (data_segment 1001 [65, 66, 67, 68, 69, 70]), start_seq := 0, end_seq := 6,
      offset_seq := 0, modifs := none, next := none } none 6 2
    (data_segment 1001 [65, 66, 67, 68, 69, 70]) _
    (CursorOn.unbound rfl rfl rfl rfl (fun _ => by decide))
    ⟨rfl, rfl, (by decide), (by decide), (fun _ => rfl), (fun mp hmp => nomatch hmp),
      (fun np hnp => nomatch hnp)⟩
    (by decide) (by decide) rfl (by decide) (by decide)

theorem throw_ne_ok {α : Type} (e : Fault) (a : α) :
    (throw e : M α) = Except.ok a ↔ False := by
  simp [throw, throwThe, MonadExceptOf.throw]

theorem chunk_release_loop_cursors (fuel : Nat) :
    ∀ (s s1 : tcp_stream) (p : Option Nat),
      tcp_stream_chunk_release_loop fuel s p = Except.ok s1 →
      s1.mark_position = s.mark_position ∧ s1.current_position = s.current_position := by
  intro s s1 p h
  obtain ⟨ms, rfl⟩ := chunk_release_loop_frame _ _ _ _ h
  exact ⟨rfl, rfl⟩

theorem chunk_release_cursors (fuel : Nat) (s s1 : tcp_stream) (a : Nat)
    (h : tcp_stream_chunk_release fuel s a = Except.ok s1) :
    s1.mark_position = s.mark_position ∧ s1.current_position = s.current_position := by
  obtain ⟨ms, c, -, rfl⟩ := chunk_release_frame _ _ _ _ h
  exact ⟨rfl, rfl⟩

theorem pop_emit_cursors (dbg : Bool) (fuel : Nat) (s s1 : tcp_stream) (cp : Nat)
    (r : Option Tcp) (h : tcp_stream_pop_emit dbg fuel s cp = Except.ok (s1, r)) :
    s1.mark_position = s.mark_position ∧ s1.current_position = s.current_position := by
  simp only [tcp_stream_pop_emit, bind_eq_ok] at h
  obtain ⟨c, -, t0, -, t1, -, -, -, s5, hs5, s6, hs6, s7, hs7, s8, hs8, hres⟩ := h
  simp only [pure_eq_ok, Except.ok.injEq, Prod.mk.injEq] at hres
  obtain ⟨rfl, -⟩ := hres
  rw [update_chunk_eq_ok] at hs5
  obtain ⟨c5, -, rfl⟩ := hs5
  have e6 : s6.mark_position = s.mark_position ∧ s6.current_position = s.current_position := by
    split at hs6
    · simp only [bind_eq_ok, pure_eq_ok, Except.ok.injEq] at hs6
      obtain ⟨l, -, -, -, s5b, hs5b, rfl⟩ := hs6
      rw [update_chunk_eq_ok] at hs5b
      obtain ⟨c5b, -, rfl⟩ := hs5b
      exact ⟨rfl, rfl⟩
    · simp only [pure_eq_ok, Except.ok.injEq] at hs6
      subst hs6
      exact ⟨rfl, rfl⟩
  rw [update_chunk_eq_ok] at hs7
  obtain ⟨c7, -, rfl⟩ := hs7
  obtain ⟨ms, c8, -, rfl⟩ := chunk_release_frame _ _ _ _ hs8
  exact e6

/-- C21 (SYN handling is idempotent): the push of a SYN segment with sequence
number `q` on the fresh stream succeeds and sets `start_seq` to `q + 1` in
32-bit arithmetic (to `q + 1` itself when that is a 32-bit value), changing
nothing else but `seq_initialized`; on every stream on which a SYN was seen
(`seq_initialized`), whatever else was pushed, the push of a SYN segment with
any sequence number succeeds and leaves the whole stream unchanged. -/
theorem push_syn_idempotent (dbg : Bool) (fuel : Nat) (q : Nat) :
    tcp_stream_push dbg fuel tcp_stream_create (syn_segment q) =
      Except.ok ({ tcp_stream_create with start_seq := (q + 1) % 2 ^ 32,
                                          seq_initialized := true }, none) ∧
    (q + 1 < 2 ^ 32 →
      tcp_stream_push dbg fuel tcp_stream_create (syn_segment q) =
        Except.ok ({ tcp_stream_create with start_seq := q + 1,
                                            seq_initialized := true }, none)) ∧
    ∀ (s : tcp_stream) (tcp : Tcp), s.seq_initialized = true → tcp.syn = true →
      tcp_stream_push dbg fuel s tcp = Except.ok (s, none) := by
  refine ⟨?_, ?_, ?_⟩
  · simp [tcp_stream_push, syn_segment, tcp_stream_create]
  · intro hq
    simp [tcp_stream_push, syn_segment, tcp_stream_create]
    omega
  · intro s tcp hs ht
    simp [tcp_stream_push, hs, ht]

theorem push_syn_idempotent_witness :
    tcp_stream_push true 8 tcp_stream_create (syn_segment 1000) =
      Except.ok ({ tcp_stream_create with start_seq := 1001, seq_initialized := true }, none) ∧
    tcp_stream_push true 8 hello_world_stream (syn_segment 5000) =
      Except.ok (hello_world_stream, none) :=
  ⟨(push_syn_idempotent true 8 1000).2.1 (by decide),
   (push_syn_idempotent true 8 1000).2.2 hello_world_stream (syn_segment 5000) rfl rfl⟩

/-- C22 (failed push is atomic): a segment without SYN pushed on a stream on
which no SYN was seen fails with `invalid stream`; and whenever
`tcp_stream_push` returns a failure, whatever the error, the stream after the
call is the stream before it. -/
theorem push_failure_is_atomic (dbg : Bool) (fuel : Nat) (s : tcp_stream) (tcp : Tcp) :
    (s.seq_initialized = false → tcp.syn = false →
      tcp_stream_push dbg fuel s tcp = Except.ok (s, some Err.invalid_stream)) ∧
    ∀ (s1 : tcp_stream) (e : Err),
      tcp_stream_push dbg fuel s tcp = Except.ok (s1, some e) → s1 = s := by
  constructor
  · intro hs ht
    simp [tcp_stream_push, hs, ht]
  · intro s1 e h
    simp only [tcp_stream_push, set_chunk] at h
    repeat' (first
      | split at h
      | (rw [bind_eq_ok] at h
         obtain ⟨x, hx, h⟩ := h)
      | (simp only [pure_eq_ok, Except.ok.injEq, Prod.mk.injEq] at h)
      | (simp only [throw_ne_ok] at h))
    all_goals (first
      | exact h.1.symm
      | (exact absurd h.2 (by simp)))

theorem push_failure_is_atomic_witness :
    tcp_stream_push true 8 tcp_stream_create (data_segment 1001 [65]) =
      Except.ok (tcp_stream_create, some Err.invalid_stream) :=
  (push_failure_is_atomic true 8 tcp_stream_create (data_segment 1001 [65])).1 rfl rfl

/-- C23 (unmark and rewind): when the mark is invalid, as on the fresh stream,
`tcp_stream_unmark` and `tcp_stream_rewind` both fail with `stream was not
marked` and return the stream unchanged; when the mark is valid both succeed,
`tcp_stream_unmark` leaves an invalid mark and the read cursor unchanged,
`tcp_stream_rewind` leaves an invalid mark and the read cursor equal to the
former mark cursor, and neither changes anything but the two cursors. -/
theorem unmark_rewind_iff_marked (s : tcp_stream) :
    tcp_stream_position_isvalid tcp_stream_create.mark_position = false ∧
    (tcp_stream_position_isvalid s.mark_position = false →
      tcp_stream_unmark s = (s, some Err.stream_was_not_marked) ∧
      tcp_stream_rewind s = (s, some Err.stream_was_not_marked)) ∧
    (tcp_stream_position_isvalid s.mark_position = true →
      (tcp_stream_unmark s).2 = none ∧
      tcp_stream_position_isvalid (tcp_stream_unmark s).1.mark_position = false ∧
      (tcp_stream_unmark s).1.current_position = s.current_position ∧
      (tcp_stream_unmark s).1 =
        { s with mark_position := (tcp_stream_unmark s).1.mark_position } ∧
      (tcp_stream_rewind s).2 = none ∧
      tcp_stream_position_isvalid (tcp_stream_rewind s).1.mark_position = false ∧
      (tcp_stream_rewind s).1.current_position = s.mark_position ∧
      (tcp_stream_rewind s).1 =
        { s with current_position := s.mark_position,
                 mark_position := (tcp_stream_rewind s).1.mark_position }) ∧
    ((tcp_stream_unmark s).2 = none ↔ tcp_stream_position_isvalid s.mark_position = true) ∧
    ((tcp_stream_rewind s).2 = none ↔ tcp_stream_position_isvalid s.mark_position = true) := by
  have hinv : ∀ p, tcp_stream_position_isvalid (tcp_stream_position_invalidate p) = false := by
    intro p
    simp [tcp_stream_position_isvalid, tcp_stream_position_invalidate]
  refine ⟨hinv _, ?_, ?_, ?_, ?_⟩
  · intro h
    simp [tcp_stream_unmark, tcp_stream_rewind, h]
  · intro h
    simp [tcp_stream_unmark, tcp_stream_rewind, h, hinv]
  · cases h : tcp_stream_position_isvalid s.mark_position <;> simp [tcp_stream_unmark, h]
  · cases h : tcp_stream_position_isvalid s.mark_position <;> simp [tcp_stream_rewind, h]

theorem unmark_rewind_iff_marked_witness :
    tcp_stream_unmark tcp_stream_create = (tcp_stream_create, some Err.stream_was_not_marked) ∧
    (tcp_stream_rewind (tcp_stream_mark abcdef_read_stream).1).2 = none ∧
    (tcp_stream_rewind (tcp_stream_mark abcdef_read_stream).1).1.current_position =
      abcdef_read_stream.current_position :=
  ⟨((unmark_rewind_iff_marked tcp_stream_create).2.1 (by decide)).1,
   ((unmark_rewind_iff_marked (tcp_stream_mark abcdef_read_stream).1).2.2.1 (by decide)).2.2.2.2.1,
   ((unmark_rewind_iff_marked (tcp_stream_mark abcdef_read_stream).1).2.2.1
      (by decide)).2.2.2.2.2.2.1⟩

/-! ## Mark ordering (C17) -/

theorem chunk_is_before_eq_true (s : tcp_stream) (pos : tcp_stream_position) (cp : Nat)
    (h : tcp_stream_position_chunk_is_before s pos cp = Except.ok true) :
    pos.chunk ≠ some cp ∧
    ∃ c, s.chunks[cp]? = some c ∧ c.end_seq ≤ size_add pos.chunk_seq pos.chunk_offset := by
  simp only [tcp_stream_position_chunk_is_before] at h
  split at h
  · rename_i hne
    simp only [bind_eq_ok, get_chunk_eq_ok, pure_eq_ok, Except.ok.injEq, decide_eq_true_eq] at h
    obtain ⟨c, hc, hle⟩ := h
    exact ⟨hne, c, hc, hle⟩
  · simp at h

/-- What `tcp_stream_pop` has checked when it returns a segment: the cursor it
tests, the mark when it is valid and the read cursor otherwise, is past the
first pending chunk `c` after the advancement (bound to another chunk or to
none, at or beyond `c.end_seq`); and the call moved the cursors of the stream
it then emits from, and nothing else, before the emission. -/
theorem pop_some_checked_cursor (dbg : Bool) (fuel : Nat) (s s1 : tcp_stream) (t : Tcp)
    (h : tcp_stream_pop dbg fuel s = Except.ok (s1, some t)) :
    ∃ cp c, s.first = some cp ∧ s.chunks[cp]? = some c ∧
      ((tcp_stream_position_isvalid s.mark_position = true ∧
          s1.mark_position.chunk ≠ some cp ∧
          c.end_seq ≤ size_add s1.mark_position.chunk_seq s1.mark_position.chunk_offset) ∨
       (tcp_stream_position_isvalid s.mark_position = false ∧
          s1.current_position.chunk ≠ some cp ∧
          c.end_seq ≤
            size_add s1.current_position.chunk_seq s1.current_position.chunk_offset)) := by
  simp only [tcp_stream_pop] at h
  rw [bind_eq_ok] at h
  obtain ⟨-, -, h⟩ := h
  rw [bind_eq_ok] at h
  obtain ⟨⟨cur1, b1⟩, -, h⟩ := h
  rw [bind_eq_ok] at h
  obtain ⟨⟨s2, pos⟩, hblock, h⟩ := h
  simp only at h hblock
  split at h
  · simp at h
  · rename_i cp hfirst
    rw [bind_eq_ok] at h
    obtain ⟨b, hb, h⟩ := h
    split at h
    · rename_i hbt
      subst hbt
      obtain ⟨hne, c, hc, hle⟩ := chunk_is_before_eq_true _ _ _ hb
      have e3 := pop_emit_cursors _ _ _ _ _ _ h
      split at hblock
      · rename_i hv
        simp only [bind_eq_ok, pure_eq_ok, Except.ok.injEq, Prod.mk.injEq] at hblock
        obtain ⟨cur2, -, ⟨mk1, b2⟩, -, mk2, -, rfl, rfl⟩ := hblock
        refine ⟨cp, c, hfirst, hc, Or.inl ⟨hv, ?_, ?_⟩⟩
        · rw [e3.1]
          exact hne
        · rw [e3.1]
          exact hle
      · rename_i hv
        simp only [bind_eq_ok, pure_eq_ok, Except.ok.injEq, Prod.mk.injEq] at hblock
        obtain ⟨⟨cur2, tot⟩, -, cur3, -, rfl, rfl⟩ := hblock
        refine ⟨cp, c, hfirst, hc, Or.inr ⟨by simpa using hv, ?_, ?_⟩⟩
        · rw [e3.2]
          exact hne
        · rw [e3.2]
          exact hle
    · simp at h

/-- When `tcp_stream_pop` returns no segment it has changed nothing but the two
cursors: the pending list, the sent list and `first_offset_seq` are as
before. -/
theorem pop_none_keeps_lists (dbg : Bool) (fuel : Nat) (s s1 : tcp_stream)
    (h : tcp_stream_pop dbg fuel s = Except.ok (s1, none)) :
    s1 = { s with current_position := s1.current_position,
                  mark_position := s1.mark_position } := by
  simp only [tcp_stream_pop] at h
  rw [bind_eq_ok] at h
  obtain ⟨-, -, h⟩ := h
  rw [bind_eq_ok] at h
  obtain ⟨⟨cur1, b1⟩, -, h⟩ := h
  rw [bind_eq_ok] at h
  obtain ⟨⟨s2, pos⟩, hblock, h⟩ := h
  have hs2 : s2 = { s with current_position := s2.current_position,
                           mark_position := s2.mark_position } := by
    simp only at hblock
    split at hblock
    · simp only [bind_eq_ok, pure_eq_ok, Except.ok.injEq, Prod.mk.injEq] at hblock
      obtain ⟨cur2, -, ⟨mk1, b2⟩, -, mk2, -, rfl, -⟩ := hblock
      rfl
    · simp only [bind_eq_ok, pure_eq_ok, Except.ok.injEq, Prod.mk.injEq] at hblock
      obtain ⟨⟨cur2, tot⟩, -, cur3, -, rfl, -⟩ := hblock
      rfl
  simp only at h
  split at h
  · simp only [pure_eq_ok, Except.ok.injEq, Prod.mk.injEq] at h
    obtain ⟨rfl, -⟩ := h
    exact hs2
  · rw [bind_eq_ok] at h
    obtain ⟨b, -, h⟩ := h
    split at h
    · exfalso
      simp only [tcp_stream_pop_emit, bind_eq_ok, pure_eq_ok, Except.ok.injEq,
        Prod.mk.injEq] at h
      obtain ⟨_, -, _, -, _, -, _, -, _, -, _, -, _, -, _, -, -, h⟩ := h
      cases h
    · simp only [pure_eq_ok, Except.ok.injEq, Prod.mk.injEq] at h
      obtain ⟨rfl, -⟩ := h
      exact hs2

/-! ## Evaluations for the cursor and edit-list invariants (C24 to C27) -/

/-- C24 (cursor position invariant): after two bytes of `"HELLO"` the cursor
has `current_seq_modif = 2 = chunk_seq_modif + chunk_offset`; after seven bytes
of `"HELLO"`, `"WORLD"` it is bound to the second chunk, which has no edit
record and starts at 5, at offset 2, with `current_seq_modif = 7` but
`chunk_seq_modif = 0`: the step to the next chunk left the value of the first
chunk, and `7 ≠ 0 + 2`. -/
theorem cursor_invariant_fails_in_next_chunk (dbg : Bool) :
    position_after dbg 8 (hello_world_trace ++ [Op.read 2]) =
      Except.ok { chunk_seq := 0, chunk_seq_modif := 0, current_seq_modif := 2,
                  chunk := some 0, chunk_offset := 2, modif := none, modif_offset := SIZE_MAX } ∧
    position_after dbg 8 (hello_world_trace ++ [Op.read 7]) =
      Except.ok { chunk_seq := 5, chunk_seq_modif := 0, current_seq_modif := 7,
                  chunk := some 1, chunk_offset := 2, modif := none, modif_offset := SIZE_MAX } ∧
    cursor_chunk_after dbg 8 (hello_world_trace ++ [Op.read 7]) =
      Except.ok { tcp := some (data_segment 1006 [87, 79, 82, 76, 68]), start_seq := 5,
                  end_seq := 10, offset_seq := 0, modifs := none, next := none } := by
  cases dbg <;> decide!

/-- C25 (insert into an existing insert): with the cursor rewound in front of
the insert record `"X"`, the first of its chunk, `tcp_stream_insert "Y"` returns
1 and allocates the record `"YX"` at the same position, the cursor designates
it at offset 1 with `current_seq_modif = 1` and `offset_seq` is 2; but the
chunk's `modifs` still designates the record `"X"` (address 0), which was
freed, and the pop of the chunk is a use after free.  When the record is not
the first of the list (`second_insert_trace`) its predecessor is linked to the
new record and the pop emits the combined bytes. -/
theorem insert_into_first_insert_keeps_stale_head (dbg : Bool) :
    insert_after dbg 8 (abcdef_trace ++ [Op.mark, Op.insert [88], Op.rewind]) [89] =
      Except.ok 1 ∧
    modifs_after dbg 8 head_insert_trace =
      Except.ok [{ type := TCP_MODIF_INSERT, position := 0, length := 1, prev := none,
                   next := none, data := [88], freed := true },
                 { type := TCP_MODIF_INSERT, position := 0, length := 2, prev := none,
                   next := none, data := [89, 88], freed := false }] ∧
    position_after dbg 8 head_insert_trace =
      Except.ok { chunk_seq := 0, chunk_seq_modif := 0, current_seq_modif := 1,
                  chunk := some 0, chunk_offset := 0, modif := some 1, modif_offset := 1 } ∧
    first_chunk_after dbg 8 head_insert_trace =
      Except.ok { tcp := some (data_segment 1001 [65, 66, 67, 68, 69, 70]), start_seq := 0,
                  end_seq := 6, offset_seq := 2, modifs := some 0, next := none } ∧
    popped_after dbg 8 (head_insert_trace ++ [Op.read 10]) 1 =
      Except.error Fault.use_after_free ∧
    first_chunk_edits dbg 8 second_insert_trace =
      Except.ok [{ type := TCP_MODIF_INSERT, position := 0, length := 1, prev := none,
                   next := some 2, data := [80], freed := false },
                 { type := TCP_MODIF_INSERT, position := 2, length := 2, prev := some 0,
                   next := none, data := [89, 88], freed := false }] ∧
    popped_after dbg 8 (second_insert_trace ++ [Op.read 10]) 1 =
      Except.ok [some (data_segment 1001 [80, 65, 66, 89, 88, 67, 68, 69, 70])] := by
  cases dbg <;> decide!

/-- C26 (edit-list order): without assertions, after `adopted_insert_trace` the
pending chunk `"H"`, of length 1, has an edit list with the positions 0, 0, 2,
and after `adopted_unsorted_trace` the pending chunk `"EFG"` has an edit list
with the positions 0, 3, 0; the first chunk of both has no edit list.  With
assertions both traces stop on a failed assertion. -/
theorem adopted_insert_breaks_edit_order :
    pending_edit_positions false 8 adopted_insert_trace =
      Except.ok [(2, []), (1, [0, 0, 2])] ∧
    pending_edit_positions false 8 adopted_unsorted_trace =
      Except.ok [(4, []), (3, [0, 3, 0])] ∧
    pending_edit_positions true 8 adopted_insert_trace = Except.error Fault.assertion ∧
    pending_edit_positions true 8 adopted_unsorted_trace = Except.error Fault.assertion := by
  decide!

/-- C27 (edit-list links): after an insert record (`front_insert_trace`) or an
erase record (`front_erase_trace`) is created in front of the record `"ZZ"`,
the new record is the head of the list and its `next` designates `"ZZ"`, but
the `prev` of `"ZZ"` is still null.  Without assertions, the erase of `"ZZ"`
then empties the list (the record `"Q"` is no longer reachable) while
`offset_seq` stays 1; with assertions it stops on a failed assertion. -/
theorem front_record_is_not_linked_back (dbg : Bool) :
    first_chunk_edits dbg 8 front_insert_trace =
      Except.ok [{ type := TCP_MODIF_INSERT, position := 0, length := 1, prev := none,
                   next := some 0, data := [81], freed := false },
                 { type := TCP_MODIF_INSERT, position := 3, length := 2, prev := none,
                   next := none, data := [90, 90], freed := false }] ∧
    first_chunk_edits dbg 8 front_erase_trace =
      Except.ok [{ type := TCP_MODIF_ERASE, position := 0, length := 1, prev := none,
                   next := some 0, data := [], freed := false },
                 { type := TCP_MODIF_INSERT, position := 3, length := 2, prev := none,
                   next := none, data := [90, 90], freed := false }] ∧
    first_chunk_after false 8 (front_insert_trace ++ [Op.read 3, Op.erase 2]) =
      Except.ok { tcp := some (data_segment 1001 [65, 66, 67, 68, 69, 70]), start_seq := 0,
                  end_seq := 6, offset_seq := 1, modifs := none, next := none } ∧
    first_chunk_after true 8 (front_insert_trace ++ [Op.read 3, Op.erase 2]) =
      Except.error Fault.assertion := by
  cases dbg <;> decide!

/-! ## Evaluation for the emission test of pop (C19) -/

/-- C19 (pop emission gating): without assertions, after `stale_insert_trace`
the pending list holds the empty chunk `[4, 4)` (address 1), the mark is valid
and the read cursor is unbound at sequence 4 and designates the never adopted
pending insert (record 0), whose `next` is the erase record of the first
chunk.  `tcp_stream_pop` then returns the segment of that chunk, although the
read cursor is bound to it after the cursor advancement
(`tcp_stream_position_chunk_is_before` is false for the read cursor, true for
the mark).  With assertions the trace stops on a failed assertion at its first
read. -/
theorem pop_emits_chunk_under_read_cursor :
    pending_after false 8 stale_insert_trace = Except.ok [(4, 4)] ∧
    pop_gating_after false 8 stale_insert_trace
      = Except.ok (some 1, some (data_segment 1004 []), some 1, true, false, true) ∧
    position_after false 8 stale_insert_trace
      = Except.ok { chunk_seq := 4, chunk_seq_modif := 0, current_seq_modif := 5, chunk := none,
                    chunk_offset := 0, modif := some 0, modif_offset := 1 } ∧
    modifs_after false 8 stale_insert_trace
      = Except.ok [{ type := TCP_MODIF_INSERT, position := 0, length := 1, prev := none,
                     next := some 1, data := [88], freed := false },
                   { type := TCP_MODIF_ERASE, position := 3, length := 1, prev := some 0,
                     next := none, data := [], freed := false }] ∧
    read_after true 8 (stale_insert_trace.take 3) 3 = Except.error Fault.assertion := by
  refine ⟨?_, ?_, ?_, ?_, ?_⟩ <;> decide!

/-! ## Evaluation for the reassembled read (C10) -/

/-- C10 (reassembled read): in `rebound_trace` no edit is ever made.  After the
read of 7 bytes the cursor has `current_seq_modif = 7`; the first pop moves it
to the end of `"WORLD"` and leaves `current_seq_modif = 5`.  After the trace
the pending list is the single chunk `[10, 13)` and the read cursor is not
bound, at `chunk_seq = 10`, the start of that chunk, with
`current_seq_modif = 5`.  A read of 5 bytes returns the 3 bytes `"ABC"`
without assertions; with assertions it stops on the failed assertion of the
binding (`current_seq_modif == chunk_seq_modif`). -/
theorem read_after_pops_fails_binding_assertion :
    modifs_after true 8 rebound_trace = Except.ok [] ∧
    position_after true 8 (rebound_trace.take 4) =
      Except.ok { chunk_seq := 5, chunk_seq_modif := 0, current_seq_modif := 7,
                  chunk := some 1, chunk_offset := 2, modif := none, modif_offset := SIZE_MAX } ∧
    position_after true 8 (rebound_trace.take 5) =
      Except.ok { chunk_seq := 5, chunk_seq_modif := 0, current_seq_modif := 5,
                  chunk := some 1, chunk_offset := 5, modif := none, modif_offset := SIZE_MAX } ∧
    pending_after true 8 rebound_trace = Except.ok [(10, 13)] ∧
    position_after true 8 rebound_trace =
      Except.ok { chunk_seq := 10, chunk_seq_modif := 0, current_seq_modif := 5,
                  chunk := none, chunk_offset := 0, modif := none, modif_offset := SIZE_MAX } ∧
    read_after false 8 rebound_trace 5 = Except.ok (3, [65, 66, 67]) ∧
    read_after true 8 rebound_trace 5 = Except.error Fault.assertion := by
  refine ⟨?_, ?_, ?_, ?_, ?_, ?_, ?_⟩ <;> decide!

end Haka
